import Mathlib

/-!
Verification development for the emergency-vehicle routing core
(edge-based graph model, constraint engine, three search algorithms,
relaxation-driven planner).

Shallow-embedding conventions:
* Python floats are modelled as rationals (`ℚ`); `math.inf` is the top
  element of `WithTop ℚ`.  All arithmetic performed by the code on these
  values (comparisons, additions, multiplications) is exact on the
  rationals appearing in this development.
* A networkx node-attribute dict is modelled as a record of optional
  typed fields (`SegData`); `dict.get(k, d)` becomes `Option.getD`.
* `math.hypot` is irrational in general, so the two heuristic searches
  are parameterised by an abstract function `hypot : ℚ → ℚ → ℚ`;
  `axisHypot` below agrees with `math.hypot` whenever one argument is
  zero, which covers every concrete graph used here (all concrete
  coordinates are axis-aligned).
* Python dicts keep insertion order: node and edge sets are lists in
  insertion order, and mutable dicts inside the algorithms are
  association lists updated by consing (lookup takes the most recent
  binding).  `heapq` pops the smallest tuple in lexicographic order;
  `popMin`/`popMin3` pick exactly that element.
* The `while` loops are embedded with an explicit fuel parameter; a
  search returns `none` only when the fuel runs out (a modelling
  artefact, distinct from every outcome of the Python code).
* Exceptions raised by `_plan_route` are modelled with `Except String`.
-/

namespace CAEmergency

/-- Cost domain: rationals plus the `math.inf` sentinel. -/
abbrev QInf := WithTop ℚ

/-- An edge-graph node `(orig_u, orig_v, key)`: one directed traversal of a
road edge, exactly the triple used as the networkx node key. -/
abbrev Enode := ℕ × ℕ × ℕ

/-- Attribute record of one road segment (the networkx node-attribute dict).
Optional fields model dict keys that may be absent.  Numeric OSM attributes
(`maxheight`, `maxweight`, `lanes`) are modelled as already-parsed numbers,
so `_safe_float`/`_safe_int` reduce to `Option.getD` with the call-site
default. -/
structure SegData where
  orig_u : Option ℕ := none
  orig_v : Option ℕ := none
  travel_time : Option ℚ := none
  traffic_mult : Option ℚ := none
  penalty : Option ℚ := none
  closed : Option Bool := none
  bridge : Option String := none
  tunnel : Option String := none
  maxheight : Option ℚ := none
  maxweight : Option ℚ := none
  lanes : Option ℤ := none
  highway : Option String := none
  u_x : ℚ := 0
  u_y : ℚ := 0
  v_x : ℚ := 0
  v_y : ℚ := 0
deriving DecidableEq, Repr, Inhabited

/-- The edge-based directed graph `EG`: nodes are road segments with their
attribute dicts, edges are turn transitions with their `turn_cost`
attribute.  Lists are in insertion order. -/
structure EdgeGraph where
  nodes : List (Enode × SegData)
  edges : List ((Enode × Enode) × ℚ)
deriving DecidableEq, Repr

/-- First-match association-list lookup (Python dict access). -/
def alookup {α β : Type} [DecidableEq α] (l : List (α × β)) (k : α) : Option β :=
  (l.find? (fun p => decide (p.1 = k))).map (fun p => p.2)

/-- `EG.nodes[enode]` (attribute dict of a node; total with the all-absent
record as fallback — the code only ever reads nodes present in the graph). -/
def nodeData (G : EdgeGraph) (e : Enode) : SegData :=
  (alookup G.nodes e).getD default

/-- `EG.edges[a, b].get("turn_cost", 0.0)`, and also the `has_edge`-guarded
read in `compute_route_tt` (both give `0` for a missing edge/attribute). -/
def turnCost (G : EdgeGraph) (a b : Enode) : ℚ :=
  (alookup G.edges (a, b)).getD 0

/-- `EG.has_edge(a, b)`. -/
def hasEdge (G : EdgeGraph) (a b : Enode) : Bool :=
  (alookup G.edges (a, b)).isSome

/-- `EG.successors(e)` in edge-insertion order. -/
def successors (G : EdgeGraph) (e : Enode) : List Enode :=
  (G.edges.filter (fun p => decide (p.1.1 = e))).map (fun p => p.1.2)

/-- `EG.predecessors(e)` in edge-insertion order. -/
def predecessors (G : EdgeGraph) (e : Enode) : List Enode :=
  (G.edges.filter (fun p => decide (p.1.2 = e))).map (fun p => p.1.1)

/-- `enode_travel_time`: `travel_time * traffic_mult + penalty` with the
dict-get defaults `0.0`, `1.0`, `0.0`. -/
def enodeTravelTime (G : EdgeGraph) (e : Enode) : ℚ :=
  let data := nodeData G e
  data.travel_time.getD 0 * data.traffic_mult.getD 1 + data.penalty.getD 0

/-- `is_enode_closed`: `bool(data.get("closed", False))`. -/
def isEnodeClosed (G : EdgeGraph) (e : Enode) : Bool :=
  (nodeData G e).closed.getD false

/-- `enodes_from_start`: nodes whose `orig_u` attribute equals the start id. -/
def enodesFromStart (G : EdgeGraph) (start_node_id : ℕ) : List Enode :=
  (G.nodes.filter (fun p => decide (p.2.orig_u = some start_node_id))).map (fun p => p.1)

/-- `target_nodes`: nodes whose `orig_v` attribute equals the target id
(a Python set, realised as the list in node-insertion order; only
membership and the choice of a sample element are ever used). -/
def targetNodes (G : EdgeGraph) (target_node_id : ℕ) : List Enode :=
  (G.nodes.filter (fun p => decide (p.2.orig_v = some target_node_id))).map (fun p => p.1)

/-- Cost of the tail of a route: `turn_cost + travel_time` for each
subsequent segment (shared by `compute_route_tt` and the relaxation step
of the three searches). -/
def restCost (G : EdgeGraph) : Enode → List Enode → ℚ
  | _, [] => 0
  | p, c :: rest => turnCost G p c + enodeTravelTime G c + restCost G c rest

/-- Total cost of a segment sequence: first segment's travel time plus
`turn_cost + travel_time` for each subsequent segment. -/
def pathCost (G : EdgeGraph) : List Enode → ℚ
  | [] => 0
  | e :: rest => enodeTravelTime G e + restCost G e rest

/-- `compute_route_tt` (`math.inf` on an empty/absent route). -/
def compute_route_tt (G : EdgeGraph) (route : Option (List Enode)) : QInf :=
  match route with
  | none => ⊤
  | some [] => ⊤
  | some l => ((pathCost G l : ℚ) : QInf)

/-! ## Constraint engine (`src/core/constraints.py`) -/

/-- A constraint set / vehicle profile: a dict with these possible keys,
each present (`some`) or absent (`none`). -/
structure Constraints where
  max_height : Option ℚ := none
  max_weight : Option ℚ := none
  min_lanes : Option ℤ := none
  avoid_closed : Option Bool := none
  traffic_multi : Option ℚ := none
  non_preferred_penalty : Option ℚ := none
  road_type : Option (List String) := none
  tunnel : Option (List String) := none
  bridge : Option (List String) := none
  hard_constraints : Option (List String) := none
  soft_constraints : Option (List String) := none
deriving DecidableEq, Repr, Inhabited

/-- The empty dict `{}` (falsy in Python). -/
def emptyConstraints : Constraints := {}

def roadTypeList : List String :=
  ["primary", "secondary", "tertiary", "unclassified", "primary_link", "service",
   "residential", "busway", "secondary_link", "tertiary_link", "living_street"]

/-- `VEHICLE_PROFILES`. -/
def VEHICLE_PROFILES : List (String × Constraints) :=
  [("ambulance",
    { max_height := some 3, max_weight := some 4, min_lanes := some 1,
      avoid_closed := some true, traffic_multi := some 1,
      non_preferred_penalty := some 3, road_type := some roadTypeList,
      hard_constraints := some ["max_height", "max_weight", "max_width"],
      soft_constraints := some ["min_lanes", "road_type", "avoid_closed"] }),
   ("fire_engine",
    { max_height := some (mkRat 7 2), max_weight := some 12, min_lanes := some 2,
      avoid_closed := some true, traffic_multi := some 2,
      non_preferred_penalty := some 3, road_type := some roadTypeList,
      hard_constraints := some ["max_height", "max_weight", "max_width"],
      soft_constraints := some ["min_lanes", "road_type", "avoid_closed"] }),
   ("police_units",
    { max_height := some (mkRat 5 2), max_weight := some (mkRat 5 2), min_lanes := some 1,
      avoid_closed := some false, traffic_multi := some 2,
      non_preferred_penalty := some 3, road_type := some roadTypeList,
      hard_constraints := some ["max_height", "max_weight"],
      soft_constraints := some ["min_lanes", "road_type", "avoid_closed"] })]

/-- `data.get("bridge"/"tunnel", "no") in ("yes", "true", "1")`. -/
def flagYes (s : Option String) : Bool :=
  decide (s.getD "no" ∈ (["yes", "true", "1"] : List String))

/-- `data.get(attr) not in allow_list` (an absent attribute, Python `None`,
is never in a list of strings). -/
def optNotMem (s : Option String) (l : List String) : Bool :=
  match s with
  | some v => decide (v ∉ l)
  | none => true

/-- The soft-penalty accumulation of `validate_single_edge` (the additive
part, reached only when no hard check fires).  The two avoid-closed
branches mirror the code: the first tests truthiness of
`constraints.get("avoid_closed")`, the second tests key presence and then
the value; for a boolean value both fire exactly when the value is
`some true`. -/
def softPenalty (data : SegData) (c : Constraints) : ℚ :=
  let npp := c.non_preferred_penalty.getD 10
  (if c.avoid_closed.getD false && data.closed.getD true then npp else 0) +
  (if (match c.avoid_closed with
       | some b => b && data.closed.getD true
       | none => false) then npp else 0) +
  (match c.tunnel with
   | some l => if optNotMem data.tunnel l then npp else 0
   | none => 0) +
  (match c.bridge with
   | some l => if optNotMem data.bridge l then npp else 0
   | none => 0) +
  (match c.road_type with
   | some l => if optNotMem data.highway l then npp else 0
   | none => 0)

/-- `validate_single_edge(EG, enode, constraints) -> (ok, penalty)`.
Hard checks (early `return False, math.inf`) in code order, then the
accumulated soft penalty. -/
def validate_single_edge (G : EdgeGraph) (e : Enode) (c : Constraints) : Bool × QInf :=
  let data := nodeData G e
  if flagYes data.bridge &&
     (match c.max_height with
      | some mh => decide (data.maxheight.getD 5 > mh)
      | none => false) then (false, ⊤)
  else if flagYes data.bridge &&
     (match c.max_weight with
      | some mw => decide (data.maxweight.getD 30 > mw)
      | none => false) then (false, ⊤)
  else if flagYes data.tunnel &&
     (match c.max_height with
      | some mh => decide (data.maxheight.getD (mkRat 9 2) > mh)
      | none => false) then (false, ⊤)
  else if (match c.min_lanes with
      | some ml => decide (data.lanes.getD 2 < ml)
      | none => false) then (false, ⊤)
  else (true, ((softPenalty data c : ℚ) : QInf))

/-- Per-segment fold of `validate_route`: first hard rejection makes the
whole route invalid with infinite penalty, otherwise penalties add up. -/
def validateSegs (G : EdgeGraph) (c : Constraints) : List Enode → ℚ → Bool × QInf
  | [], acc => (true, ((acc : ℚ) : QInf))
  | e :: rest, acc =>
    match validate_single_edge G e c with
    | (false, _) => (false, ⊤)
    | (true, p) =>
      match p with
      | some q => validateSegs G c rest (acc + q)
      | none => (false, ⊤)

/-- `validate_route(EG, route_enodes, constraints)`; an absent (`None`) or
empty route is invalid with infinite penalty. -/
def validate_route (G : EdgeGraph) (route : Option (List Enode)) (c : Constraints) :
    Bool × QInf :=
  match route with
  | none => (false, ⊤)
  | some [] => (false, ⊤)
  | some l => validateSegs G c l 0

/-! ## Relaxation (`relax_constraints` in `src/core/route_planner.py`) -/

/-- `relax_constraints(base, level)`: level 0 returns the profile
unchanged; level ≥ 1 pops `road_type` and `traffic_multi`; level ≥ 2 pops
`min_lanes`; level ≥ 3 keeps only the `avoid_closed` key. -/
def relax_constraints (base : Constraints) (level : ℕ) : Constraints :=
  if level = 0 then base
  else
    let c := base
    let c := if 1 ≤ level then { c with road_type := none, traffic_multi := none } else c
    let c := if 2 ≤ level then { c with min_lanes := none } else c
    if 3 ≤ level then { emptyConstraints with avoid_closed := c.avoid_closed } else c

/-! ## Shared search infrastructure (`src/core/search_algorithms.py`) -/

/-- Result dict of one search call. -/
structure SearchResult where
  route_nodes : Option (List ℕ)
  route_enodes : Option (List Enode)
  cost : QInf
  expanded : ℕ
deriving DecidableEq, Repr

/-- The `"no route"` dict: `None` route fields and infinite cost. -/
def noRoute (expanded : ℕ) : SearchResult :=
  ⟨none, none, ⊤, expanded⟩

/-- Truthiness of the `constraints` argument (`if constraints:`): `None`
and the empty dict are falsy. -/
def constraintsTruthy : Option Constraints → Bool
  | none => false
  | some c => decide (c ≠ emptyConstraints)

/-- The seed/target filtering applied when `constraints` is truthy. -/
def filterByConstraints (G : EdgeGraph) (oc : Option Constraints) (l : List Enode) :
    List Enode :=
  match oc with
  | some c =>
    if c = emptyConstraints then l
    else l.filter (fun e => (validate_single_edge G e c).1)
  | none => l

/-- The hard closed filter `not allow_closed and is_enode_closed(...)` used
in seeding and expansion; `true` means the segment is skipped. -/
def closedSkip (G : EdgeGraph) (allowClosed : Bool) (e : Enode) : Bool :=
  !allowClosed && isEnodeClosed G e

/-- Lexicographic order on enode triples (Python tuple comparison). -/
abbrev enodeLt (a b : Enode) : Prop :=
  a.1 < b.1 ∨ (a.1 = b.1 ∧ (a.2.1 < b.2.1 ∨ (a.2.1 = b.2.1 ∧ a.2.2 < b.2.2)))

/-- Lexicographic order on heap tuples `(cost, enode)` (Python tuple
comparison used by `heapq`). -/
abbrev pairLt (a b : ℚ × Enode) : Prop :=
  a.1 < b.1 ∨ (a.1 = b.1 ∧ enodeLt a.2 b.2)

/-- Lexicographic order on heap tuples `(f, g, enode)`. -/
abbrev tripLt (a b : ℚ × ℚ × Enode) : Prop :=
  a.1 < b.1 ∨ (a.1 = b.1 ∧ (a.2.1 < b.2.1 ∨ (a.2.1 = b.2.1 ∧ enodeLt a.2.2 b.2.2)))

/-- Fold computing the lexicographically smallest entry. -/
def pickMin (e : ℚ × Enode) (l : List (ℚ × Enode)) : ℚ × Enode :=
  l.foldl (fun best x => if pairLt x best then x else best) e

/-- `heapq.heappop` on a pair heap: remove and return the smallest tuple. -/
def popMin (pq : List (ℚ × Enode)) : Option ((ℚ × Enode) × List (ℚ × Enode)) :=
  match pq with
  | [] => none
  | e :: rest =>
    let m := pickMin e rest
    some (m, pq.erase m)

/-- Fold computing the lexicographically smallest triple entry. -/
def pickMin3 (e : ℚ × ℚ × Enode) (l : List (ℚ × ℚ × Enode)) : ℚ × ℚ × Enode :=
  l.foldl (fun best x => if tripLt x best then x else best) e

/-- `heapq.heappop` on a triple heap. -/
def popMin3 (pq : List (ℚ × ℚ × Enode)) :
    Option ((ℚ × ℚ × Enode) × List (ℚ × ℚ × Enode)) :=
  match pq with
  | [] => none
  | e :: rest =>
    let m := pickMin3 e rest
    some (m, pq.erase m)

/-- `m.get(e, math.inf)` for the `dist`/`gscore` dicts. -/
def lookupQ (m : List (Enode × ℚ)) (e : Enode) : QInf :=
  match alookup m e with
  | some c => ((c : ℚ) : QInf)
  | none => ⊤

/-- `max_visits is not None and expanded >= max_visits`. -/
def capReached (maxVisits : Option ℕ) (expanded : ℕ) : Bool :=
  match maxVisits with
  | some m => decide (m ≤ expanded)
  | none => false

/-- Follow the `prev` chain from an enode (the reconstruction `while`
loop); fuel-bounded, and called with fuel larger than any acyclic chain. -/
def buildPath (prev : List (Enode × Option Enode)) : ℕ → Enode → List Enode
  | 0, e => [e]
  | fuel + 1, e =>
    match alookup prev e with
    | some (some p) => e :: buildPath prev fuel p
    | _ => [e]

/-- Convert an edge-route to a node-route: the first segment contributes
both endpoints of its key, every later one its destination endpoint. -/
def buildRouteNodes (path : List Enode) : List ℕ :=
  match path with
  | [] => []
  | e :: rest => e.1 :: e.2.1 :: rest.map (fun f => f.2.1)

/-! ## Uniform-cost search (`dijkstra_route`) -/

/-- Mutable state of the Dijkstra loop. -/
structure DState where
  pq : List (ℚ × Enode)
  dist : List (Enode × ℚ)
  prev : List (Enode × Option Enode)
  visited : List Enode
  expanded : ℕ
deriving Repr

/-- Seed initialisation: each start segment passing the closed filter gets
`dist = travel_time`, no predecessor, and a heap entry. -/
def dInit (G : EdgeGraph) (allowClosed : Bool) (seeds : List Enode) : DState :=
  seeds.foldl (fun st en =>
    if closedSkip G allowClosed en then st
    else
      let c := enodeTravelTime G en
      { st with dist := (en, c) :: st.dist, prev := (en, none) :: st.prev,
                pq := (c, en) :: st.pq })
    ⟨[], [], [], [], 0⟩

/-- Relaxation over the successors of the popped segment. -/
def dRelax (G : EdgeGraph) (allowClosed : Bool) (e : Enode) (cu : ℚ) (st : DState) :
    DState :=
  (successors G e).foldl (fun st nb =>
    if closedSkip G allowClosed nb then st
    else
      let cand := cu + turnCost G e nb + enodeTravelTime G nb
      if ((cand : ℚ) : QInf) < lookupQ st.dist nb then
        { st with dist := (nb, cand) :: st.dist, prev := (nb, some e) :: st.prev,
                  pq := (cand, nb) :: st.pq }
      else st) st

/-- The Dijkstra `while pq:` loop.  Returns `none` on fuel exhaustion,
otherwise the found target/cost (or `none` for "no target") with the
final state. -/
def dLoop (G : EdgeGraph) (targets : List Enode) (allowClosed : Bool)
    (maxVisits : Option ℕ) : ℕ → DState → Option (Option (Enode × ℚ) × DState)
  | 0, _ => none
  | fuel + 1, st =>
    match popMin st.pq with
    | none => some (none, st)
    | some ((c, e), rest) =>
      if capReached maxVisits st.expanded then some (none, { st with pq := rest })
      else if lookupQ st.dist e < ((c : ℚ) : QInf) then
        dLoop G targets allowClosed maxVisits fuel { st with pq := rest }
      else
        let st1 : DState := { st with pq := rest, expanded := st.expanded + 1 }
        if e ∈ targets then some (some (e, c), st1)
        else
          dLoop G targets allowClosed maxVisits fuel
            (dRelax G allowClosed e c { st1 with visited := e :: st1.visited })

/-- `dijkstra_route`. -/
def dijkstra_route (fuel : ℕ) (G : EdgeGraph) (start_node_id target_node_id : ℕ)
    (constraints : Option Constraints) (allow_closed : Bool)
    (max_visits : Option ℕ) : Option SearchResult :=
  let start_enodes := enodesFromStart G start_node_id
  let target_enodes := targetNodes G target_node_id
  if start_enodes = [] ∨ target_enodes = [] then some (noRoute 0)
  else
    let start_enodes := filterByConstraints G constraints start_enodes
    let target_enodes := filterByConstraints G constraints target_enodes
    match dLoop G target_enodes allow_closed max_visits fuel
      (dInit G allow_closed start_enodes) with
    | none => none
    | some (none, st) => some (noRoute st.expanded)
    | some (some (e, c), st) =>
      let path_enodes := (buildPath st.prev (st.prev.length + 1) e).reverse
      some ⟨some (buildRouteNodes path_enodes), some path_enodes, ((c : ℚ) : QInf), st.expanded⟩

/-! ## Heuristic search (`astar_route`)

`math.hypot` computes a square root, which is irrational in general, so
the development is parameterised by an abstract `hypot : ℚ → ℚ → ℚ`.  The
function below agrees with `math.hypot` whenever one of its arguments is
zero; every concrete graph in this file uses axis-aligned coordinates, so
the embedded runs coincide with the Python runs. -/

def axisHypot (dx dy : ℚ) : ℚ :=
  if dx = 0 then |dy| else if dy = 0 then |dx| else 0

/-- The A* heuristic closure: straight-line distance from a segment's
destination endpoint `(v_x, v_y)` to the point `(tx, ty)`, divided by
`vmax_mps`. -/
def vHeuristic (hypot : ℚ → ℚ → ℚ) (G : EdgeGraph) (tx ty vmax : ℚ) (e : Enode) : ℚ :=
  hypot ((nodeData G e).v_x - tx) ((nodeData G e).v_y - ty) / vmax

/-- The backward heuristic closure of the bidirectional search: distance
from a segment's origin endpoint `(u_x, u_y)` to `(sx, sy)`, divided by
`vmax_mps`. -/
def uHeuristic (hypot : ℚ → ℚ → ℚ) (G : EdgeGraph) (sx sy vmax : ℚ) (e : Enode) : ℚ :=
  hypot ((nodeData G e).u_x - sx) ((nodeData G e).u_y - sy) / vmax

/-- Mutable state of the A* loop. -/
structure AState where
  open_heap : List (ℚ × ℚ × Enode)
  gscore : List (Enode × ℚ)
  prev : List (Enode × Option Enode)
  visited : List Enode
  expanded : ℕ
deriving Repr

/-- A* seed initialisation. -/
def aInit (G : EdgeGraph) (allowClosed : Bool) (h : Enode → ℚ) (seeds : List Enode) :
    AState :=
  seeds.foldl (fun st en =>
    if closedSkip G allowClosed en then st
    else
      let g := enodeTravelTime G en
      { st with gscore := (en, g) :: st.gscore, prev := (en, none) :: st.prev,
                open_heap := (g + h en, g, en) :: st.open_heap })
    ⟨[], [], [], [], 0⟩

/-- A* relaxation over the successors of the popped segment. -/
def aRelax (G : EdgeGraph) (allowClosed : Bool) (h : Enode → ℚ) (e : Enode) (g : ℚ)
    (st : AState) : AState :=
  (successors G e).foldl (fun st nb =>
    if closedSkip G allowClosed nb then st
    else
      let tg := g + turnCost G e nb + enodeTravelTime G nb
      if ((tg : ℚ) : QInf) < lookupQ st.gscore nb then
        { st with gscore := (nb, tg) :: st.gscore, prev := (nb, some e) :: st.prev,
                  open_heap := (tg + h nb, tg, nb) :: st.open_heap }
      else st) st

/-- The A* `while open_heap:` loop.  A popped segment already in `visited`
is skipped; otherwise it is marked visited, stale entries are skipped,
and the first target popped ends the search. -/
def aLoop (G : EdgeGraph) (targets : List Enode) (allowClosed : Bool)
    (maxVisits : Option ℕ) (h : Enode → ℚ) :
    ℕ → AState → Option (Option (Enode × ℚ) × AState)
  | 0, _ => none
  | fuel + 1, st =>
    match popMin3 st.open_heap with
    | none => some (none, st)
    | some ((_, g, e), rest) =>
      if capReached maxVisits st.expanded then some (none, { st with open_heap := rest })
      else if e ∈ st.visited then
        aLoop G targets allowClosed maxVisits h fuel { st with open_heap := rest }
      else
        let st1 : AState := { st with open_heap := rest, visited := e :: st.visited }
        if lookupQ st1.gscore e < ((g : ℚ) : QInf) then
          aLoop G targets allowClosed maxVisits h fuel st1
        else
          let st2 : AState := { st1 with expanded := st1.expanded + 1 }
          if e ∈ targets then some (some (e, g), st2)
          else aLoop G targets allowClosed maxVisits h fuel (aRelax G allowClosed h e g st2)

/-- `astar_route`.  `sample_target = next(iter(target_enodes))` is the
first filtered target (`headD`; on an empty filtered target set the
Python code would raise `StopIteration` — no caller reaches that case,
since the planner always passes `constraints=None`). -/
def astar_route (hypot : ℚ → ℚ → ℚ) (fuel : ℕ) (G : EdgeGraph)
    (start_node_id target_node_id : ℕ) (constraints : Option Constraints)
    (vmax_mps : ℚ) (allow_closed : Bool) (max_visits : Option ℕ) :
    Option SearchResult :=
  let start_enodes := enodesFromStart G start_node_id
  let target_enodes := targetNodes G target_node_id
  if start_enodes = [] ∨ target_enodes = [] then some (noRoute 0)
  else
    let start_enodes := filterByConstraints G constraints start_enodes
    let target_enodes := filterByConstraints G constraints target_enodes
    let sample_target := target_enodes.headD (0, 0, 0)
    let tx := (nodeData G sample_target).v_x
    let ty := (nodeData G sample_target).v_y
    let h := vHeuristic hypot G tx ty vmax_mps
    match aLoop G target_enodes allow_closed max_visits h fuel
      (aInit G allow_closed h start_enodes) with
    | none => none
    | some (none, st) => some (noRoute st.expanded)
    | some (some (e, g), st) =>
      let path_enodes := (buildPath st.prev (st.prev.length + 1) e).reverse
      some ⟨some (buildRouteNodes path_enodes), some path_enodes, ((g : ℚ) : QInf), st.expanded⟩

/-! ## Bidirectional heuristic search (`bidirectional_astar_route`) -/

/-- Mutable state of the bidirectional loop. -/
structure BState where
  open_fwd : List (ℚ × ℚ × Enode)
  open_bwd : List (ℚ × ℚ × Enode)
  g_fwd : List (Enode × ℚ)
  g_bwd : List (Enode × ℚ)
  prev_fwd : List (Enode × Option Enode)
  prev_bwd : List (Enode × Option Enode)
  best : QInf
  meeting : Option Enode
  expanded : ℕ
deriving Repr

/-- `if max_visits and expanded >= max_visits` — note the Python
truthiness: a cap of `0` never triggers. -/
def bCapReached : Option ℕ → ℕ → Bool
  | some m, expanded => decide (m ≠ 0) && decide (m ≤ expanded)
  | none, _ => false

/-- Forward seed initialisation. -/
def bInitFwd (G : EdgeGraph) (allowClosed : Bool) (hf : Enode → ℚ)
    (seeds : List Enode) (st : BState) : BState :=
  seeds.foldl (fun st en =>
    if closedSkip G allowClosed en then st
    else
      let g := enodeTravelTime G en
      { st with g_fwd := (en, g) :: st.g_fwd, prev_fwd := (en, none) :: st.prev_fwd,
                open_fwd := (g + hf en, g, en) :: st.open_fwd }) st

/-- Backward seed initialisation (from the target set). -/
def bInitBwd (G : EdgeGraph) (allowClosed : Bool) (hb : Enode → ℚ)
    (targets : List Enode) (st : BState) : BState :=
  targets.foldl (fun st en =>
    if closedSkip G allowClosed en then st
    else
      let g := enodeTravelTime G en
      { st with g_bwd := (en, g) :: st.g_bwd, prev_bwd := (en, none) :: st.prev_bwd,
                open_bwd := (g + hb en, g, en) :: st.open_bwd }) st

/-- Meeting check after a forward pop: if the popped segment has a
backward cost, record the sum when it improves the best candidate. -/
def bMeetF (e : Enode) (g : ℚ) (st : BState) : BState :=
  match alookup st.g_bwd e with
  | some gb =>
    if (((g + gb : ℚ)) : QInf) < st.best then
      { st with best := (((g + gb : ℚ)) : QInf), meeting := some e }
    else st
  | none => st

/-- Meeting check after a backward pop. -/
def bMeetB (e : Enode) (g : ℚ) (st : BState) : BState :=
  match alookup st.g_fwd e with
  | some gf =>
    if (((g + gf : ℚ)) : QInf) < st.best then
      { st with best := (((g + gf : ℚ)) : QInf), meeting := some e }
    else st
  | none => st

/-- Forward relaxation (successors). -/
def bRelaxF (G : EdgeGraph) (allowClosed : Bool) (hf : Enode → ℚ) (e : Enode) (g : ℚ)
    (st : BState) : BState :=
  (successors G e).foldl (fun st nb =>
    if closedSkip G allowClosed nb then st
    else
      let tg := g + turnCost G e nb + enodeTravelTime G nb
      if ((tg : ℚ) : QInf) < lookupQ st.g_fwd nb then
        { st with g_fwd := (nb, tg) :: st.g_fwd, prev_fwd := (nb, some e) :: st.prev_fwd,
                  open_fwd := (tg + hf nb, tg, nb) :: st.open_fwd }
      else st) st

/-- Backward relaxation (predecessors; the turn cost is read on the edge
`neighbor → enode` and the travel time on the neighbor). -/
def bRelaxB (G : EdgeGraph) (allowClosed : Bool) (hb : Enode → ℚ) (e : Enode) (g : ℚ)
    (st : BState) : BState :=
  (predecessors G e).foldl (fun st nb =>
    if closedSkip G allowClosed nb then st
    else
      let tg := g + turnCost G nb e + enodeTravelTime G nb
      if ((tg : ℚ) : QInf) < lookupQ st.g_bwd nb then
        { st with g_bwd := (nb, tg) :: st.g_bwd, prev_bwd := (nb, some e) :: st.prev_bwd,
                  open_bwd := (tg + hb nb, tg, nb) :: st.open_bwd }
      else st) st

/-- The `while open_fwd and open_bwd:` loop.  A stale pop `continue`s the
whole iteration (skipping the other direction's step, as in the Python
control flow).  The backward queue cannot be emptied by the forward half,
so the inner `if open_bwd:` guard is always true when reached. -/
def bLoop (G : EdgeGraph) (allowClosed : Bool) (maxVisits : Option ℕ)
    (hf hb : Enode → ℚ) : ℕ → BState → Option BState
  | 0, _ => none
  | fuel + 1, st =>
    if st.open_fwd = [] ∨ st.open_bwd = [] then some st
    else if bCapReached maxVisits st.expanded then some st
    else
      match popMin3 st.open_fwd with
      | none => some st
      | some ((_, g, e), rest) =>
        let st1 : BState := { st with open_fwd := rest, expanded := st.expanded + 1 }
        if lookupQ st1.g_fwd e < ((g : ℚ) : QInf) then
          bLoop G allowClosed maxVisits hf hb fuel st1
        else
          let st2 := bRelaxF G allowClosed hf e g (bMeetF e g st1)
          match popMin3 st2.open_bwd with
          | none => bLoop G allowClosed maxVisits hf hb fuel st2
          | some ((_, g2, e2), rest2) =>
            let st3 : BState := { st2 with open_bwd := rest2, expanded := st2.expanded + 1 }
            if lookupQ st3.g_bwd e2 < ((g2 : ℚ) : QInf) then
              bLoop G allowClosed maxVisits hf hb fuel st3
            else
              bLoop G allowClosed maxVisits hf hb fuel
                (bRelaxB G allowClosed hb e2 g2 (bMeetB e2 g2 st3))

/-- Path reconstruction and result dict of the bidirectional search. -/
def bFinalize (st : BState) : SearchResult :=
  match st.meeting with
  | none => noRoute st.expanded
  | some m =>
    let path_fwd := (buildPath st.prev_fwd (st.prev_fwd.length + 1) m).reverse
    let path_bwd :=
      match alookup st.prev_bwd m with
      | some (some p) => buildPath st.prev_bwd (st.prev_bwd.length + 1) p
      | _ => []
    let path := path_fwd ++ path_bwd
    ⟨some (buildRouteNodes path), some path, st.best, st.expanded⟩

/-- `bidirectional_astar_route`.  The sample target/start anchors are the
first elements of the filtered sets (see the `astar_route` note about
`next(iter(...))`). -/
def bidirectional_astar_route (hypot : ℚ → ℚ → ℚ) (fuel : ℕ) (G : EdgeGraph)
    (start_node_id target_node_id : ℕ) (vmax_mps : ℚ) (allow_closed : Bool)
    (constraints : Option Constraints) (max_visits : Option ℕ) :
    Option SearchResult :=
  let start_enodes := enodesFromStart G start_node_id
  let target_enodes := targetNodes G target_node_id
  if start_enodes = [] ∨ target_enodes = [] then some (noRoute 0)
  else
    let start_enodes := filterByConstraints G constraints start_enodes
    let target_enodes := filterByConstraints G constraints target_enodes
    let sample_target := target_enodes.headD (0, 0, 0)
    let tx := (nodeData G sample_target).v_x
    let ty := (nodeData G sample_target).v_y
    let sample_start := start_enodes.headD (0, 0, 0)
    let sx := (nodeData G sample_start).u_x
    let sy := (nodeData G sample_start).u_y
    let hf := vHeuristic hypot G tx ty vmax_mps
    let hb := uHeuristic hypot G sx sy vmax_mps
    let st0 := bInitBwd G allow_closed hb target_enodes
      (bInitFwd G allow_closed hf start_enodes
        ⟨[], [], [], [], [], [], ⊤, none, 0⟩)
    match bLoop G allow_closed max_visits hf hb fuel st0 with
    | none => none
    | some st => some (bFinalize st)

/-! ## Planning orchestrator (`src/core/route_planner.py`) -/

/-- `_run_search`'s best-route selection: iterate the three results in
dict insertion order, keeping the first one whose route travel time is
strictly below the best so far (`None` when every travel time is
`math.inf`). -/
def pickBest (G : EdgeGraph) (cands : List SearchResult) : Option SearchResult :=
  (cands.foldl (fun acc r =>
    let t := compute_route_tt G r.route_enodes
    if t < acc.2 then (some r, t) else acc) ((none : Option SearchResult), (⊤ : QInf))).1

/-- `_run_search`: run the three algorithms with the given `allow_closed`
flag and pick the fastest by route travel time. -/
def runSearch (hypot : ℚ → ℚ → ℚ) (fuel : ℕ) (G : EdgeGraph) (s t : ℕ)
    (allow_closed : Bool) : Option (Option SearchResult) := do
  let rd ← dijkstra_route fuel G s t none allow_closed none
  let ra ← astar_route hypot fuel G s t none 30 allow_closed none
  let rb ← bidirectional_astar_route hypot fuel G s t 30 allow_closed none none
  pure (pickBest G [rd, ra, rb])

/-- The result dict assembled by `_plan_route`. -/
structure PlanResult where
  start_node : ℕ
  target_node : ℕ
  route_nodes : Option (List ℕ)
  route_enodes : Option (List Enode)
  cost : QInf
  expanded_nodes : ℕ
  valid : Bool
  penalty : QInf
  total_time : QInf
  vehicle_type : String
  relax_level : Option ℕ
  constraints_used : Option Constraints
deriving DecidableEq, Repr

/-- The terminal infeasible sentinel returned after exhausting all
relaxation levels. -/
def infeasibleSentinel (s t : ℕ) (vt : String) : PlanResult :=
  ⟨s, t, none, none, ⊤, 0, false, ⊤, ⊤, vt, none, none⟩

/-- The per-level loop of `_plan_route`.  When `_run_search` yields
`None` (all three searches failed), the code immediately evaluates
`res.get("route_enodes")` on `None` and raises `AttributeError`
(modelled as `Except.error`).  The returned success dict sets
`cost := penalty` exactly as the code does. -/
def planLevels (hypot : ℚ → ℚ → ℚ) (fuel : ℕ) (G : EdgeGraph) (s t : ℕ)
    (vt : String) (profile : Constraints) (closedFlag : Bool) :
    List ℕ → Option (Except String PlanResult)
  | [] => some (.ok (infeasibleSentinel s t vt))
  | level :: rest => do
    let cs := relax_constraints profile level
    let res? ← runSearch hypot fuel G s t closedFlag
    match res? with
    | none => some (.error "AttributeError: NoneType object has no attribute get")
    | some res =>
      let vp := validate_route G res.route_enodes cs
      if vp.1 then
        some (.ok ⟨s, t, res.route_nodes, res.route_enodes, vp.2, res.expanded,
          vp.1, vp.2, compute_route_tt G res.route_enodes, vt, some level, some cs⟩)
      else planLevels hypot fuel G s t vt profile closedFlag rest

/-- `_plan_route`.  The profile dict is read (`KeyError` on an unknown
vehicle type) before the dead `ValueError` guard ever fires; the search
`allow_closed` flag is the profile's `avoid_closed` value, frozen across
levels. -/
def planRoute (hypot : ℚ → ℚ → ℚ) (fuel : ℕ) (G : EdgeGraph) (s t : ℕ)
    (vehicle_type : String) (max_relax_level : ℕ) :
    Option (Except String PlanResult) :=
  match alookup VEHICLE_PROFILES vehicle_type with
  | none => some (.error "KeyError: unknown vehicle type")
  | some profile =>
    match profile.avoid_closed with
    | none => some (.error "KeyError: avoid_closed")
    | some closedFlag =>
      planLevels hypot fuel G s t vehicle_type profile closedFlag
        (List.range (max_relax_level + 1))

/-! ## Path semantics

A path in the edge graph is a nonempty segment sequence linked by
transitions; the hard closed filter must accept every segment for the
search to be able to traverse it. -/

/-- Every segment passes the hard closed filter and consecutive segments
are linked by a transition. -/
def pathOK (G : EdgeGraph) (ac : Bool) : List Enode → Bool
  | [] => false
  | [e] => !closedSkip G ac e
  | e :: f :: rest => !closedSkip G ac e && hasEdge G e f && pathOK G ac (f :: rest)

/-- The constraint-filtered seed set of a search call. -/
def startSet (G : EdgeGraph) (s : ℕ) (oc : Option Constraints) : List Enode :=
  filterByConstraints G oc (enodesFromStart G s)

/-- The constraint-filtered target set of a search call. -/
def targetSet (G : EdgeGraph) (t : ℕ) (oc : Option Constraints) : List Enode :=
  filterByConstraints G oc (targetNodes G t)

/-- A path usable by a search run: filter-respecting, starting in the
seed set and ending in the target set. -/
def ValidTargetPath (G : EdgeGraph) (ac : Bool) (seeds targets : List Enode)
    (π : List Enode) : Prop :=
  pathOK G ac π = true ∧ (∃ h, π.head? = some h ∧ h ∈ seeds) ∧
    (∃ tl, π.getLast? = some tl ∧ tl ∈ targets)

instance (G : EdgeGraph) (ac : Bool) (seeds targets : List Enode) (π : List Enode) :
    Decidable (ValidTargetPath G ac seeds targets π) := by
  unfold ValidTargetPath
  infer_instance

/-- All travel times and turn costs of a graph are non-negative. -/
def NonnegGraph (G : EdgeGraph) : Prop :=
  (∀ e, 0 ≤ enodeTravelTime G e) ∧ (∀ a b, 0 ≤ turnCost G a b)

theorem restCost_nonneg {G : EdgeGraph} (hG : NonnegGraph G) (p : Enode)
    (l : List Enode) : 0 ≤ restCost G p l := by
  induction l generalizing p with
  | nil => simp [restCost]
  | cons c rest ih =>
    have h1 := hG.2 p c
    have h2 := hG.1 c
    have h3 := ih c
    simp only [restCost]
    linarith

theorem pathCost_nonneg {G : EdgeGraph} (hG : NonnegGraph G) (l : List Enode) :
    0 ≤ pathCost G l := by
  cases l with
  | nil => simp [pathCost]
  | cons e rest =>
    have h1 := hG.1 e
    have h2 := restCost_nonneg hG e rest
    simp only [pathCost]
    linarith

/-! ## Quick facts about the constraint engine -/

theorem validate_single_edge_avoid_closed_diff (G : EdgeGraph) (e : Enode)
    (c : Constraints) (hclosed : (nodeData G e).closed.getD true = true) :
    validate_single_edge G e { c with avoid_closed := some true } =
      ((validate_single_edge G e { c with avoid_closed := none }).1,
        (validate_single_edge G e { c with avoid_closed := none }).2 +
          ((2 * c.non_preferred_penalty.getD 10 : ℚ) : QInf)) := by
  unfold validate_single_edge
  dsimp only
  split_ifs with h1 h2 h3 h4
  · rfl
  · rfl
  · rfl
  · rfl
  · simp only [Prod.mk.injEq, true_and]
    rw [← WithTop.coe_add]
    congr 1
    simp only [softPenalty, hclosed, Bool.and_true, Option.getD_some, Option.getD_none,
      Bool.false_eq_true, if_true, if_false, Bool.and_self]
    ring

/-! ## Claim C8 -/

/-- C8: for every vehicle profile, the constraint set produced by
relaxation at level 3 contains only the avoid-closed key — every other
key is removed, and the avoid-closed value is preserved unchanged. -/
theorem claim_C8 (p : Constraints) :
    relax_constraints p 3 = { emptyConstraints with avoid_closed := p.avoid_closed } :=
  rfl

/-! ## Claim C9 -/

/-- C9: for every constraint set with `avoid_closed = true` and every
segment marked closed that passes all hard checks, the returned penalty
contains the non-preferred-usage penalty exactly twice for the closed
flag: it exceeds the penalty computed with the avoid-closed key removed
by precisely `2 * non_preferred_penalty` (both the general and the keyed
avoid-closed check fire). -/
theorem claim_C9 (G : EdgeGraph) (e : Enode) (c : Constraints)
    (hac : c.avoid_closed = some true)
    (hclosed : (nodeData G e).closed = some true)
    (hok : (validate_single_edge G e c).1 = true) :
    (validate_single_edge G e c).2 =
      (validate_single_edge G e { c with avoid_closed := none }).2 +
        ((2 * c.non_preferred_penalty.getD 10 : ℚ) : QInf) := by
  have hcl : (nodeData G e).closed.getD true = true := by rw [hclosed]; rfl
  have hc : ({ c with avoid_closed := some true } : Constraints) = c := by
    rw [← hac]
  have h := validate_single_edge_avoid_closed_diff G e c hcl
  rw [hc] at h
  rw [h]

/-- A closed residential segment used as a concrete witness fixture. -/
def c9Seg : SegData :=
  { orig_u := some 1, orig_v := some 2, travel_time := some 10,
    closed := some true, highway := some "primary" }

def c9Graph : EdgeGraph := ⟨[((1, 2, 0), c9Seg)], []⟩

theorem claim_C9_witness :
    (validate_single_edge c9Graph (1, 2, 0)
        { avoid_closed := some true, non_preferred_penalty := some 3 }).2 =
      (validate_single_edge c9Graph (1, 2, 0)
        { avoid_closed := none, non_preferred_penalty := some 3 }).2 +
        ((2 * (Constraints.non_preferred_penalty
          { avoid_closed := some true, non_preferred_penalty := some 3 }).getD 10 : ℚ) : QInf) :=
  claim_C9 c9Graph (1, 2, 0)
    { avoid_closed := some true, non_preferred_penalty := some 3 } rfl rfl rfl

/-! ## Claim C10 -/

/-- C10: a segment whose attribute dict lacks the `closed` key is treated
as open by the search layer — `is_enode_closed` is `false`, so the
`allowClosed = false` hard filter used in seeding and expansion of all
three search functions (`closedSkip`) does not skip it — while the two
avoid-closed checks of `validate_single_edge` default the missing flag to
closed and add the non-preferred-usage penalty for it (twice). -/
theorem claim_C10 (G : EdgeGraph) (e : Enode) (c : Constraints)
    (hmissing : (nodeData G e).closed = none)
    (hac : c.avoid_closed = some true) :
    isEnodeClosed G e = false ∧ closedSkip G false e = false ∧
      (validate_single_edge G e c).2 =
        (validate_single_edge G e { c with avoid_closed := none }).2 +
          ((2 * c.non_preferred_penalty.getD 10 : ℚ) : QInf) := by
  have h1 : isEnodeClosed G e = false := by
    simp [isEnodeClosed, hmissing]
  refine ⟨h1, by simp [closedSkip, h1], ?_⟩
  have hcl : (nodeData G e).closed.getD true = true := by rw [hmissing]; rfl
  have hc : ({ c with avoid_closed := some true } : Constraints) = c := by
    rw [← hac]
  have h := validate_single_edge_avoid_closed_diff G e c hcl
  rw [hc] at h
  rw [h]

/-- A segment with no `closed` attribute at all. -/
def c10Seg : SegData :=
  { orig_u := some 1, orig_v := some 2, travel_time := some 5 }

def c10Graph : EdgeGraph := ⟨[((1, 2, 0), c10Seg)], []⟩

theorem claim_C10_witness :
    isEnodeClosed c10Graph (1, 2, 0) = false ∧
      closedSkip c10Graph false (1, 2, 0) = false ∧
      (validate_single_edge c10Graph (1, 2, 0)
          { avoid_closed := some true, non_preferred_penalty := some 3 }).2 =
        (validate_single_edge c10Graph (1, 2, 0)
            { avoid_closed := none, non_preferred_penalty := some 3 }).2 +
          ((2 * (Constraints.non_preferred_penalty
            { avoid_closed := some true, non_preferred_penalty := some 3 }).getD 10 : ℚ) : QInf) :=
  claim_C10 c10Graph (1, 2, 0)
    { avoid_closed := some true, non_preferred_penalty := some 3 } rfl rfl

/-! ## Claim C2 -/

/-- A bridge segment declaring `maxheight = 3.0` that triggers no other
check. -/
def c2Seg : SegData :=
  { orig_u := some 1, orig_v := some 2, bridge := some "yes", maxheight := some 3 }

def c2Graph : EdgeGraph := ⟨[((1, 2, 0), c2Seg)], []⟩

/-- C2 counterexample: on the 3.0-maxheight bridge segment, a vehicle
hard-limited to `max_height = 3.5` is ACCEPTED with zero penalty — the
code rejects only when the segment's declared height exceeds the
vehicle's limit (`3.0 > 3.5` is false), so the claimed `(false, +inf)`
outcome does not occur. -/
theorem claim_C2_counterexample :
    validate_single_edge c2Graph (1, 2, 0) { max_height := some (mkRat 7 2) } = (true, 0) ∧
      validate_single_edge c2Graph (1, 2, 0) { max_height := some (mkRat 7 2) } ≠ (false, ⊤) := by
  constructor
  · with_unfolding_all rfl
  · with_unfolding_all decide

/-- C2 amended: the bridge check compares the segment's declared maxheight
against the vehicle's limit and rejects when the former exceeds the
latter: the 2.5-limited vehicle is rejected with `(false, +inf)`, while
the 3.5-limited and the 4.0-capable vehicles are both accepted. -/
theorem claim_C2_amended :
    validate_single_edge c2Graph (1, 2, 0) { max_height := some (mkRat 5 2) } = (false, ⊤) ∧
      validate_single_edge c2Graph (1, 2, 0) { max_height := some (mkRat 7 2) } = (true, 0) ∧
      validate_single_edge c2Graph (1, 2, 0) { max_height := some 4 } = (true, 0) := by
  refine ⟨?_, ?_, ?_⟩ <;> with_unfolding_all rfl

/-! ## Infrastructure lemmas: association lists, heaps, graph access -/

theorem alookup_cons {α β : Type} [DecidableEq α] (p : α × β) (l : List (α × β)) (k : α) :
    alookup (p :: l) k = if p.1 = k then some p.2 else alookup l k := by
  by_cases h : p.1 = k <;> simp [alookup, List.find?_cons, h]

theorem alookup_mem {α β : Type} [DecidableEq α] {l : List (α × β)} {k : α} {v : β}
    (h : alookup l k = some v) : (k, v) ∈ l := by
  unfold alookup at h
  rw [Option.map_eq_some'] at h
  obtain ⟨p, hf, hv⟩ := h
  have hmem := List.mem_of_find?_eq_some hf
  have hkey := List.find?_some hf
  simp only [decide_eq_true_eq] at hkey
  have hp : p = (k, v) := by
    cases p
    simp_all
  rwa [hp] at hmem

theorem alookup_isSome {α β : Type} [DecidableEq α] {l : List (α × β)} {k : α} :
    (alookup l k).isSome = true ↔ ∃ p ∈ l, p.1 = k := by
  unfold alookup
  rw [Option.isSome_map']
  rw [List.find?_isSome]
  simp

theorem lookupQ_cons (y : Enode) (c : ℚ) (m : List (Enode × ℚ)) (x : Enode) :
    lookupQ ((y, c) :: m) x = if y = x then ((c : ℚ) : QInf) else lookupQ m x := by
  by_cases h : y = x <;> simp [lookupQ, alookup_cons, h]

theorem lookupQ_mem {m : List (Enode × ℚ)} {x : Enode} {c : ℚ}
    (h : lookupQ m x = ((c : ℚ) : QInf)) : (x, c) ∈ m := by
  unfold lookupQ at h
  cases ha : alookup m x with
  | none => rw [ha] at h; exact absurd h (by simp)
  | some d =>
    rw [ha] at h
    have h2 : ((d : ℚ) : QInf) = ((c : ℚ) : QInf) := h
    have : d = c := by exact_mod_cast h2
    subst this
    exact alookup_mem ha

theorem lookupQ_lt_top {m : List (Enode × ℚ)} {x : Enode} {b : QInf}
    (h : lookupQ m x ≤ b) (hb : b ≠ ⊤) : ∃ c : ℚ, lookupQ m x = ((c : ℚ) : QInf) := by
  unfold lookupQ at *
  cases ha : alookup m x with
  | none => rw [ha] at h; exact absurd (top_le_iff.mp h) hb
  | some d => exact ⟨d, rfl⟩

theorem pairLt_fst_le {a b : ℚ × Enode} (h : pairLt a b) : a.1 ≤ b.1 := by
  rcases h with h | ⟨h, _⟩
  · exact le_of_lt h
  · exact le_of_eq h

theorem not_pairLt_fst_le {a b : ℚ × Enode} (h : ¬ pairLt a b) : b.1 ≤ a.1 := by
  by_contra hc
  exact h (Or.inl (lt_of_not_le hc))

theorem pickMin_mem (e : ℚ × Enode) (l : List (ℚ × Enode)) : pickMin e l ∈ e :: l := by
  induction l generalizing e with
  | nil => simp [pickMin]
  | cons x rest ih =>
    have hres : pickMin e (x :: rest) = pickMin (if pairLt x e then x else e) rest := by
      simp [pickMin]
    rw [hres]
    have h := ih (if pairLt x e then x else e)
    rcases List.mem_cons.mp h with h1 | h1
    · rw [h1]
      by_cases hc : pairLt x e
      · rw [if_pos hc]
        exact List.mem_cons.mpr (Or.inr (List.mem_cons_self x rest))
      · rw [if_neg hc]
        exact List.mem_cons_self e _
    · exact List.mem_cons.mpr (Or.inr (List.mem_cons.mpr (Or.inr h1)))

theorem pickMin_le (e : ℚ × Enode) (l : List (ℚ × Enode)) :
    ∀ x ∈ e :: l, (pickMin e l).1 ≤ x.1 := by
  induction l generalizing e with
  | nil =>
    intro x hx
    simp only [List.mem_singleton] at hx
    subst hx
    simp [pickMin]
  | cons y rest ih =>
    intro x hx
    have hacc : (if pairLt y e then y else e).1 ≤ e.1 ∧
        (if pairLt y e then y else e).1 ≤ y.1 := by
      by_cases hc : pairLt y e
      · rw [if_pos hc]
        exact ⟨pairLt_fst_le hc, le_refl _⟩
      · rw [if_neg hc]
        exact ⟨le_refl _, not_pairLt_fst_le hc⟩
    have hmain : ∀ z ∈ (if pairLt y e then y else e) :: rest,
        (pickMin (if pairLt y e then y else e) rest).1 ≤ z.1 := ih _
    have hres : pickMin e (y :: rest) = pickMin (if pairLt y e then y else e) rest := by
      simp [pickMin, List.foldl_cons]
    rcases List.mem_cons.mp hx with h1 | h1
    · subst h1
      calc (pickMin x (y :: rest)).1 ≤ (if pairLt y x then y else x).1 := by
            rw [hres]; exact hmain _ (List.mem_cons_self _ _)
        _ ≤ x.1 := hacc.1
    · rcases List.mem_cons.mp h1 with h2 | h2
      · subst h2
        calc (pickMin e (x :: rest)).1 ≤ (if pairLt x e then x else e).1 := by
              rw [hres]; exact hmain _ (List.mem_cons_self _ _)
          _ ≤ x.1 := hacc.2
      · rw [hres]
        exact hmain x (List.mem_cons.mpr (Or.inr h2))

theorem popMin_eq_none {pq : List (ℚ × Enode)} : popMin pq = none ↔ pq = [] := by
  cases pq <;> simp [popMin]

theorem popMin_spec {pq : List (ℚ × Enode)} {m : ℚ × Enode} {rest : List (ℚ × Enode)}
    (h : popMin pq = some (m, rest)) :
    m ∈ pq ∧ (∀ x ∈ pq, m.1 ≤ x.1) ∧ rest = pq.erase m := by
  cases pq with
  | nil => simp [popMin] at h
  | cons e t =>
    simp only [popMin, Option.some.injEq, Prod.mk.injEq] at h
    obtain ⟨hm, hrest⟩ := h
    subst hm
    exact ⟨pickMin_mem e t, pickMin_le e t, hrest.symm⟩

theorem mem_of_mem_erase {l : List (ℚ × Enode)} {a b : ℚ × Enode}
    (h : a ∈ l.erase b) : a ∈ l :=
  List.mem_of_mem_erase h

theorem mem_erase_of_ne_mem {l : List (ℚ × Enode)} {a b : ℚ × Enode}
    (hne : a ≠ b) (h : a ∈ l) : a ∈ l.erase b :=
  (List.mem_erase_of_ne hne).mpr h

theorem hasEdge_iff_mem_successors (G : EdgeGraph) (a b : Enode) :
    hasEdge G a b = true ↔ b ∈ successors G a := by
  constructor
  · intro h
    rw [hasEdge, alookup_isSome] at h
    obtain ⟨p, hp, hkey⟩ := h
    simp only [successors, List.mem_map]
    refine ⟨p, List.mem_filter.mpr ⟨hp, ?_⟩, ?_⟩
    · simp [hkey]
    · simp [hkey]
  · intro h
    simp only [successors, List.mem_map] at h
    obtain ⟨p, hp, hb⟩ := h
    have hp2 := List.mem_filter.mp hp
    simp only [decide_eq_true_eq] at hp2
    rw [hasEdge, alookup_isSome]
    refine ⟨p, hp2.1, ?_⟩
    have : p.1 = (p.1.1, p.1.2) := rfl
    rw [this, hp2.2, hb]

/-! ## Lemmas about paths -/

theorem pathOK_cons {G : EdgeGraph} {ac : Bool} {x f : Enode} {rest : List Enode}
    (h : pathOK G ac (x :: f :: rest) = true) :
    closedSkip G ac x = false ∧ hasEdge G x f = true ∧ pathOK G ac (f :: rest) = true := by
  simp only [pathOK, Bool.and_eq_true, Bool.not_eq_true'] at h
  exact ⟨h.1.1, h.1.2, h.2⟩

theorem pathOK_single {G : EdgeGraph} {ac : Bool} {x : Enode}
    (h : pathOK G ac [x] = true) : closedSkip G ac x = false := by
  simpa [pathOK, Bool.not_eq_true'] using h

theorem pathOK_head_skip {G : EdgeGraph} {ac : Bool} {x : Enode} {rest : List Enode}
    (h : pathOK G ac (x :: rest) = true) : closedSkip G ac x = false := by
  cases rest with
  | nil => exact pathOK_single h
  | cons f t => exact (pathOK_cons h).1

theorem pathOK_append_single {G : EdgeGraph} {ac : Bool} {π : List Enode} {z y : Enode}
    (h : pathOK G ac π = true) (hl : π.getLast? = some z)
    (he : hasEdge G z y = true) (hy : closedSkip G ac y = false) :
    pathOK G ac (π ++ [y]) = true := by
  induction π with
  | nil => simp at hl
  | cons a t ih =>
    cases t with
    | nil =>
      simp only [List.getLast?_singleton, Option.some.injEq] at hl
      subst hl
      simp only [List.cons_append, List.nil_append, pathOK, Bool.and_eq_true,
        Bool.not_eq_true']
      exact ⟨⟨pathOK_single h, he⟩, by simp [pathOK, Bool.not_eq_true', hy]⟩
    | cons b t2 =>
      obtain ⟨h1, h2, h3⟩ := pathOK_cons h
      have hl2 : (b :: t2).getLast? = some z := by
        rw [← hl]
        simp [List.getLast?_cons_cons]
      have := ih h3 hl2
      simp only [List.cons_append, pathOK, Bool.and_eq_true, Bool.not_eq_true'] at this ⊢
      exact ⟨⟨h1, h2⟩, this⟩

theorem restCost_append_single (G : EdgeGraph) (p : Enode) (l : List Enode) (y : Enode) :
    restCost G p (l ++ [y]) =
      restCost G p l + turnCost G (l.getLastD p) y + enodeTravelTime G y := by
  induction l generalizing p with
  | nil => simp [restCost]
  | cons c t ih =>
    simp only [List.cons_append, restCost, List.getLastD_cons, List.append_eq]
    rw [ih c]
    ring

theorem pathCost_append_single {G : EdgeGraph} {π : List Enode} {z : Enode} (y : Enode)
    (hl : π.getLast? = some z) :
    pathCost G (π ++ [y]) = pathCost G π + turnCost G z y + enodeTravelTime G y := by
  cases π with
  | nil => simp at hl
  | cons a t =>
    have hz : t.getLastD a = z := by
      rw [List.getLastD_eq_getLast?]
      cases t with
      | nil => simpa using hl
      | cons b t2 =>
        rw [List.getLast?_cons_cons] at hl
        simp [hl]
    simp only [List.cons_append, pathCost, restCost_append_single, hz]
    ring

theorem getLast?_concat {α : Type} (l : List α) (y : α) :
    (l ++ [y]).getLast? = some y := by
  simp

theorem head?_append_of_ne_nil {α : Type} {l : List α} (t : List α) (h : l ≠ []) :
    (l ++ t).head? = l.head? := by
  cases l with
  | nil => exact absurd rfl h
  | cons a r => simp

/-! ## Dijkstra loop invariant and optimality -/

/-- Loop invariant of the Dijkstra search.  `ℓ` bounds every queued
priority from below (the priority of the latest processed pop), so
distances of visited segments are final. -/
structure DInv (G : EdgeGraph) (ac : Bool) (seeds targets : List Enode)
    (ℓ : ℚ) (st : DState) : Prop where
  pq_dist : ∀ c x, (c, x) ∈ st.pq → lookupQ st.dist x ≤ ((c : ℚ) : QInf)
  pq_lb : ∀ c x, (c, x) ∈ st.pq → ℓ ≤ c
  vis_le : ∀ x ∈ st.visited, lookupQ st.dist x ≤ ((ℓ : ℚ) : QInf)
  vis_relaxed : ∀ x ∈ st.visited, ∀ nb ∈ successors G x,
    closedSkip G ac nb = false → ∀ dx : ℚ, lookupQ st.dist x = ((dx : ℚ) : QInf) →
      lookupQ st.dist nb ≤ ((dx + turnCost G x nb + enodeTravelTime G nb : ℚ) : QInf)
  not_tgt : ∀ x ∈ st.visited, x ∉ targets
  entry : ∀ x, x ∉ st.visited → ∀ dx : ℚ, lookupQ st.dist x = ((dx : ℚ) : QInf) →
    (dx, x) ∈ st.pq
  seeds_le : ∀ s ∈ seeds, closedSkip G ac s = false →
    lookupQ st.dist s ≤ ((enodeTravelTime G s : ℚ) : QInf)
  reach : ∀ x (dx : ℚ), lookupQ st.dist x = ((dx : ℚ) : QInf) →
    ∃ π, pathOK G ac π = true ∧ (∃ h, π.head? = some h ∧ h ∈ seeds) ∧
      π.getLast? = some x ∧ pathCost G π = dx

/-- Walking along a valid path whose endpoint is unvisited, some prefix
ends in an unvisited segment whose tentative distance is bounded by the
prefix cost (and hence by the whole path cost). -/
theorem dInv_walk {G : EdgeGraph} {ac : Bool} {seeds targets : List Enode} {ℓ : ℚ}
    {st : DState} (hG : NonnegGraph G) (inv : DInv G ac seeds targets ℓ st) :
    ∀ (tail : List Enode) (x : Enode) (acc : ℚ),
      lookupQ st.dist x ≤ ((acc : ℚ) : QInf) →
      pathOK G ac (x :: tail) = true →
      ∀ tl, (x :: tail).getLast? = some tl → tl ∉ st.visited →
      ∃ y, ∃ dy : ℚ, y ∉ st.visited ∧ lookupQ st.dist y = ((dy : ℚ) : QInf) ∧
        dy ≤ acc + restCost G x tail := by
  intro tail
  induction tail with
  | nil =>
    intro x acc hle hok tl hlast hnv
    have htlx : tl = x := by simpa using hlast.symm
    subst htlx
    obtain ⟨dx, hdx⟩ := lookupQ_lt_top hle WithTop.coe_ne_top
    refine ⟨tl, dx, hnv, hdx, ?_⟩
    rw [hdx] at hle
    have : dx ≤ acc := by exact_mod_cast hle
    simp only [restCost]
    linarith
  | cons f rest ih =>
    intro x acc hle hok tl hlast hnv
    by_cases hv : x ∈ st.visited
    · obtain ⟨h1, h2, h3⟩ := pathOK_cons hok
      obtain ⟨dx, hdx⟩ := lookupQ_lt_top (inv.vis_le x hv) WithTop.coe_ne_top
      have hdxacc : dx ≤ acc := by
        rw [hdx] at hle
        exact_mod_cast hle
      have hrel := inv.vis_relaxed x hv f ((hasEdge_iff_mem_successors G x f).mp h2)
        (pathOK_head_skip h3) dx hdx
      have hle2 : lookupQ st.dist f ≤
          ((acc + turnCost G x f + enodeTravelTime G f : ℚ) : QInf) := by
        refine le_trans hrel ?_
        rw [WithTop.coe_le_coe]
        linarith
      have hlast2 : (f :: rest).getLast? = some tl := by
        rw [← hlast, List.getLast?_cons_cons]
      obtain ⟨y, dy, h4, h5, h6⟩ :=
        ih f (acc + turnCost G x f + enodeTravelTime G f) hle2 h3 tl hlast2 hnv
      refine ⟨y, dy, h4, h5, ?_⟩
      simp only [restCost]
      linarith
    · obtain ⟨dx, hdx⟩ := lookupQ_lt_top hle WithTop.coe_ne_top
      refine ⟨x, dx, hv, hdx, ?_⟩
      rw [hdx] at hle
      have h1 : dx ≤ acc := by exact_mod_cast hle
      have h2 := restCost_nonneg hG x (f :: rest)
      linarith

/-- Every valid seed-to-target path is covered by a queue entry whose
priority is at most the path cost. -/
theorem dInv_cover {G : EdgeGraph} {ac : Bool} {seeds targets : List Enode} {ℓ : ℚ}
    {st : DState} (hG : NonnegGraph G) (inv : DInv G ac seeds targets ℓ st)
    (π : List Enode) (hπ : ValidTargetPath G ac seeds targets π) :
    ∃ y, ∃ dy : ℚ, (dy, y) ∈ st.pq ∧ dy ≤ pathCost G π := by
  obtain ⟨hok, ⟨h, hh, hhs⟩, tl, htl, htlt⟩ := hπ
  cases π with
  | nil => simp at hh
  | cons h0 tail =>
    have hh0 : h0 = h := by simpa using hh
    subst hh0
    have hseed : lookupQ st.dist h0 ≤ ((enodeTravelTime G h0 : ℚ) : QInf) :=
      inv.seeds_le h0 hhs (pathOK_head_skip hok)
    have htl_nv : tl ∉ st.visited := fun hmem => inv.not_tgt tl hmem htlt
    obtain ⟨y, dy, hynv, hdy, hbound⟩ :=
      dInv_walk hG inv tail h0 (enodeTravelTime G h0) hseed hok tl htl htl_nv
    refine ⟨y, dy, inv.entry y hynv dy hdy, ?_⟩
    simpa [pathCost] using hbound

/-- Discarding a stale queue entry preserves the invariant. -/
theorem dInv_stale {G : EdgeGraph} {ac : Bool} {seeds targets : List Enode} {ℓ : ℚ}
    {st : DState} {c : ℚ} {e : Enode} {rest : List (ℚ × Enode)}
    (inv : DInv G ac seeds targets ℓ st)
    (hpop : popMin st.pq = some ((c, e), rest))
    (hstale : lookupQ st.dist e < ((c : ℚ) : QInf)) :
    DInv G ac seeds targets ℓ { st with pq := rest } := by
  obtain ⟨hmem, hmin, hrest⟩ := popMin_spec hpop
  subst hrest
  refine ⟨?_, ?_, inv.vis_le, inv.vis_relaxed, inv.not_tgt, ?_, inv.seeds_le, inv.reach⟩
  · intro c' x hx
    exact inv.pq_dist c' x (mem_of_mem_erase hx)
  · intro c' x hx
    exact inv.pq_lb c' x (mem_of_mem_erase hx)
  · intro x hxv dx hdx
    refine mem_erase_of_ne_mem ?_ (inv.entry x hxv dx hdx)
    intro heq
    have hdc : dx = c := congrArg Prod.fst heq
    have hxe : x = e := congrArg Prod.snd heq
    subst hdc
    subst hxe
    rw [hdx] at hstale
    exact absurd hstale (lt_irrefl _)

/-- Closed form of the seed-initialisation fold. -/
theorem dInit_go (G : EdgeGraph) (ac : Bool) (l : List Enode) (st : DState) :
    l.foldl (fun st en =>
      if closedSkip G ac en then st
      else
        { st with dist := (en, enodeTravelTime G en) :: st.dist,
                  prev := (en, none) :: st.prev,
                  pq := (enodeTravelTime G en, en) :: st.pq }) st =
    { st with
      pq := ((l.filter (fun s => !closedSkip G ac s)).reverse.map
        (fun s => (enodeTravelTime G s, s))) ++ st.pq,
      dist := ((l.filter (fun s => !closedSkip G ac s)).reverse.map
        (fun s => (s, enodeTravelTime G s))) ++ st.dist,
      prev := ((l.filter (fun s => !closedSkip G ac s)).reverse.map
        (fun s => (s, (none : Option Enode)))) ++ st.prev } := by
  induction l generalizing st with
  | nil => simp
  | cons s t ih =>
    simp only [List.foldl_cons, List.filter_cons]
    by_cases hs : closedSkip G ac s
    · rw [if_pos hs]
      rw [ih st]
      simp [hs]
    · rw [if_neg hs]
      rw [ih _]
      simp only [hs, Bool.not_false, if_true, List.reverse_cons, List.map_append,
        List.map_cons, List.map_nil, List.append_assoc, List.cons_append,
        List.nil_append, Bool.false_eq_true]

theorem dInit_eq (G : EdgeGraph) (ac : Bool) (seeds : List Enode) :
    dInit G ac seeds =
      { pq := ((seeds.filter (fun s => !closedSkip G ac s)).reverse.map
          (fun s => (enodeTravelTime G s, s))),
        dist := ((seeds.filter (fun s => !closedSkip G ac s)).reverse.map
          (fun s => (s, enodeTravelTime G s))),
        prev := ((seeds.filter (fun s => !closedSkip G ac s)).reverse.map
          (fun s => (s, (none : Option Enode)))),
        visited := [], expanded := 0 } := by
  unfold dInit
  rw [dInit_go]
  simp

/-- Lookup in an association list of the graph of a function. -/
theorem alookup_map_graph {α β : Type} [DecidableEq α] (l : List α) (f : α → β) (x : α) :
    alookup (l.map (fun s => (s, f s))) x =
      if x ∈ l then some (f x) else none := by
  induction l with
  | nil => simp [alookup]
  | cons a t ih =>
    simp only [List.map_cons, alookup_cons]
    by_cases h : a = x
    · subst h
      simp
    · rw [if_neg h, ih]
      by_cases hm : x ∈ t
      · simp [hm, List.mem_cons, Ne.symm h]
      · simp [hm, List.mem_cons, Ne.symm h]

theorem dInit_dist (G : EdgeGraph) (ac : Bool) (seeds : List Enode) (x : Enode) :
    lookupQ (dInit G ac seeds).dist x =
      if x ∈ seeds ∧ closedSkip G ac x = false then
        ((enodeTravelTime G x : ℚ) : QInf) else ⊤ := by
  rw [dInit_eq]
  unfold lookupQ
  rw [alookup_map_graph]
  by_cases h : x ∈ (seeds.filter (fun s => !closedSkip G ac s)).reverse
  · rw [if_pos h]
    have h2 := List.mem_filter.mp (List.mem_reverse.mp h)
    simp only [Bool.not_eq_true'] at h2
    rw [if_pos ⟨h2.1, h2.2⟩]
  · rw [if_neg h]
    rw [if_neg]
    intro ⟨h1, h2⟩
    exact h (List.mem_reverse.mpr (List.mem_filter.mpr ⟨h1, by simp [h2]⟩))

theorem dInit_pq_mem (G : EdgeGraph) (ac : Bool) (seeds : List Enode) (c : ℚ) (x : Enode) :
    (c, x) ∈ (dInit G ac seeds).pq ↔
      x ∈ seeds ∧ closedSkip G ac x = false ∧ c = enodeTravelTime G x := by
  rw [dInit_eq]
  simp only [List.mem_map, List.mem_reverse, List.mem_filter, Bool.not_eq_true',
    Prod.mk.injEq]
  constructor
  · rintro ⟨s, ⟨hs1, hs2⟩, hc, hx⟩
    subst hx
    exact ⟨hs1, hs2, hc.symm⟩
  · rintro ⟨h1, h2, h3⟩
    exact ⟨x, ⟨h1, h2⟩, h3.symm, rfl⟩

/-- The invariant holds at initialisation, with lower bound `0`. -/
theorem dInv_init {G : EdgeGraph} (hG : NonnegGraph G) (ac : Bool)
    (seeds targets : List Enode) :
    DInv G ac seeds targets 0 (dInit G ac seeds) := by
  have hdist := dInit_dist G ac seeds
  have hvis : (dInit G ac seeds).visited = [] := by rw [dInit_eq]
  refine ⟨?_, ?_, ?_, ?_, ?_, ?_, ?_, ?_⟩
  · intro c x hx
    obtain ⟨h1, h2, h3⟩ := (dInit_pq_mem G ac seeds c x).mp hx
    rw [hdist x, if_pos ⟨h1, h2⟩, h3]
  · intro c x hx
    obtain ⟨h1, h2, h3⟩ := (dInit_pq_mem G ac seeds c x).mp hx
    rw [h3]
    exact hG.1 x
  · intro x hx
    rw [hvis] at hx
    simp at hx
  · intro x hx
    rw [hvis] at hx
    simp at hx
  · intro x hx
    rw [hvis] at hx
    simp at hx
  · intro x _ dx hdx
    rw [hdist x] at hdx
    by_cases h : x ∈ seeds ∧ closedSkip G ac x = false
    · rw [if_pos h] at hdx
      have : enodeTravelTime G x = dx := by exact_mod_cast hdx
      rw [dInit_pq_mem]
      exact ⟨h.1, h.2, this.symm⟩
    · rw [if_neg h] at hdx
      simp at hdx
  · intro s hs hsk
    rw [hdist s, if_pos ⟨hs, hsk⟩]
  · intro x dx hdx
    rw [hdist x] at hdx
    by_cases h : x ∈ seeds ∧ closedSkip G ac x = false
    · rw [if_pos h] at hdx
      have hval : enodeTravelTime G x = dx := by exact_mod_cast hdx
      refine ⟨[x], ?_, ⟨x, rfl, h.1⟩, rfl, ?_⟩
      · simp [pathOK, h.2]
      · simp only [pathCost, restCost]
        linarith [hval]
    · rw [if_neg h] at hdx
      simp at hdx

/-- Invariant during the relaxation fold of a processed segment `e` with
final cost `c`: everything of `DInv` with lower bound `c` except that
`e`'s own successors are not yet all relaxed. -/
structure RelaxMid (G : EdgeGraph) (ac : Bool) (seeds targets : List Enode)
    (c : ℚ) (e : Enode) (st : DState) : Prop where
  evis : e ∈ st.visited
  ec : lookupQ st.dist e = ((c : ℚ) : QInf)
  pq_dist : ∀ c' x, (c', x) ∈ st.pq → lookupQ st.dist x ≤ ((c' : ℚ) : QInf)
  pq_lb : ∀ c' x, (c', x) ∈ st.pq → c ≤ c'
  vis_le : ∀ x ∈ st.visited, lookupQ st.dist x ≤ ((c : ℚ) : QInf)
  not_tgt : ∀ x ∈ st.visited, x ∉ targets
  entry : ∀ x, x ∉ st.visited → ∀ dx : ℚ, lookupQ st.dist x = ((dx : ℚ) : QInf) →
    (dx, x) ∈ st.pq
  seeds_le : ∀ s ∈ seeds, closedSkip G ac s = false →
    lookupQ st.dist s ≤ ((enodeTravelTime G s : ℚ) : QInf)
  reach : ∀ x (dx : ℚ), lookupQ st.dist x = ((dx : ℚ) : QInf) →
    ∃ π, pathOK G ac π = true ∧ (∃ h, π.head? = some h ∧ h ∈ seeds) ∧
      π.getLast? = some x ∧ pathCost G π = dx
  old_relaxed : ∀ x ∈ st.visited, x ≠ e → ∀ nb ∈ successors G x,
    closedSkip G ac nb = false → ∀ dx : ℚ, lookupQ st.dist x = ((dx : ℚ) : QInf) →
      lookupQ st.dist nb ≤ ((dx + turnCost G x nb + enodeTravelTime G nb : ℚ) : QInf)

/-- Effect of the relaxation fold: the invariant is maintained, the
visited set and counters are untouched, distances only decrease, and
every processed open successor ends up relaxed. -/
theorem dRelax_fold {G : EdgeGraph} {ac : Bool} {seeds targets : List Enode}
    (hG : NonnegGraph G) {e : Enode} {c : ℚ} :
    ∀ (l : List Enode) (st : DState), (∀ nb ∈ l, nb ∈ successors G e) →
    RelaxMid G ac seeds targets c e st →
    RelaxMid G ac seeds targets c e (l.foldl (fun st nb =>
      if closedSkip G ac nb then st
      else if ((c + turnCost G e nb + enodeTravelTime G nb : ℚ) : QInf) <
          lookupQ st.dist nb then
        { st with dist := (nb, c + turnCost G e nb + enodeTravelTime G nb) :: st.dist,
                  prev := (nb, some e) :: st.prev,
                  pq := (c + turnCost G e nb + enodeTravelTime G nb, nb) :: st.pq }
      else st) st) ∧
    (l.foldl (fun st nb =>
      if closedSkip G ac nb then st
      else if ((c + turnCost G e nb + enodeTravelTime G nb : ℚ) : QInf) <
          lookupQ st.dist nb then
        { st with dist := (nb, c + turnCost G e nb + enodeTravelTime G nb) :: st.dist,
                  prev := (nb, some e) :: st.prev,
                  pq := (c + turnCost G e nb + enodeTravelTime G nb, nb) :: st.pq }
      else st) st).visited = st.visited ∧
    (∀ x, lookupQ (l.foldl (fun st nb =>
      if closedSkip G ac nb then st
      else if ((c + turnCost G e nb + enodeTravelTime G nb : ℚ) : QInf) <
          lookupQ st.dist nb then
        { st with dist := (nb, c + turnCost G e nb + enodeTravelTime G nb) :: st.dist,
                  prev := (nb, some e) :: st.prev,
                  pq := (c + turnCost G e nb + enodeTravelTime G nb, nb) :: st.pq }
      else st) st).dist x ≤ lookupQ st.dist x) ∧
    (∀ nb ∈ l, closedSkip G ac nb = false →
      lookupQ (l.foldl (fun st nb =>
        if closedSkip G ac nb then st
        else if ((c + turnCost G e nb + enodeTravelTime G nb : ℚ) : QInf) <
            lookupQ st.dist nb then
          { st with dist := (nb, c + turnCost G e nb + enodeTravelTime G nb) :: st.dist,
                    prev := (nb, some e) :: st.prev,
                    pq := (c + turnCost G e nb + enodeTravelTime G nb, nb) :: st.pq }
        else st) st).dist nb ≤
        ((c + turnCost G e nb + enodeTravelTime G nb : ℚ) : QInf)) := by
  intro l
  induction l with
  | nil =>
    intro st _ hmid
    exact ⟨hmid, rfl, fun x => le_refl _, by intro nb h; simp at h⟩
  | cons nb t ih =>
    intro st hsub hmid
    simp only [List.foldl_cons]
    have hnbsucc : nb ∈ successors G e := hsub nb (List.mem_cons_self _ _)
    by_cases hskip : closedSkip G ac nb
    · rw [if_pos hskip]
      obtain ⟨hm, hv, hmono, hnew⟩ :=
        ih st (fun x hx => hsub x (List.mem_cons.mpr (Or.inr hx))) hmid
      refine ⟨hm, hv, hmono, ?_⟩
      intro x hx hxsk
      rcases List.mem_cons.mp hx with h1 | h1
      · subst h1
        exact absurd hskip (by simp [hxsk])
      · exact hnew x h1 hxsk
    · rw [if_neg hskip]
      have hskipf : closedSkip G ac nb = false := by
        simpa using hskip
      have hcge : c ≤ c + turnCost G e nb + enodeTravelTime G nb := by
        have h1 := hG.2 e nb
        have h2 := hG.1 nb
        linarith
      by_cases hupd : ((c + turnCost G e nb + enodeTravelTime G nb : ℚ) : QInf) <
          lookupQ st.dist nb
      · rw [if_pos hupd]
        have hnbv : nb ∉ st.visited := by
          intro hmem
          have h1 := hmid.vis_le nb hmem
          have h2 : ((c + turnCost G e nb + enodeTravelTime G nb : ℚ) : QInf) <
              ((c : ℚ) : QInf) := lt_of_lt_of_le hupd h1
          rw [WithTop.coe_lt_coe] at h2
          linarith
        have hnbe : nb ≠ e := by
          intro heq
          exact hnbv (heq ▸ hmid.evis)
        obtain ⟨st2, hst2⟩ : ∃ st2 : DState, st2 =
            { st with dist := (nb, c + turnCost G e nb + enodeTravelTime G nb) :: st.dist,
                      prev := (nb, some e) :: st.prev,
                      pq := (c + turnCost G e nb + enodeTravelTime G nb, nb) :: st.pq } :=
          ⟨_, rfl⟩
        rw [← hst2]
        have hd2 : ∀ x, lookupQ st2.dist x =
            if nb = x then ((c + turnCost G e nb + enodeTravelTime G nb : ℚ) : QInf)
            else lookupQ st.dist x := by
          intro x
          rw [hst2]
          exact lookupQ_cons nb _ st.dist x
        have hpq2 : st2.pq = (c + turnCost G e nb + enodeTravelTime G nb, nb) :: st.pq := by
          rw [hst2]
        have hvis2 : st2.visited = st.visited := by
          rw [hst2]
        have hmono2 : ∀ x, lookupQ st2.dist x ≤ lookupQ st.dist x := by
          intro x
          rw [hd2 x]
          by_cases hx : nb = x
          · rw [if_pos hx, ← hx]
            exact le_of_lt hupd
          · rw [if_neg hx]
        have hmid2 : RelaxMid G ac seeds targets c e st2 := by
          refine ⟨hvis2 ▸ hmid.evis, ?_, ?_, ?_, ?_, ?_, ?_, ?_, ?_, ?_⟩
          · rw [hd2 e, if_neg hnbe]
            exact hmid.ec
          · intro c' x hx
            rw [hpq2] at hx
            rcases List.mem_cons.mp hx with h1 | h1
            · have hx2 : x = nb := (congrArg Prod.snd h1)
              have hc2 : c' = c + turnCost G e nb + enodeTravelTime G nb :=
                (congrArg Prod.fst h1)
              rw [hx2, hd2 nb, if_pos rfl, hc2]
            · rw [hd2 x]
              by_cases hxnb : nb = x
              · rw [if_pos hxnb]
                refine le_trans (le_of_lt hupd) ?_
                rw [hxnb]
                exact hmid.pq_dist c' x h1
              · rw [if_neg hxnb]
                exact hmid.pq_dist c' x h1
          · intro c' x hx
            rw [hpq2] at hx
            rcases List.mem_cons.mp hx with h1 | h1
            · have hc2 : c' = c + turnCost G e nb + enodeTravelTime G nb :=
                (congrArg Prod.fst h1)
              rw [hc2]
              exact hcge
            · exact hmid.pq_lb c' x h1
          · intro x hx
            rw [hvis2] at hx
            rw [hd2 x, if_neg (fun heq => hnbv (by rw [heq]; exact hx))]
            exact hmid.vis_le x hx
          · intro x hx
            rw [hvis2] at hx
            exact hmid.not_tgt x hx
          · intro x hx dx hdx
            rw [hvis2] at hx
            rw [hd2 x] at hdx
            rw [hpq2]
            by_cases hxnb : nb = x
            · rw [if_pos hxnb] at hdx
              have hdc : c + turnCost G e nb + enodeTravelTime G nb = dx := by
                exact_mod_cast hdx
              rw [hdc, hxnb]
              exact List.mem_cons_self _ _
            · rw [if_neg hxnb] at hdx
              exact List.mem_cons.mpr (Or.inr (hmid.entry x hx dx hdx))
          · intro s hs hsk
            rw [hd2 s]
            by_cases hsnb : nb = s
            · rw [if_pos hsnb]
              refine le_trans (le_of_lt hupd) ?_
              rw [hsnb]
              exact hmid.seeds_le s hs hsk
            · rw [if_neg hsnb]
              exact hmid.seeds_le s hs hsk
          · intro x dx hdx
            rw [hd2 x] at hdx
            by_cases hxnb : nb = x
            · rw [if_pos hxnb] at hdx
              have hdc : c + turnCost G e nb + enodeTravelTime G nb = dx := by
                exact_mod_cast hdx
              obtain ⟨π, hπ1, hπ2, hπ3, hπ4⟩ := hmid.reach e c hmid.ec
              have hπne : π ≠ [] := by
                intro hn
                rw [hn] at hπ3
                simp at hπ3
              refine ⟨π ++ [nb], ?_, ?_, ?_, ?_⟩
              · exact pathOK_append_single hπ1 hπ3
                  ((hasEdge_iff_mem_successors G e nb).mpr hnbsucc) hskipf
              · obtain ⟨h0, hh0, hh0s⟩ := hπ2
                exact ⟨h0, by rw [head?_append_of_ne_nil _ hπne]; exact hh0, hh0s⟩
              · rw [← hxnb]
                exact getLast?_concat π nb
              · rw [pathCost_append_single nb hπ3, hπ4, ← hdc]
            · rw [if_neg hxnb] at hdx
              exact hmid.reach x dx hdx
          · intro x hx hxe nb' hnb' hsk' dx hdx
            rw [hvis2] at hx
            rw [hd2 x, if_neg (fun heq => hnbv (by rw [heq]; exact hx))] at hdx
            rw [hd2 nb']
            by_cases hnb'nb : nb = nb'
            · rw [if_pos hnb'nb]
              refine le_trans (le_of_lt hupd) ?_
              rw [hnb'nb]
              exact hmid.old_relaxed x hx hxe nb' hnb' hsk' dx hdx
            · rw [if_neg hnb'nb]
              exact hmid.old_relaxed x hx hxe nb' hnb' hsk' dx hdx
        obtain ⟨hm, hv, hmono, hnew⟩ :=
          ih st2 (fun x hx => hsub x (List.mem_cons.mpr (Or.inr hx))) hmid2
        refine ⟨hm, by rw [hv, hvis2], ?_, ?_⟩
        · intro x
          exact le_trans (hmono x) (hmono2 x)
        · intro x hx hxsk
          rcases List.mem_cons.mp hx with h1 | h1
          · subst h1
            refine le_trans (hmono x) ?_
            rw [hd2 x, if_pos rfl]
          · exact hnew x h1 hxsk
      · rw [if_neg hupd]
        obtain ⟨hm, hv, hmono, hnew⟩ :=
          ih st (fun x hx => hsub x (List.mem_cons.mpr (Or.inr hx))) hmid
        refine ⟨hm, hv, hmono, ?_⟩
        intro x hx hxsk
        rcases List.mem_cons.mp hx with h1 | h1
        · subst h1
          refine le_trans (hmono x) ?_
          exact le_of_not_lt hupd
        · exact hnew x h1 hxsk

/-- `dRelax` is the (zeta-reduced) relaxation fold. -/
theorem dRelax_eq (G : EdgeGraph) (ac : Bool) (e : Enode) (c : ℚ) (st : DState) :
    dRelax G ac e c st = (successors G e).foldl (fun st nb =>
      if closedSkip G ac nb then st
      else if ((c + turnCost G e nb + enodeTravelTime G nb : ℚ) : QInf) <
          lookupQ st.dist nb then
        { st with dist := (nb, c + turnCost G e nb + enodeTravelTime G nb) :: st.dist,
                  prev := (nb, some e) :: st.prev,
                  pq := (c + turnCost G e nb + enodeTravelTime G nb, nb) :: st.pq }
      else st) st := rfl

/-- Processing a non-target pop re-establishes the invariant with the new
lower bound `c`. -/
theorem dInv_settle {G : EdgeGraph} {ac : Bool} {seeds targets : List Enode} {ℓ : ℚ}
    {st : DState} {c : ℚ} {e : Enode} {rest : List (ℚ × Enode)}
    (hG : NonnegGraph G) (inv : DInv G ac seeds targets ℓ st)
    (hpop : popMin st.pq = some ((c, e), rest))
    (hns : ¬ lookupQ st.dist e < ((c : ℚ) : QInf))
    (hnt : e ∉ targets) :
    DInv G ac seeds targets c
      (dRelax G ac e c
        { st with pq := rest, expanded := st.expanded + 1,
                  visited := e :: st.visited }) := by
  obtain ⟨hmem, hmin, hrest⟩ := popMin_spec hpop
  have hDe : lookupQ st.dist e = ((c : ℚ) : QInf) :=
    le_antisymm (inv.pq_dist c e hmem) (le_of_not_lt hns)
  have hlc : ℓ ≤ c := inv.pq_lb c e hmem
  obtain ⟨st2, hst2⟩ : ∃ st2 : DState, st2 =
      { st with pq := rest, expanded := st.expanded + 1,
                visited := e :: st.visited } := ⟨_, rfl⟩
  rw [← hst2]
  have hpq2 : st2.pq = rest := by rw [hst2]
  have hd2 : st2.dist = st.dist := by rw [hst2]
  have hv2 : st2.visited = e :: st.visited := by rw [hst2]
  have hmid : RelaxMid G ac seeds targets c e st2 := by
    refine ⟨?_, ?_, ?_, ?_, ?_, ?_, ?_, ?_, ?_, ?_⟩
    · rw [hv2]
      exact List.mem_cons_self _ _
    · rw [hd2]
      exact hDe
    · intro c' x hx
      rw [hpq2, hrest] at hx
      rw [hd2]
      exact inv.pq_dist c' x (mem_of_mem_erase hx)
    · intro c' x hx
      rw [hpq2, hrest] at hx
      exact hmin (c', x) (mem_of_mem_erase hx)
    · intro x hx
      rw [hv2] at hx
      rw [hd2]
      rcases List.mem_cons.mp hx with h1 | h1
      · subst h1
        rw [hDe]
      · refine le_trans (inv.vis_le x h1) ?_
        rw [WithTop.coe_le_coe]
        exact hlc
    · intro x hx
      rw [hv2] at hx
      rcases List.mem_cons.mp hx with h1 | h1
      · subst h1
        exact hnt
      · exact inv.not_tgt x h1
    · intro x hx dx hdx
      rw [hv2] at hx
      rw [hd2] at hdx
      rw [hpq2, hrest]
      have hxe : x ≠ e := fun h => hx (h ▸ List.mem_cons_self _ _)
      have hxv : x ∉ st.visited := fun h => hx (List.mem_cons.mpr (Or.inr h))
      refine mem_erase_of_ne_mem ?_ (inv.entry x hxv dx hdx)
      intro heq
      exact hxe (congrArg Prod.snd heq)
    · intro s hs hsk
      rw [hd2]
      exact inv.seeds_le s hs hsk
    · intro x dx hdx
      rw [hd2] at hdx
      exact inv.reach x dx hdx
    · intro x hx hxe nb hnb hsk dx hdx
      rw [hv2] at hx
      rw [hd2] at hdx ⊢
      rcases List.mem_cons.mp hx with h1 | h1
      · exact absurd h1 hxe
      · exact inv.vis_relaxed x h1 nb hnb hsk dx hdx
  obtain ⟨hm, hv, hmono, hnew⟩ :=
    dRelax_fold hG (successors G e) st2 (fun nb h => h) hmid
  rw [dRelax_eq]
  refine ⟨hm.pq_dist, hm.pq_lb, hm.vis_le, ?_, hm.not_tgt, hm.entry, hm.seeds_le,
    hm.reach⟩
  intro x hx nb hnb hsk dx hdx
  by_cases hxe : x = e
  · subst hxe
    have hdc : c = dx := by
      have h1 := hm.ec
      rw [hdx] at h1
      exact_mod_cast h1.symm
    rw [← hdc]
    exact hnew nb hnb hsk
  · rw [hv, hv2] at hx
    rcases List.mem_cons.mp hx with h1 | h1
    · exact absurd h1 hxe
    · exact hm.old_relaxed x (by rw [hv, hv2]; exact List.mem_cons.mpr (Or.inr h1))
        hxe nb hnb hsk dx hdx

/-- Main specification of the Dijkstra loop: a found target cost is the
cost of an actual valid seed-to-target path and is at most the cost of
every valid seed-to-target path; an exhausted queue (with no expansion
cap) means no valid seed-to-target path exists at all. -/
theorem dLoop_spec {G : EdgeGraph} {ac : Bool} {seeds targets : List Enode}
    {mv : Option ℕ} (hG : NonnegGraph G) :
    ∀ (fuel : ℕ) (st : DState) (ℓ : ℚ) (res : Option (Enode × ℚ) × DState),
      DInv G ac seeds targets ℓ st →
      dLoop G targets ac mv fuel st = some res →
      (∀ e c, res.1 = some (e, c) →
        e ∈ targets ∧
        (∃ π, pathOK G ac π = true ∧ (∃ h, π.head? = some h ∧ h ∈ seeds) ∧
          π.getLast? = some e ∧ pathCost G π = c) ∧
        (∀ π, ValidTargetPath G ac seeds targets π → c ≤ pathCost G π)) ∧
      (res.1 = none → mv = none → ∀ π, ¬ ValidTargetPath G ac seeds targets π) := by
  intro fuel
  induction fuel with
  | zero =>
    intro st ℓ res _ heq
    simp [dLoop] at heq
  | succ fuel ih =>
    intro st ℓ res inv heq
    rw [dLoop] at heq
    split at heq
    · next hp =>
      have hres : res = (none, st) := by
        simpa using heq.symm
      subst hres
      refine ⟨by intro e c h; simp at h, ?_⟩
      intro _ _ π hπ
      obtain ⟨y, dy, hmem, _⟩ := dInv_cover hG inv π hπ
      rw [popMin_eq_none.mp hp] at hmem
      simp at hmem
    · next c e rest hp =>
      by_cases hcap : capReached mv st.expanded = true
      · rw [if_pos hcap] at heq
        have hres : res = (none, { st with pq := rest }) := by
          simpa using heq.symm
        subst hres
        refine ⟨by intro e' c' h; simp at h, ?_⟩
        intro _ hmv
        rw [hmv] at hcap
        simp [capReached] at hcap
      · rw [if_neg hcap] at heq
        by_cases hst : lookupQ st.dist e < ((c : ℚ) : QInf)
        · rw [if_pos hst] at heq
          exact ih _ ℓ res (dInv_stale inv hp hst) heq
        · rw [if_neg hst] at heq
          have hDe : lookupQ st.dist e = ((c : ℚ) : QInf) :=
            le_antisymm (inv.pq_dist c e (popMin_spec hp).1) (le_of_not_lt hst)
          by_cases htgt : e ∈ targets
          · rw [if_pos htgt] at heq
            have hres : res = (some (e, c),
                { st with pq := rest, expanded := st.expanded + 1 }) := by
              simpa using heq.symm
            subst hres
            refine ⟨?_, by intro h; simp at h⟩
            intro e' c' heq'
            have h2 : (e, c) = (e', c') := Option.some.inj heq'
            have he' : e = e' := congrArg Prod.fst h2
            have hc' : c = c' := congrArg Prod.snd h2
            subst he'
            subst hc'
            refine ⟨htgt, inv.reach e c hDe, ?_⟩
            intro π hπ
            obtain ⟨y, dy, hmem, hbound⟩ := dInv_cover hG inv π hπ
            have hcdy : c ≤ dy := (popMin_spec hp).2.1 (dy, y) hmem
            linarith
          · rw [if_neg htgt] at heq
            exact ih _ c res (dInv_settle hG inv hp hst htgt) heq

/-- Reduced form of `dijkstra_route` when both raw endpoint sets are
nonempty. -/
theorem dijkstra_route_eq (fuel : ℕ) (G : EdgeGraph) (s t : ℕ)
    (oc : Option Constraints) (ac : Bool) (mv : Option ℕ)
    (h : ¬ (enodesFromStart G s = [] ∨ targetNodes G t = [])) :
    dijkstra_route fuel G s t oc ac mv =
      match dLoop G (targetSet G t oc) ac mv fuel (dInit G ac (startSet G s oc)) with
      | none => none
      | some (none, st) => some (noRoute st.expanded)
      | some (some (e, c), st) =>
        some ⟨some (buildRouteNodes ((buildPath st.prev (st.prev.length + 1) e).reverse)),
              some ((buildPath st.prev (st.prev.length + 1) e).reverse),
              ((c : ℚ) : QInf), st.expanded⟩ := by
  simp only [dijkstra_route]
  rw [if_neg h]
  rfl

/-- A route returned by `dijkstra_route` is a found target: its cost is
finite, it is the cost of an actual valid seed-to-target path, and it is
minimal over all valid seed-to-target paths. -/
theorem dijkstra_route_found {fuel : ℕ} {G : EdgeGraph} {s t : ℕ}
    {oc : Option Constraints} {ac : Bool} {mv : Option ℕ} {res : SearchResult}
    (hG : NonnegGraph G)
    (hroute : dijkstra_route fuel G s t oc ac mv = some res)
    {l : List Enode} (hl : res.route_enodes = some l) :
    ∃ c : ℚ, res.cost = ((c : ℚ) : QInf) ∧
      (∃ e π, e ∈ targetSet G t oc ∧ pathOK G ac π = true ∧
        (∃ h, π.head? = some h ∧ h ∈ startSet G s oc) ∧
        π.getLast? = some e ∧ pathCost G π = c) ∧
      (∀ π, ValidTargetPath G ac (startSet G s oc) (targetSet G t oc) π →
        c ≤ pathCost G π) := by
  by_cases hempty : enodesFromStart G s = [] ∨ targetNodes G t = []
  · have : dijkstra_route fuel G s t oc ac mv = some (noRoute 0) := by
      simp only [dijkstra_route]
      rw [if_pos hempty]
    rw [this] at hroute
    have hres : res = noRoute 0 := by simpa using hroute.symm
    rw [hres] at hl
    simp [noRoute] at hl
  · rw [dijkstra_route_eq fuel G s t oc ac mv hempty] at hroute
    cases hd : dLoop G (targetSet G t oc) ac mv fuel (dInit G ac (startSet G s oc)) with
    | none => rw [hd] at hroute; simp at hroute
    | some p =>
      obtain ⟨r, st⟩ := p
      cases r with
      | none =>
        rw [hd] at hroute
        have hres : res = noRoute st.expanded := by simpa using hroute.symm
        rw [hres] at hl
        simp [noRoute] at hl
      | some ec =>
        obtain ⟨e, c⟩ := ec
        rw [hd] at hroute
        have hres : res = ⟨some (buildRouteNodes ((buildPath st.prev
            (st.prev.length + 1) e).reverse)),
            some ((buildPath st.prev (st.prev.length + 1) e).reverse),
            ((c : ℚ) : QInf), st.expanded⟩ := by
          simpa using hroute.symm
        obtain ⟨hfound, _⟩ := dLoop_spec hG fuel (dInit G ac (startSet G s oc)) 0
          (some (e, c), st)
          (dInv_init hG ac (startSet G s oc) (targetSet G t oc)) hd
        obtain ⟨htgt, ⟨π, hπ1, hπ2, hπ3, hπ4⟩, hopt⟩ := hfound e c rfl
        refine ⟨c, by rw [hres], ⟨e, π, htgt, hπ1, hπ2, hπ3, hπ4⟩, hopt⟩

/-- With no expansion cap, the cost returned by `dijkstra_route` (finite
or infinite) is at most the cost of every valid seed-to-target path. -/
theorem dijkstra_route_le_paths {fuel : ℕ} {G : EdgeGraph} {s t : ℕ}
    {oc : Option Constraints} {ac : Bool} {res : SearchResult}
    (hG : NonnegGraph G)
    (hroute : dijkstra_route fuel G s t oc ac none = some res)
    (π : List Enode)
    (hπ : ValidTargetPath G ac (startSet G s oc) (targetSet G t oc) π) :
    res.cost ≤ ((pathCost G π : ℚ) : QInf) := by
  by_cases hempty : enodesFromStart G s = [] ∨ targetNodes G t = []
  · exfalso
    obtain ⟨hok0, ⟨h0, hh0, hh0s⟩, tl, htl, htls⟩ := hπ
    rcases hempty with h | h
    · have : startSet G s oc = [] := by
        unfold startSet filterByConstraints
        rw [h]
        cases oc with
        | none => rfl
        | some c => by_cases hc : c = emptyConstraints <;> simp [hc]
      rw [this] at hh0s
      simp at hh0s
    · have : targetSet G t oc = [] := by
        unfold targetSet filterByConstraints
        rw [h]
        cases oc with
        | none => rfl
        | some c => by_cases hc : c = emptyConstraints <;> simp [hc]
      rw [this] at htls
      simp at htls
  · rw [dijkstra_route_eq fuel G s t oc ac none hempty] at hroute
    cases hd : dLoop G (targetSet G t oc) ac none fuel (dInit G ac (startSet G s oc)) with
    | none => rw [hd] at hroute; simp at hroute
    | some p =>
      obtain ⟨r, st⟩ := p
      obtain ⟨hfound, hempty2⟩ := dLoop_spec hG fuel (dInit G ac (startSet G s oc)) 0
        (r, st) (dInv_init hG ac (startSet G s oc) (targetSet G t oc)) hd
      cases r with
      | none => exact absurd hπ (hempty2 rfl rfl π)
      | some ec =>
        obtain ⟨e, c⟩ := ec
        rw [hd] at hroute
        have hres : res.cost = ((c : ℚ) : QInf) := by
          have : res = ⟨some (buildRouteNodes ((buildPath st.prev
              (st.prev.length + 1) e).reverse)),
              some ((buildPath st.prev (st.prev.length + 1) e).reverse),
              ((c : ℚ) : QInf), st.expanded⟩ := by
            simpa using hroute.symm
          rw [this]
        rw [hres, WithTop.coe_le_coe]
        exact (hfound e c rfl).2.2 π hπ

/-! ## Claim C4 -/

/-- C4: for every edge-graph with non-negative segment travel times and
transition turn costs, if `dijkstra_route` returns a route then its
returned cost is at most the cost of every valid path from the
(constraint-filtered) seed set to the target set, a path's cost being the
first segment's travel time plus `turn_cost + travel_time` for each
subsequent segment, with closed segments hard-filtered according to
`allow_closed`. -/
theorem claim_C4 {fuel : ℕ} {G : EdgeGraph} {s t : ℕ} {oc : Option Constraints}
    {ac : Bool} {mv : Option ℕ} {res : SearchResult} {l π : List Enode}
    (hG : NonnegGraph G)
    (hroute : dijkstra_route fuel G s t oc ac mv = some res)
    (hl : res.route_enodes = some l)
    (hπ : ValidTargetPath G ac (startSet G s oc) (targetSet G t oc) π) :
    res.cost ≤ ((pathCost G π : ℚ) : QInf) := by
  obtain ⟨c, hc, _, hopt⟩ := dijkstra_route_found hG hroute hl
  rw [hc, WithTop.coe_le_coe]
  exact hopt π hπ

/-! ## A* realizability -/

theorem popMin3_spec {pq : List (ℚ × ℚ × Enode)} {m : ℚ × ℚ × Enode}
    {rest : List (ℚ × ℚ × Enode)} (h : popMin3 pq = some (m, rest)) :
    m ∈ pq ∧ rest = pq.erase m := by
  cases pq with
  | nil => simp [popMin3] at h
  | cons e t =>
    simp only [popMin3, Option.some.injEq, Prod.mk.injEq] at h
    obtain ⟨hm, hrest⟩ := h
    subst hm
    refine ⟨?_, hrest.symm⟩
    clear hrest
    induction t generalizing e with
    | nil => simp [pickMin3]
    | cons x rest2 ih =>
      have hres : pickMin3 e (x :: rest2) = pickMin3 (if tripLt x e then x else e) rest2 := by
        simp [pickMin3]
      rw [hres]
      have h := ih (if tripLt x e then x else e)
      rcases List.mem_cons.mp h with h1 | h1
      · rw [h1]
        by_cases hc : tripLt x e
        · rw [if_pos hc]
          exact List.mem_cons.mpr (Or.inr (List.mem_cons_self x rest2))
        · rw [if_neg hc]
          exact List.mem_cons_self e _
      · exact List.mem_cons.mpr (Or.inr (List.mem_cons.mpr (Or.inr h1)))

theorem popMin3_eq_none {pq : List (ℚ × ℚ × Enode)} : popMin3 pq = none ↔ pq = [] := by
  cases pq <;> simp [popMin3]

theorem mem_of_mem_erase3 {l : List (ℚ × ℚ × Enode)} {a b : ℚ × ℚ × Enode}
    (h : a ∈ l.erase b) : a ∈ l :=
  List.mem_of_mem_erase h

/-- Realizability invariant of the A* loop: heap priorities dominate the
g-scores, and every g-score is the cost of an actual valid seed path. -/
structure AInv (G : EdgeGraph) (ac : Bool) (seeds : List Enode) (st : AState) :
    Prop where
  heap_g : ∀ f g x, (f, g, x) ∈ st.open_heap → lookupQ st.gscore x ≤ ((g : ℚ) : QInf)
  reach : ∀ x (gx : ℚ), lookupQ st.gscore x = ((gx : ℚ) : QInf) →
    ∃ π, pathOK G ac π = true ∧ (∃ h, π.head? = some h ∧ h ∈ seeds) ∧
      π.getLast? = some x ∧ pathCost G π = gx

/-- Closed form of the A* seed-initialisation fold. -/
theorem aInit_go (G : EdgeGraph) (ac : Bool) (h : Enode → ℚ) (l : List Enode)
    (st : AState) :
    l.foldl (fun st en =>
      if closedSkip G ac en then st
      else
        { st with gscore := (en, enodeTravelTime G en) :: st.gscore,
                  prev := (en, none) :: st.prev,
                  open_heap := (enodeTravelTime G en + h en, enodeTravelTime G en, en) ::
                    st.open_heap }) st =
    { st with
      open_heap := ((l.filter (fun s => !closedSkip G ac s)).reverse.map
        (fun s => (enodeTravelTime G s + h s, enodeTravelTime G s, s))) ++ st.open_heap,
      gscore := ((l.filter (fun s => !closedSkip G ac s)).reverse.map
        (fun s => (s, enodeTravelTime G s))) ++ st.gscore,
      prev := ((l.filter (fun s => !closedSkip G ac s)).reverse.map
        (fun s => (s, (none : Option Enode)))) ++ st.prev } := by
  induction l generalizing st with
  | nil => simp
  | cons s t ih =>
    simp only [List.foldl_cons, List.filter_cons]
    by_cases hs : closedSkip G ac s
    · rw [if_pos hs]
      rw [ih st]
      simp [hs]
    · rw [if_neg hs]
      rw [ih _]
      simp only [hs, Bool.not_false, if_true, List.reverse_cons, List.map_append,
        List.map_cons, List.map_nil, List.append_assoc, List.cons_append,
        List.nil_append, Bool.false_eq_true]

theorem aInit_eq (G : EdgeGraph) (ac : Bool) (h : Enode → ℚ) (seeds : List Enode) :
    aInit G ac h seeds =
      { open_heap := ((seeds.filter (fun s => !closedSkip G ac s)).reverse.map
          (fun s => (enodeTravelTime G s + h s, enodeTravelTime G s, s))),
        gscore := ((seeds.filter (fun s => !closedSkip G ac s)).reverse.map
          (fun s => (s, enodeTravelTime G s))),
        prev := ((seeds.filter (fun s => !closedSkip G ac s)).reverse.map
          (fun s => (s, (none : Option Enode)))),
        visited := [], expanded := 0 } := by
  unfold aInit
  rw [aInit_go]
  simp

theorem aInit_gscore (G : EdgeGraph) (ac : Bool) (h : Enode → ℚ) (seeds : List Enode)
    (x : Enode) :
    lookupQ (aInit G ac h seeds).gscore x =
      if x ∈ seeds ∧ closedSkip G ac x = false then
        ((enodeTravelTime G x : ℚ) : QInf) else ⊤ := by
  rw [aInit_eq]
  unfold lookupQ
  rw [alookup_map_graph]
  by_cases hx : x ∈ (seeds.filter (fun s => !closedSkip G ac s)).reverse
  · rw [if_pos hx]
    have h2 := List.mem_filter.mp (List.mem_reverse.mp hx)
    simp only [Bool.not_eq_true'] at h2
    rw [if_pos ⟨h2.1, h2.2⟩]
  · rw [if_neg hx, if_neg]
    intro ⟨h1, h2⟩
    exact hx (List.mem_reverse.mpr (List.mem_filter.mpr ⟨h1, by simp [h2]⟩))

theorem aInv_init {G : EdgeGraph} (ac : Bool) (h : Enode → ℚ) (seeds : List Enode) :
    AInv G ac seeds (aInit G ac h seeds) := by
  have hg := aInit_gscore G ac h seeds
  constructor
  · intro f g x hx
    rw [aInit_eq] at hx
    simp only [List.mem_map, List.mem_reverse, List.mem_filter,
      Bool.not_eq_true', Prod.mk.injEq] at hx
    obtain ⟨s, ⟨hs1, hs2⟩, hfeq, hgeq, hxeq⟩ := hx
    rw [← hxeq, hg s, if_pos ⟨hs1, hs2⟩, hgeq]
  · intro x gx hgx
    rw [hg x] at hgx
    by_cases hc : x ∈ seeds ∧ closedSkip G ac x = false
    · rw [if_pos hc] at hgx
      have hval : enodeTravelTime G x = gx := by exact_mod_cast hgx
      refine ⟨[x], ?_, ⟨x, rfl, hc.1⟩, rfl, ?_⟩
      · simp [pathOK, hc.2]
      · simp only [pathCost, restCost]
        linarith [hval]
    · rw [if_neg hc] at hgx
      simp at hgx

/-- The A* relaxation fold preserves the realizability invariant (the
expanded segment `e` is reached by a valid seed path of cost `g`). -/
theorem aRelax_fold {G : EdgeGraph} {ac : Bool} {seeds : List Enode}
    {h : Enode → ℚ} {e : Enode} {g : ℚ}
    (hπe : ∃ π, pathOK G ac π = true ∧ (∃ h0, π.head? = some h0 ∧ h0 ∈ seeds) ∧
      π.getLast? = some e ∧ pathCost G π = g) :
    ∀ (l : List Enode) (st : AState), (∀ nb ∈ l, nb ∈ successors G e) →
    AInv G ac seeds st →
    AInv G ac seeds (l.foldl (fun st nb =>
      if closedSkip G ac nb then st
      else if ((g + turnCost G e nb + enodeTravelTime G nb : ℚ) : QInf) <
          lookupQ st.gscore nb then
        { st with gscore := (nb, g + turnCost G e nb + enodeTravelTime G nb) :: st.gscore,
                  prev := (nb, some e) :: st.prev,
                  open_heap := (g + turnCost G e nb + enodeTravelTime G nb + h nb,
                    g + turnCost G e nb + enodeTravelTime G nb, nb) :: st.open_heap }
      else st) st) := by
  intro l
  induction l with
  | nil => intro st _ hinv; exact hinv
  | cons nb t ih =>
    intro st hsub hinv
    simp only [List.foldl_cons]
    have hnbsucc : nb ∈ successors G e := hsub nb (List.mem_cons_self _ _)
    by_cases hskip : closedSkip G ac nb
    · rw [if_pos hskip]
      exact ih st (fun x hx => hsub x (List.mem_cons.mpr (Or.inr hx))) hinv
    · rw [if_neg hskip]
      have hskipf : closedSkip G ac nb = false := by simpa using hskip
      by_cases hupd : ((g + turnCost G e nb + enodeTravelTime G nb : ℚ) : QInf) <
          lookupQ st.gscore nb
      · rw [if_pos hupd]
        refine ih _ (fun x hx => hsub x (List.mem_cons.mpr (Or.inr hx))) ?_
        constructor
        · intro f g' x hx
          have hd2 : ∀ y, lookupQ ((nb, g + turnCost G e nb + enodeTravelTime G nb) ::
              st.gscore) y =
              if nb = y then ((g + turnCost G e nb + enodeTravelTime G nb : ℚ) : QInf)
              else lookupQ st.gscore y := fun y => lookupQ_cons nb _ st.gscore y
          rcases List.mem_cons.mp hx with h1 | h1
          · have hx2 : x = nb := congrArg (fun p => p.2.2) h1
            have hg2 : g' = g + turnCost G e nb + enodeTravelTime G nb :=
              congrArg (fun p => p.2.1) h1
            rw [hx2, hd2 nb, if_pos rfl, hg2]
          · rw [hd2 x]
            by_cases hxnb : nb = x
            · rw [if_pos hxnb]
              refine le_trans (le_of_lt hupd) ?_
              rw [hxnb]
              exact hinv.heap_g f g' x h1
            · rw [if_neg hxnb]
              exact hinv.heap_g f g' x h1
        · intro x gx hgx
          rw [lookupQ_cons] at hgx
          by_cases hxnb : nb = x
          · rw [if_pos hxnb] at hgx
            have hgc : g + turnCost G e nb + enodeTravelTime G nb = gx := by
              exact_mod_cast hgx
            obtain ⟨π, hπ1, hπ2, hπ3, hπ4⟩ := hπe
            have hπne : π ≠ [] := by
              intro hn
              rw [hn] at hπ3
              simp at hπ3
            refine ⟨π ++ [nb], ?_, ?_, ?_, ?_⟩
            · exact pathOK_append_single hπ1 hπ3
                ((hasEdge_iff_mem_successors G e nb).mpr hnbsucc) hskipf
            · obtain ⟨h0, hh0, hh0s⟩ := hπ2
              exact ⟨h0, by rw [head?_append_of_ne_nil _ hπne]; exact hh0, hh0s⟩
            · rw [← hxnb]
              exact getLast?_concat π nb
            · rw [pathCost_append_single nb hπ3, hπ4, ← hgc]
          · rw [if_neg hxnb] at hgx
            exact hinv.reach x gx hgx
      · rw [if_neg hupd]
        exact ih st (fun x hx => hsub x (List.mem_cons.mpr (Or.inr hx))) hinv

/-- `aRelax` is the (zeta-reduced) relaxation fold. -/
theorem aRelax_eq (G : EdgeGraph) (ac : Bool) (h : Enode → ℚ) (e : Enode) (g : ℚ)
    (st : AState) :
    aRelax G ac h e g st = (successors G e).foldl (fun st nb =>
      if closedSkip G ac nb then st
      else if ((g + turnCost G e nb + enodeTravelTime G nb : ℚ) : QInf) <
          lookupQ st.gscore nb then
        { st with gscore := (nb, g + turnCost G e nb + enodeTravelTime G nb) :: st.gscore,
                  prev := (nb, some e) :: st.prev,
                  open_heap := (g + turnCost G e nb + enodeTravelTime G nb + h nb,
                    g + turnCost G e nb + enodeTravelTime G nb, nb) :: st.open_heap }
      else st) st := rfl

/-- Specification of the A* loop: a found target cost is realised by a
valid seed path ending in a target. -/
theorem aLoop_spec {G : EdgeGraph} {ac : Bool} {seeds targets : List Enode}
    {mv : Option ℕ} {h : Enode → ℚ} :
    ∀ (fuel : ℕ) (st : AState) (res : Option (Enode × ℚ) × AState),
      AInv G ac seeds st →
      aLoop G targets ac mv h fuel st = some res →
      ∀ e g, res.1 = some (e, g) →
        e ∈ targets ∧
        ∃ π, pathOK G ac π = true ∧ (∃ h0, π.head? = some h0 ∧ h0 ∈ seeds) ∧
          π.getLast? = some e ∧ pathCost G π = g := by
  intro fuel
  induction fuel with
  | zero =>
    intro st res _ heq
    simp [aLoop] at heq
  | succ fuel ih =>
    intro st res inv heq
    rw [aLoop] at heq
    split at heq
    · next hp =>
      have hres : res = (none, st) := by simpa using heq.symm
      subst hres
      intro e g hfound
      simp at hfound
    · next f g e rest hp =>
      obtain ⟨hmem, hrest⟩ := popMin3_spec hp
      by_cases hcap : capReached mv st.expanded = true
      · rw [if_pos hcap] at heq
        have hres : res = (none, { st with open_heap := rest }) := by
          simpa using heq.symm
        subst hres
        intro e' g' hfound
        simp at hfound
      · rw [if_neg hcap] at heq
        by_cases hvis : e ∈ st.visited
        · rw [if_pos hvis] at heq
          refine ih _ res ?_ heq
          constructor
          · intro f' g' x hx
            exact inv.heap_g f' g' x (mem_of_mem_erase3 (hrest ▸ hx))
          · exact inv.reach
        · rw [if_neg hvis] at heq
          by_cases hst : lookupQ st.gscore e < ((g : ℚ) : QInf)
          · rw [if_pos hst] at heq
            refine ih _ res ?_ heq
            constructor
            · intro f' g' x hx
              exact inv.heap_g f' g' x (mem_of_mem_erase3 (hrest ▸ hx))
            · exact inv.reach
          · rw [if_neg hst] at heq
            have hge : lookupQ st.gscore e = ((g : ℚ) : QInf) :=
              le_antisymm (inv.heap_g f g e hmem) (le_of_not_lt hst)
            have hπe := inv.reach e g hge
            by_cases htgt : e ∈ targets
            · rw [if_pos htgt] at heq
              have hres : res.1 = some (e, g) := by
                have : res = (some (e, g),
                    { st with open_heap := rest, visited := e :: st.visited,
                              expanded := st.expanded + 1 }) := by
                  simpa using heq.symm
                rw [this]
              intro e' g' hfound
              rw [hres] at hfound
              have h2 : (e, g) = (e', g') := Option.some.inj hfound
              have he' : e = e' := congrArg Prod.fst h2
              have hg' : g = g' := congrArg Prod.snd h2
              subst he'
              subst hg'
              exact ⟨htgt, hπe⟩
            · rw [if_neg htgt] at heq
              rw [aRelax_eq] at heq
              refine ih _ res ?_ heq
              refine aRelax_fold hπe (successors G e) _ (fun nb hx => hx) ?_
              constructor
              · intro f' g' x hx
                exact inv.heap_g f' g' x (mem_of_mem_erase3 (hrest ▸ hx))
              · exact inv.reach

/-- The heuristic closure `astar_route` builds: straight-line distance
from a segment's destination endpoint to the destination endpoint of the
representative (first filtered) target, divided by `vmax_mps`. -/
def astarHeuristic (hypot : ℚ → ℚ → ℚ) (G : EdgeGraph) (t : ℕ)
    (oc : Option Constraints) (vmax : ℚ) : Enode → ℚ :=
  vHeuristic hypot G (nodeData G ((targetSet G t oc).headD (0, 0, 0))).v_x
    (nodeData G ((targetSet G t oc).headD (0, 0, 0))).v_y vmax

/-- The heuristic never overestimates the true remaining cost to the
target set: along every filter-respecting path from a segment to a
target, the heuristic of the segment is at most the sum of
`turn_cost + travel_time` over the remaining segments. -/
def Admissible (G : EdgeGraph) (ac : Bool) (targets : List Enode)
    (h : Enode → ℚ) : Prop :=
  ∀ e rest tl, pathOK G ac (e :: rest) = true → (e :: rest).getLast? = some tl →
    tl ∈ targets → h e ≤ restCost G e rest

/-- Reduced form of `astar_route` when both raw endpoint sets are
nonempty. -/
theorem astar_route_eq (hypot : ℚ → ℚ → ℚ) (fuel : ℕ) (G : EdgeGraph) (s t : ℕ)
    (oc : Option Constraints) (vmax : ℚ) (ac : Bool) (mv : Option ℕ)
    (h : ¬ (enodesFromStart G s = [] ∨ targetNodes G t = [])) :
    astar_route hypot fuel G s t oc vmax ac mv =
      match aLoop G (targetSet G t oc) ac mv (astarHeuristic hypot G t oc vmax) fuel
        (aInit G ac (astarHeuristic hypot G t oc vmax) (startSet G s oc)) with
      | none => none
      | some (none, st) => some (noRoute st.expanded)
      | some (some (e, g), st) =>
        some ⟨some (buildRouteNodes ((buildPath st.prev (st.prev.length + 1) e).reverse)),
              some ((buildPath st.prev (st.prev.length + 1) e).reverse),
              ((g : ℚ) : QInf), st.expanded⟩ := by
  simp only [astar_route]
  rw [if_neg h]
  rfl

/-- Every result of `astar_route` has either infinite cost or the cost of
an actual valid seed-to-target path. -/
theorem astar_route_spec {hypot : ℚ → ℚ → ℚ} {fuel : ℕ} {G : EdgeGraph} {s t : ℕ}
    {oc : Option Constraints} {vmax : ℚ} {ac : Bool} {mv : Option ℕ}
    {res : SearchResult}
    (hroute : astar_route hypot fuel G s t oc vmax ac mv = some res) :
    res.cost = ⊤ ∨ ∃ π, ValidTargetPath G ac (startSet G s oc) (targetSet G t oc) π ∧
      res.cost = ((pathCost G π : ℚ) : QInf) := by
  by_cases hempty : enodesFromStart G s = [] ∨ targetNodes G t = []
  · have : astar_route hypot fuel G s t oc vmax ac mv = some (noRoute 0) := by
      simp only [astar_route]
      rw [if_pos hempty]
    rw [this] at hroute
    have hres : res = noRoute 0 := by simpa using hroute.symm
    rw [hres]
    exact Or.inl rfl
  · rw [astar_route_eq hypot fuel G s t oc vmax ac mv hempty] at hroute
    cases hd : aLoop G (targetSet G t oc) ac mv (astarHeuristic hypot G t oc vmax) fuel
        (aInit G ac (astarHeuristic hypot G t oc vmax) (startSet G s oc)) with
    | none => rw [hd] at hroute; simp at hroute
    | some p =>
      obtain ⟨r, st⟩ := p
      cases r with
      | none =>
        rw [hd] at hroute
        have hres : res = noRoute st.expanded := by simpa using hroute.symm
        rw [hres]
        exact Or.inl rfl
      | some eg =>
        obtain ⟨e, g⟩ := eg
        rw [hd] at hroute
        have hres : res.cost = ((g : ℚ) : QInf) := by
          have : res = ⟨some (buildRouteNodes ((buildPath st.prev
              (st.prev.length + 1) e).reverse)),
              some ((buildPath st.prev (st.prev.length + 1) e).reverse),
              ((g : ℚ) : QInf), st.expanded⟩ := by
            simpa using hroute.symm
          rw [this]
        obtain ⟨htgt, π, hπ1, hπ2, hπ3, hπ4⟩ :=
          aLoop_spec fuel (aInit G ac (astarHeuristic hypot G t oc vmax)
            (startSet G s oc)) (some (e, g), st)
            (aInv_init ac (astarHeuristic hypot G t oc vmax) (startSet G s oc)) hd
            e g rfl
        refine Or.inr ⟨π, ⟨hπ1, hπ2, e, hπ3, htgt⟩, ?_⟩
        rw [hres, hπ4]

/-! ## Claim C5 (amended part) -/

/-- C5 amended: whenever the straight-line heuristic never overestimates
the true remaining cost to the target set, the cost `astar_route` returns
is never SMALLER than the cost `dijkstra_route` returns for the same
graph, start, target and flags (with no expansion cap).  Equality — the
original claim — can fail, because the A* implementation never reopens
visited segments (see the counterexample). -/
theorem claim_C5_amended (hypot : ℚ → ℚ → ℚ) {fuel1 fuel2 : ℕ} {G : EdgeGraph}
    {s t : ℕ} {oc : Option Constraints} {vmax : ℚ} {ac : Bool}
    {res_d res_a : SearchResult}
    (hG : NonnegGraph G)
    (hadm : Admissible G ac (targetSet G t oc) (astarHeuristic hypot G t oc vmax))
    (hd : dijkstra_route fuel1 G s t oc ac none = some res_d)
    (ha : astar_route hypot fuel2 G s t oc vmax ac none = some res_a) :
    res_d.cost ≤ res_a.cost := by
  rcases astar_route_spec ha with h | ⟨π, hπ, hcost⟩
  · rw [h]
    exact le_top
  · rw [hcost]
    exact dijkstra_route_le_paths hG hd π hπ

/-! ## Bidirectional search: path concatenation and realizability -/

theorem hasEdge_iff_mem_predecessors (G : EdgeGraph) (a b : Enode) :
    hasEdge G b a = true ↔ b ∈ predecessors G a := by
  constructor
  · intro h
    rw [hasEdge, alookup_isSome] at h
    obtain ⟨p, hp, hkey⟩ := h
    simp only [predecessors, List.mem_map]
    refine ⟨p, List.mem_filter.mpr ⟨hp, ?_⟩, ?_⟩
    · simp [hkey]
    · simp [hkey]
  · intro h
    simp only [predecessors, List.mem_map] at h
    obtain ⟨p, hp, hb⟩ := h
    have hp2 := List.mem_filter.mp hp
    simp only [decide_eq_true_eq] at hp2
    rw [hasEdge, alookup_isSome]
    refine ⟨p, hp2.1, ?_⟩
    have : p.1 = (p.1.1, p.1.2) := rfl
    rw [this, hp2.2, hb]

theorem restCost_append (G : EdgeGraph) (p : Enode) (l τ : List Enode) :
    restCost G p (l ++ τ) = restCost G p l + restCost G (l.getLastD p) τ := by
  induction l generalizing p with
  | nil => simp [restCost]
  | cons c t ih =>
    simp only [List.cons_append, restCost, List.getLastD_cons, List.append_eq]
    rw [ih c]
    ring

theorem pathCost_append (G : EdgeGraph) {π : List Enode} {m : Enode} (τ : List Enode)
    (hl : π.getLast? = some m) :
    pathCost G (π ++ τ) = pathCost G π + restCost G m τ := by
  cases π with
  | nil => simp at hl
  | cons a t =>
    have hz : t.getLastD a = m := by
      rw [List.getLastD_eq_getLast?]
      cases t with
      | nil => simpa using hl
      | cons b t2 =>
        rw [List.getLast?_cons_cons] at hl
        simp [hl]
    simp only [List.cons_append, pathCost, restCost_append, hz]
    ring

theorem pathOK_append (G : EdgeGraph) (ac : Bool) {π σ : List Enode} {m : Enode}
    (hπ : pathOK G ac π = true) (hl : π.getLast? = some m)
    (hσ : pathOK G ac σ = true) (hh : σ.head? = some m) :
    pathOK G ac (π ++ σ.tail) = true := by
  induction π with
  | nil => simp at hl
  | cons a t ih =>
    cases t with
    | nil =>
      have ham : a = m := by simpa using hl
      subst ham
      cases σ with
      | nil => simp at hh
      | cons m0 τ =>
        have hm0 : m0 = a := by simpa using hh
        subst hm0
        simpa using hσ
    | cons b t2 =>
      obtain ⟨h1, h2, h3⟩ := pathOK_cons hπ
      have hl2 : (b :: t2).getLast? = some m := by
        rw [← hl, List.getLast?_cons_cons]
      have := ih h3 hl2
      simp only [List.cons_append, pathOK, Bool.and_eq_true, Bool.not_eq_true'] at this ⊢
      exact ⟨⟨h1, h2⟩, this⟩

theorem getLast?_append_tail {σ : List Enode} {m tl : Enode}
    (hh : σ.head? = some m) (hl : σ.getLast? = some tl)
    {π : List Enode} (hπl : π.getLast? = some m) :
    (π ++ σ.tail).getLast? = some tl := by
  cases σ with
  | nil => simp at hh
  | cons m0 τ =>
    have hm0 : m = m0 := by simpa using hh.symm
    subst hm0
    cases τ with
    | nil =>
      have : tl = m := by simpa using hl.symm
      subst this
      simpa using hπl
    | cons b τ2 =>
      have h1 : (π ++ (m :: (b :: τ2)).tail).getLast? = (b :: τ2).getLast? := by
        simp only [List.tail_cons]
        rw [List.getLast?_append_of_ne_nil]
        simp
      rw [h1, ← List.getLast?_cons_cons (a := m)]
      exact hl

/-- Realizability invariant of the bidirectional loop.  Forward g-scores
are valid seed-path costs, backward g-scores are valid path-to-target
costs, and the best meeting candidate is a valid seed-to-target path cost
plus the (double-counted) travel time of the meeting segment. -/
structure BInv (G : EdgeGraph) (ac : Bool) (seeds targets : List Enode)
    (st : BState) : Prop where
  fwd_heap : ∀ f g x, (f, g, x) ∈ st.open_fwd → lookupQ st.g_fwd x ≤ ((g : ℚ) : QInf)
  bwd_heap : ∀ f g x, (f, g, x) ∈ st.open_bwd → lookupQ st.g_bwd x ≤ ((g : ℚ) : QInf)
  fwd_reach : ∀ x (gx : ℚ), lookupQ st.g_fwd x = ((gx : ℚ) : QInf) →
    ∃ π, pathOK G ac π = true ∧ (∃ h, π.head? = some h ∧ h ∈ seeds) ∧
      π.getLast? = some x ∧ pathCost G π = gx
  bwd_reach : ∀ x (gx : ℚ), lookupQ st.g_bwd x = ((gx : ℚ) : QInf) →
    ∃ σ, pathOK G ac σ = true ∧ σ.head? = some x ∧
      (∃ tl, σ.getLast? = some tl ∧ tl ∈ targets) ∧ pathCost G σ = gx
  best_ok : st.best = ⊤ ∨ ∃ π m, ValidTargetPath G ac seeds targets π ∧
    st.best = ((pathCost G π + enodeTravelTime G m : ℚ) : QInf)

/-- Combining a forward path to `m` and a backward path from `m` yields a
valid seed-to-target path whose cost is the sum of the two costs minus
the doubly counted travel time of `m`. -/
theorem meet_combine {G : EdgeGraph} {ac : Bool} {seeds targets : List Enode}
    {m : Enode} {gf gb : ℚ}
    (hfwd : ∃ π, pathOK G ac π = true ∧ (∃ h, π.head? = some h ∧ h ∈ seeds) ∧
      π.getLast? = some m ∧ pathCost G π = gf)
    (hb : ∃ σ, pathOK G ac σ = true ∧ σ.head? = some m ∧
      (∃ tl, σ.getLast? = some tl ∧ tl ∈ targets) ∧ pathCost G σ = gb) :
    ∃ π, ValidTargetPath G ac seeds targets π ∧
      gf + gb = pathCost G π + enodeTravelTime G m := by
  obtain ⟨π, hπ1, hπ2, hπ3, hπ4⟩ := hfwd
  obtain ⟨σ, hσ1, hσ2, ⟨tl, hσ3, hσ4⟩, hσ5⟩ := hb
  have hπne : π ≠ [] := by
    intro hn
    rw [hn] at hπ3
    simp at hπ3
  refine ⟨π ++ σ.tail, ⟨?_, ?_, tl, ?_, hσ4⟩, ?_⟩
  · exact pathOK_append G ac hπ1 hπ3 hσ1 hσ2
  · obtain ⟨h0, hh0, hh0s⟩ := hπ2
    exact ⟨h0, by rw [head?_append_of_ne_nil _ hπne]; exact hh0, hh0s⟩
  · exact getLast?_append_tail hσ2 hσ3 hπ3
  · have hcat : pathCost G (π ++ σ.tail) = pathCost G π + restCost G m σ.tail :=
      pathCost_append G σ.tail hπ3
    have hσcost : pathCost G σ = enodeTravelTime G m + restCost G m σ.tail := by
      cases σ with
      | nil => simp at hσ2
      | cons m0 τ =>
        have hm0 : m0 = m := by simpa using hσ2
        subst hm0
        simp [pathCost]
    rw [hcat]
    rw [hσcost] at hσ5
    linarith [hπ4]

/-- Closed form of the forward seed-initialisation fold. -/
theorem bInitFwd_eq (G : EdgeGraph) (ac : Bool) (hf : Enode → ℚ) (l : List Enode)
    (st : BState) :
    bInitFwd G ac hf l st =
    { st with
      open_fwd := ((l.filter (fun s => !closedSkip G ac s)).reverse.map
        (fun s => (enodeTravelTime G s + hf s, enodeTravelTime G s, s))) ++ st.open_fwd,
      g_fwd := ((l.filter (fun s => !closedSkip G ac s)).reverse.map
        (fun s => (s, enodeTravelTime G s))) ++ st.g_fwd,
      prev_fwd := ((l.filter (fun s => !closedSkip G ac s)).reverse.map
        (fun s => (s, (none : Option Enode)))) ++ st.prev_fwd } := by
  unfold bInitFwd
  induction l generalizing st with
  | nil => simp
  | cons s t ih =>
    simp only [List.foldl_cons, List.filter_cons]
    by_cases hs : closedSkip G ac s
    · rw [if_pos hs]
      rw [ih st]
      simp [hs]
    · rw [if_neg hs]
      rw [ih _]
      simp only [hs, Bool.not_false, if_true, List.reverse_cons, List.map_append,
        List.map_cons, List.map_nil, List.append_assoc, List.cons_append,
        List.nil_append, Bool.false_eq_true]

/-- Closed form of the backward seed-initialisation fold. -/
theorem bInitBwd_eq (G : EdgeGraph) (ac : Bool) (hb : Enode → ℚ) (l : List Enode)
    (st : BState) :
    bInitBwd G ac hb l st =
    { st with
      open_bwd := ((l.filter (fun s => !closedSkip G ac s)).reverse.map
        (fun s => (enodeTravelTime G s + hb s, enodeTravelTime G s, s))) ++ st.open_bwd,
      g_bwd := ((l.filter (fun s => !closedSkip G ac s)).reverse.map
        (fun s => (s, enodeTravelTime G s))) ++ st.g_bwd,
      prev_bwd := ((l.filter (fun s => !closedSkip G ac s)).reverse.map
        (fun s => (s, (none : Option Enode)))) ++ st.prev_bwd } := by
  unfold bInitBwd
  induction l generalizing st with
  | nil => simp
  | cons s t ih =>
    simp only [List.foldl_cons, List.filter_cons]
    by_cases hs : closedSkip G ac s
    · rw [if_pos hs]
      rw [ih st]
      simp [hs]
    · rw [if_neg hs]
      rw [ih _]
      simp only [hs, Bool.not_false, if_true, List.reverse_cons, List.map_append,
        List.map_cons, List.map_nil, List.append_assoc, List.cons_append,
        List.nil_append, Bool.false_eq_true]

/-- The invariant holds at bidirectional initialisation. -/
theorem bInv_init {G : EdgeGraph} (ac : Bool) (hf hb : Enode → ℚ)
    (seeds targets : List Enode) :
    BInv G ac seeds targets
      (bInitBwd G ac hb targets (bInitFwd G ac hf seeds
        ⟨[], [], [], [], [], [], ⊤, none, 0⟩)) := by
  rw [bInitFwd_eq, bInitBwd_eq]
  simp only [List.append_nil]
  constructor
  · intro f g x hx
    simp only [List.mem_map, List.mem_reverse, List.mem_filter,
      Bool.not_eq_true', Prod.mk.injEq] at hx
    obtain ⟨s, ⟨hs1, hs2⟩, hfeq, hgeq, hxeq⟩ := hx
    unfold lookupQ
    rw [← hxeq, alookup_map_graph, if_pos (List.mem_reverse.mpr
      (List.mem_filter.mpr ⟨hs1, by simp [hs2]⟩)), hgeq]
  · intro f g x hx
    simp only [List.mem_map, List.mem_reverse, List.mem_filter,
      Bool.not_eq_true', Prod.mk.injEq] at hx
    obtain ⟨s, ⟨hs1, hs2⟩, hfeq, hgeq, hxeq⟩ := hx
    unfold lookupQ
    rw [← hxeq, alookup_map_graph, if_pos (List.mem_reverse.mpr
      (List.mem_filter.mpr ⟨hs1, by simp [hs2]⟩)), hgeq]
  · intro x gx hgx
    unfold lookupQ at hgx
    rw [alookup_map_graph] at hgx
    by_cases hc : x ∈ (seeds.filter (fun s => !closedSkip G ac s)).reverse
    · rw [if_pos hc] at hgx
      have h2 := List.mem_filter.mp (List.mem_reverse.mp hc)
      simp only [Bool.not_eq_true'] at h2
      have hgx2 : ((enodeTravelTime G x : ℚ) : QInf) = ((gx : ℚ) : QInf) := hgx
      have hval : enodeTravelTime G x = gx := by exact_mod_cast hgx2
      refine ⟨[x], ?_, ⟨x, rfl, h2.1⟩, rfl, ?_⟩
      · simp [pathOK, h2.2]
      · simp only [pathCost, restCost]
        linarith [hval]
    · rw [if_neg hc] at hgx
      simp at hgx
  · intro x gx hgx
    unfold lookupQ at hgx
    rw [alookup_map_graph] at hgx
    by_cases hc : x ∈ (targets.filter (fun s => !closedSkip G ac s)).reverse
    · rw [if_pos hc] at hgx
      have h2 := List.mem_filter.mp (List.mem_reverse.mp hc)
      simp only [Bool.not_eq_true'] at h2
      have hgx2 : ((enodeTravelTime G x : ℚ) : QInf) = ((gx : ℚ) : QInf) := hgx
      have hval : enodeTravelTime G x = gx := by exact_mod_cast hgx2
      refine ⟨[x], ?_, rfl, ⟨x, rfl, h2.1⟩, ?_⟩
      · simp [pathOK, h2.2]
      · simp only [pathCost, restCost]
        linarith [hval]
    · rw [if_neg hc] at hgx
      simp at hgx
  · exact Or.inl rfl

/-- A meeting update after a non-stale forward pop preserves the
invariant. -/
theorem bInv_meetF {G : EdgeGraph} {ac : Bool} {seeds targets : List Enode}
    {st : BState} {e : Enode} {g : ℚ}
    (inv : BInv G ac seeds targets st)
    (hge : lookupQ st.g_fwd e = ((g : ℚ) : QInf)) :
    BInv G ac seeds targets (bMeetF e g st) := by
  cases hgb : alookup st.g_bwd e with
  | none =>
    have hred : bMeetF e g st = st := by
      simp only [bMeetF, hgb]
    rw [hred]
    exact inv
  | some gb =>
    have hred : bMeetF e g st =
        if (((g + gb : ℚ)) : QInf) < st.best then
          { st with best := (((g + gb : ℚ)) : QInf), meeting := some e }
        else st := by
      simp only [bMeetF, hgb]
    rw [hred]
    by_cases hlt : (((g + gb : ℚ)) : QInf) < st.best
    · rw [if_pos hlt]
      refine ⟨inv.fwd_heap, inv.bwd_heap, inv.fwd_reach, inv.bwd_reach, ?_⟩
      have hgbe : lookupQ st.g_bwd e = ((gb : ℚ) : QInf) := by
        unfold lookupQ
        rw [hgb]
      obtain ⟨π, hπ, hcost⟩ := meet_combine
        (inv.fwd_reach e g hge) (inv.bwd_reach e gb hgbe)
      exact Or.inr ⟨π, e, hπ, by rw [hcost]⟩
    · rw [if_neg hlt]
      exact inv

/-- A meeting update after a non-stale backward pop preserves the
invariant. -/
theorem bInv_meetB {G : EdgeGraph} {ac : Bool} {seeds targets : List Enode}
    {st : BState} {e : Enode} {g : ℚ}
    (inv : BInv G ac seeds targets st)
    (hge : lookupQ st.g_bwd e = ((g : ℚ) : QInf)) :
    BInv G ac seeds targets (bMeetB e g st) := by
  cases hgf : alookup st.g_fwd e with
  | none =>
    have hred : bMeetB e g st = st := by
      simp only [bMeetB, hgf]
    rw [hred]
    exact inv
  | some gf =>
    have hred : bMeetB e g st =
        if (((g + gf : ℚ)) : QInf) < st.best then
          { st with best := (((g + gf : ℚ)) : QInf), meeting := some e }
        else st := by
      simp only [bMeetB, hgf]
    rw [hred]
    by_cases hlt : (((g + gf : ℚ)) : QInf) < st.best
    · rw [if_pos hlt]
      refine ⟨inv.fwd_heap, inv.bwd_heap, inv.fwd_reach, inv.bwd_reach, ?_⟩
      have hgfe : lookupQ st.g_fwd e = ((gf : ℚ) : QInf) := by
        unfold lookupQ
        rw [hgf]
      obtain ⟨π, hπ, hcost⟩ := meet_combine
        (inv.fwd_reach e gf hgfe) (inv.bwd_reach e g hge)
      refine Or.inr ⟨π, e, hπ, ?_⟩
      rw [show gf + g = g + gf from by ring] at hcost
      rw [hcost]
    · rw [if_neg hlt]
      exact inv

/-- The forward relaxation fold preserves the invariant (given a valid
seed path of cost `g` to the expanded segment `e`). -/
theorem bRelaxF_fold {G : EdgeGraph} {ac : Bool} {seeds targets : List Enode}
    {hf : Enode → ℚ} {e : Enode} {g : ℚ}
    (hπe : ∃ π, pathOK G ac π = true ∧ (∃ h0, π.head? = some h0 ∧ h0 ∈ seeds) ∧
      π.getLast? = some e ∧ pathCost G π = g) :
    ∀ (l : List Enode) (st : BState), (∀ nb ∈ l, nb ∈ successors G e) →
    BInv G ac seeds targets st →
    BInv G ac seeds targets (l.foldl (fun st nb =>
      if closedSkip G ac nb then st
      else if ((g + turnCost G e nb + enodeTravelTime G nb : ℚ) : QInf) <
          lookupQ st.g_fwd nb then
        { st with g_fwd := (nb, g + turnCost G e nb + enodeTravelTime G nb) :: st.g_fwd,
                  prev_fwd := (nb, some e) :: st.prev_fwd,
                  open_fwd := (g + turnCost G e nb + enodeTravelTime G nb + hf nb,
                    g + turnCost G e nb + enodeTravelTime G nb, nb) :: st.open_fwd }
      else st) st) := by
  intro l
  induction l with
  | nil => intro st _ hinv; exact hinv
  | cons nb t ih =>
    intro st hsub hinv
    simp only [List.foldl_cons]
    have hnbsucc : nb ∈ successors G e := hsub nb (List.mem_cons_self _ _)
    by_cases hskip : closedSkip G ac nb
    · rw [if_pos hskip]
      exact ih st (fun x hx => hsub x (List.mem_cons.mpr (Or.inr hx))) hinv
    · rw [if_neg hskip]
      have hskipf : closedSkip G ac nb = false := by simpa using hskip
      by_cases hupd : ((g + turnCost G e nb + enodeTravelTime G nb : ℚ) : QInf) <
          lookupQ st.g_fwd nb
      · rw [if_pos hupd]
        refine ih _ (fun x hx => hsub x (List.mem_cons.mpr (Or.inr hx))) ?_
        refine ⟨?_, hinv.bwd_heap, ?_, hinv.bwd_reach, hinv.best_ok⟩
        · intro f g' x hx
          have hd2 : ∀ y, lookupQ ((nb, g + turnCost G e nb + enodeTravelTime G nb) ::
              st.g_fwd) y =
              if nb = y then ((g + turnCost G e nb + enodeTravelTime G nb : ℚ) : QInf)
              else lookupQ st.g_fwd y := fun y => lookupQ_cons nb _ st.g_fwd y
          rcases List.mem_cons.mp hx with h1 | h1
          · have hx2 : x = nb := congrArg (fun p => p.2.2) h1
            have hg2 : g' = g + turnCost G e nb + enodeTravelTime G nb :=
              congrArg (fun p => p.2.1) h1
            rw [hx2, hd2 nb, if_pos rfl, hg2]
          · rw [hd2 x]
            by_cases hxnb : nb = x
            · rw [if_pos hxnb]
              refine le_trans (le_of_lt hupd) ?_
              rw [hxnb]
              exact hinv.fwd_heap f g' x h1
            · rw [if_neg hxnb]
              exact hinv.fwd_heap f g' x h1
        · intro x gx hgx
          rw [lookupQ_cons] at hgx
          by_cases hxnb : nb = x
          · rw [if_pos hxnb] at hgx
            have hgc : g + turnCost G e nb + enodeTravelTime G nb = gx := by
              exact_mod_cast hgx
            obtain ⟨π, hπ1, hπ2, hπ3, hπ4⟩ := hπe
            have hπne : π ≠ [] := by
              intro hn
              rw [hn] at hπ3
              simp at hπ3
            refine ⟨π ++ [nb], ?_, ?_, ?_, ?_⟩
            · exact pathOK_append_single hπ1 hπ3
                ((hasEdge_iff_mem_successors G e nb).mpr hnbsucc) hskipf
            · obtain ⟨h0, hh0, hh0s⟩ := hπ2
              exact ⟨h0, by rw [head?_append_of_ne_nil _ hπne]; exact hh0, hh0s⟩
            · rw [← hxnb]
              exact getLast?_concat π nb
            · rw [pathCost_append_single nb hπ3, hπ4, ← hgc]
          · rw [if_neg hxnb] at hgx
            exact hinv.fwd_reach x gx hgx
      · rw [if_neg hupd]
        exact ih st (fun x hx => hsub x (List.mem_cons.mpr (Or.inr hx))) hinv

/-- The backward relaxation fold preserves the invariant (given a valid
path of cost `g` from the expanded segment `e` to the target set). -/
theorem bRelaxB_fold {G : EdgeGraph} {ac : Bool} {seeds targets : List Enode}
    {hb : Enode → ℚ} {e : Enode} {g : ℚ}
    (hσe : ∃ σ, pathOK G ac σ = true ∧ σ.head? = some e ∧
      (∃ tl, σ.getLast? = some tl ∧ tl ∈ targets) ∧ pathCost G σ = g) :
    ∀ (l : List Enode) (st : BState), (∀ nb ∈ l, nb ∈ predecessors G e) →
    BInv G ac seeds targets st →
    BInv G ac seeds targets (l.foldl (fun st nb =>
      if closedSkip G ac nb then st
      else if ((g + turnCost G nb e + enodeTravelTime G nb : ℚ) : QInf) <
          lookupQ st.g_bwd nb then
        { st with g_bwd := (nb, g + turnCost G nb e + enodeTravelTime G nb) :: st.g_bwd,
                  prev_bwd := (nb, some e) :: st.prev_bwd,
                  open_bwd := (g + turnCost G nb e + enodeTravelTime G nb + hb nb,
                    g + turnCost G nb e + enodeTravelTime G nb, nb) :: st.open_bwd }
      else st) st) := by
  intro l
  induction l with
  | nil => intro st _ hinv; exact hinv
  | cons nb t ih =>
    intro st hsub hinv
    simp only [List.foldl_cons]
    have hnbpred : nb ∈ predecessors G e := hsub nb (List.mem_cons_self _ _)
    by_cases hskip : closedSkip G ac nb
    · rw [if_pos hskip]
      exact ih st (fun x hx => hsub x (List.mem_cons.mpr (Or.inr hx))) hinv
    · rw [if_neg hskip]
      have hskipf : closedSkip G ac nb = false := by simpa using hskip
      by_cases hupd : ((g + turnCost G nb e + enodeTravelTime G nb : ℚ) : QInf) <
          lookupQ st.g_bwd nb
      · rw [if_pos hupd]
        refine ih _ (fun x hx => hsub x (List.mem_cons.mpr (Or.inr hx))) ?_
        refine ⟨hinv.fwd_heap, ?_, hinv.fwd_reach, ?_, hinv.best_ok⟩
        · intro f g' x hx
          have hd2 : ∀ y, lookupQ ((nb, g + turnCost G nb e + enodeTravelTime G nb) ::
              st.g_bwd) y =
              if nb = y then ((g + turnCost G nb e + enodeTravelTime G nb : ℚ) : QInf)
              else lookupQ st.g_bwd y := fun y => lookupQ_cons nb _ st.g_bwd y
          rcases List.mem_cons.mp hx with h1 | h1
          · have hx2 : x = nb := congrArg (fun p => p.2.2) h1
            have hg2 : g' = g + turnCost G nb e + enodeTravelTime G nb :=
              congrArg (fun p => p.2.1) h1
            rw [hx2, hd2 nb, if_pos rfl, hg2]
          · rw [hd2 x]
            by_cases hxnb : nb = x
            · rw [if_pos hxnb]
              refine le_trans (le_of_lt hupd) ?_
              rw [hxnb]
              exact hinv.bwd_heap f g' x h1
            · rw [if_neg hxnb]
              exact hinv.bwd_heap f g' x h1
        · intro x gx hgx
          rw [lookupQ_cons] at hgx
          by_cases hxnb : nb = x
          · rw [if_pos hxnb] at hgx
            have hgc : g + turnCost G nb e + enodeTravelTime G nb = gx := by
              exact_mod_cast hgx
            obtain ⟨σ, hσ1, hσ2, ⟨tl, hσ3, hσ4⟩, hσ5⟩ := hσe
            cases σ with
            | nil => simp at hσ2
            | cons e0 τ =>
              have he0 : e0 = e := by simpa using hσ2
              subst he0
              refine ⟨nb :: e0 :: τ, ?_, ?_, ?_, ?_⟩
              · simp only [pathOK, Bool.and_eq_true, Bool.not_eq_true']
                refine ⟨⟨hskipf, ?_⟩, ?_⟩
                · exact (hasEdge_iff_mem_predecessors G e0 nb).mpr hnbpred
                · simpa [pathOK] using hσ1
              · rw [← hxnb]
                rfl
              · refine ⟨tl, ?_, hσ4⟩
                rw [List.getLast?_cons_cons]
                exact hσ3
              · simp only [pathCost, restCost] at hσ5 ⊢
                rw [← hgc]
                linarith [hσ5]
          · rw [if_neg hxnb] at hgx
            exact hinv.bwd_reach x gx hgx
      · rw [if_neg hupd]
        exact ih st (fun x hx => hsub x (List.mem_cons.mpr (Or.inr hx))) hinv

/-- `bRelaxF` and `bRelaxB` are the (zeta-reduced) relaxation folds. -/
theorem bRelaxF_eq (G : EdgeGraph) (ac : Bool) (hf : Enode → ℚ) (e : Enode) (g : ℚ)
    (st : BState) :
    bRelaxF G ac hf e g st = (successors G e).foldl (fun st nb =>
      if closedSkip G ac nb then st
      else if ((g + turnCost G e nb + enodeTravelTime G nb : ℚ) : QInf) <
          lookupQ st.g_fwd nb then
        { st with g_fwd := (nb, g + turnCost G e nb + enodeTravelTime G nb) :: st.g_fwd,
                  prev_fwd := (nb, some e) :: st.prev_fwd,
                  open_fwd := (g + turnCost G e nb + enodeTravelTime G nb + hf nb,
                    g + turnCost G e nb + enodeTravelTime G nb, nb) :: st.open_fwd }
      else st) st := rfl

theorem bRelaxB_eq (G : EdgeGraph) (ac : Bool) (hb : Enode → ℚ) (e : Enode) (g : ℚ)
    (st : BState) :
    bRelaxB G ac hb e g st = (predecessors G e).foldl (fun st nb =>
      if closedSkip G ac nb then st
      else if ((g + turnCost G nb e + enodeTravelTime G nb : ℚ) : QInf) <
          lookupQ st.g_bwd nb then
        { st with g_bwd := (nb, g + turnCost G nb e + enodeTravelTime G nb) :: st.g_bwd,
                  prev_bwd := (nb, some e) :: st.prev_bwd,
                  open_bwd := (g + turnCost G nb e + enodeTravelTime G nb + hb nb,
                    g + turnCost G nb e + enodeTravelTime G nb, nb) :: st.open_bwd }
      else st) st := rfl

/-- The bidirectional loop preserves the invariant. -/
theorem bLoop_spec {G : EdgeGraph} {ac : Bool} {seeds targets : List Enode}
    {mv : Option ℕ} {hf hb : Enode → ℚ} :
    ∀ (fuel : ℕ) (st stf : BState),
      BInv G ac seeds targets st →
      bLoop G ac mv hf hb fuel st = some stf →
      BInv G ac seeds targets stf := by
  intro fuel
  induction fuel with
  | zero =>
    intro st stf _ heq
    simp [bLoop] at heq
  | succ fuel ih =>
    intro st stf inv heq
    rw [bLoop] at heq
    by_cases hempty : st.open_fwd = [] ∨ st.open_bwd = []
    · rw [if_pos hempty] at heq
      have : stf = st := by simpa using heq.symm
      rw [this]
      exact inv
    · rw [if_neg hempty] at heq
      by_cases hcap : bCapReached mv st.expanded = true
      · rw [if_pos hcap] at heq
        have : stf = st := by simpa using heq.symm
        rw [this]
        exact inv
      · rw [if_neg hcap] at heq
        split at heq
        · next hp =>
          have : stf = st := by simpa using heq.symm
          rw [this]
          exact inv
        · next f g e rest hp =>
          obtain ⟨hmem, hrest⟩ := popMin3_spec hp
          obtain ⟨st1, hst1⟩ : ∃ st1 : BState, st1 =
              { st with open_fwd := rest, expanded := st.expanded + 1 } := ⟨_, rfl⟩
          rw [← hst1] at heq
          have hinv1 : BInv G ac seeds targets st1 := by
            rw [hst1]
            refine ⟨?_, inv.bwd_heap, inv.fwd_reach, inv.bwd_reach, inv.best_ok⟩
            intro f' g' x hx
            exact inv.fwd_heap f' g' x (mem_of_mem_erase3 (hrest ▸ hx))
          by_cases hst : lookupQ st1.g_fwd e < ((g : ℚ) : QInf)
          · rw [if_pos hst] at heq
            exact ih st1 stf hinv1 heq
          · rw [if_neg hst] at heq
            have hge : lookupQ st1.g_fwd e = ((g : ℚ) : QInf) := by
              refine le_antisymm ?_ (le_of_not_lt hst)
              rw [hst1]
              exact inv.fwd_heap f g e hmem
            have hinv2 : BInv G ac seeds targets
                (bRelaxF G ac hf e g (bMeetF e g st1)) := by
              rw [bRelaxF_eq]
              refine bRelaxF_fold ?_ (successors G e) _ (fun nb hx => hx)
                (bInv_meetF hinv1 hge)
              exact hinv1.fwd_reach e g hge
            simp only [] at heq
            split at heq
            · next hp2 =>
              exact ih _ stf hinv2 heq
            · next f2 g2 e2 rest2 hp2 =>
              obtain ⟨hmem2, hrest2⟩ := popMin3_spec hp2
              have hinv3 : BInv G ac seeds targets
                  { bRelaxF G ac hf e g (bMeetF e g st1) with
                    open_bwd := rest2,
                    expanded := (bRelaxF G ac hf e g (bMeetF e g st1)).expanded + 1 } := by
                refine ⟨hinv2.fwd_heap, ?_, hinv2.fwd_reach, hinv2.bwd_reach,
                  hinv2.best_ok⟩
                intro f' g' x hx
                exact hinv2.bwd_heap f' g' x (mem_of_mem_erase3 (hrest2 ▸ hx))
              by_cases hst2 : lookupQ (bRelaxF G ac hf e g (bMeetF e g st1)).g_bwd e2 <
                  ((g2 : ℚ) : QInf)
              · rw [if_pos hst2] at heq
                exact ih _ stf hinv3 heq
              · rw [if_neg hst2] at heq
                have hge2 : lookupQ (bRelaxF G ac hf e g (bMeetF e g st1)).g_bwd e2 =
                    ((g2 : ℚ) : QInf) := by
                  refine le_antisymm ?_ (le_of_not_lt hst2)
                  exact hinv2.bwd_heap f2 g2 e2 hmem2
                have hinv4 : BInv G ac seeds targets
                    (bRelaxB G ac hb e2 g2 (bMeetB e2 g2
                      { bRelaxF G ac hf e g (bMeetF e g st1) with
                        open_bwd := rest2,
                        expanded := (bRelaxF G ac hf e g (bMeetF e g st1)).expanded + 1 })) := by
                  rw [bRelaxB_eq]
                  refine bRelaxB_fold ?_ (predecessors G e2) _ (fun nb hx => hx)
                    (bInv_meetB hinv3 hge2)
                  exact hinv3.bwd_reach e2 g2 hge2
                exact ih _ stf hinv4 heq

/-- A graph is non-negative as soon as every stored node attribute gives a
non-negative `travel_time * traffic_mult + penalty` and every stored edge
attribute is non-negative (absent entries contribute `0`). -/
theorem nonnegGraph_of_entries {G : EdgeGraph}
    (h1 : ∀ p ∈ G.nodes,
      0 ≤ p.2.travel_time.getD 0 * p.2.traffic_mult.getD 1 + p.2.penalty.getD 0)
    (h2 : ∀ q ∈ G.edges, 0 ≤ q.2) : NonnegGraph G := by
  constructor
  · intro e
    simp only [enodeTravelTime, nodeData]
    cases ha : alookup G.nodes e with
    | none => with_unfolding_all decide
    | some d => simpa using h1 (e, d) (alookup_mem ha)
  · intro a b
    unfold turnCost
    cases ha : alookup G.edges (a, b) with
    | none => with_unfolding_all decide
    | some c => simpa using h2 ((a, b), c) (alookup_mem ha)

/-- The finalized result of a completed bidirectional loop run has either
infinite cost or the cost of a valid seed-to-target path plus the doubly
counted travel time of the meeting segment. -/
theorem bFinalize_spec {G : EdgeGraph} {ac : Bool} {seeds targets : List Enode}
    {mv : Option ℕ} {hf hb : Enode → ℚ} {fuel : ℕ} {st : BState}
    (hloop : bLoop G ac mv hf hb fuel
      (bInitBwd G ac hb targets (bInitFwd G ac hf seeds
        ⟨[], [], [], [], [], [], ⊤, none, 0⟩)) = some st) :
    (bFinalize st).cost = ⊤ ∨ ∃ π m, ValidTargetPath G ac seeds targets π ∧
      (bFinalize st).cost = ((pathCost G π + enodeTravelTime G m : ℚ) : QInf) := by
  have hinv := bLoop_spec fuel _ st (bInv_init ac hf hb seeds targets) hloop
  cases hm : st.meeting with
  | none =>
    left
    unfold bFinalize
    rw [hm]
    rfl
  | some m0 =>
    have hcost : (bFinalize st).cost = st.best := by
      unfold bFinalize
      rw [hm]
    rcases hinv.best_ok with hb3 | ⟨π, m, hπ, hbest⟩
    · left
      rw [hcost, hb3]
    · right
      exact ⟨π, m, hπ, by rw [hcost, hbest]⟩

/-- Every result of `bidirectional_astar_route` has either infinite cost
or the cost of a valid seed-to-target path plus the travel time of the
meeting segment (counted once in each direction's g-score). -/
theorem bidirectional_route_spec {hypot : ℚ → ℚ → ℚ} {fuel : ℕ} {G : EdgeGraph}
    {s t : ℕ} {vmax : ℚ} {ac : Bool} {oc : Option Constraints} {mv : Option ℕ}
    {res : SearchResult}
    (hroute : bidirectional_astar_route hypot fuel G s t vmax ac oc mv = some res) :
    res.cost = ⊤ ∨ ∃ π m, ValidTargetPath G ac (startSet G s oc) (targetSet G t oc) π ∧
      res.cost = ((pathCost G π + enodeTravelTime G m : ℚ) : QInf) := by
  by_cases hempty : enodesFromStart G s = [] ∨ targetNodes G t = []
  · left
    have : bidirectional_astar_route hypot fuel G s t vmax ac oc mv = some (noRoute 0) := by
      simp only [bidirectional_astar_route]
      rw [if_pos hempty]
    rw [this] at hroute
    have hres : res = noRoute 0 := by simpa using hroute.symm
    rw [hres]
    rfl
  · simp only [bidirectional_astar_route] at hroute
    rw [if_neg hempty] at hroute
    split at hroute
    · simp at hroute
    · next st hb2 =>
      have hres : res = bFinalize st := by simpa using hroute.symm
      rw [hres]
      exact bFinalize_spec hb2

/-! ## Claim C6 -/

/-- C6: for the same graph, start and target, with non-negative travel
times and turn costs, the cost returned by `bidirectional_astar_route`
is never smaller than the cost returned by an uncapped `dijkstra_route`
(hence never below the true optimum). -/
theorem claim_C6 {hypot : ℚ → ℚ → ℚ} {fuel1 fuel2 : ℕ} {G : EdgeGraph} {s t : ℕ}
    {vmax : ℚ} {oc : Option Constraints} {ac : Bool} {mv : Option ℕ}
    {res_d res_b : SearchResult}
    (hG : NonnegGraph G)
    (hd : dijkstra_route fuel1 G s t oc ac none = some res_d)
    (hb : bidirectional_astar_route hypot fuel2 G s t vmax ac oc mv = some res_b) :
    res_d.cost ≤ res_b.cost := by
  rcases bidirectional_route_spec hb with htop | ⟨π, m, hπ, hcost⟩
  · rw [htop]
    exact le_top
  · rw [hcost]
    refine le_trans (dijkstra_route_le_paths hG hd π hπ) ?_
    rw [WithTop.coe_le_coe]
    have := hG.1 m
    linarith

/-- Fixture for the C6 witness: a single open segment `1 → 2`. -/
def c6Seg : SegData :=
  { orig_u := some 1, orig_v := some 2, travel_time := some 1 }

def c6Graph : EdgeGraph := ⟨[((1, 2, 0), c6Seg)], []⟩

theorem c6_nonneg : NonnegGraph c6Graph := by
  refine nonnegGraph_of_entries ?_ ?_ <;> intro p hp
  · have hp2 : p = ((1, 2, 0), c6Seg) := by simpa [c6Graph] using hp
    rw [hp2]
    with_unfolding_all decide
  · simp [c6Graph] at hp

def c6ResD : SearchResult :=
  (dijkstra_route 5 c6Graph 1 2 none true none).getD (noRoute 0)

def c6ResB : SearchResult :=
  (bidirectional_astar_route (fun x y => 0) 5 c6Graph 1 2 30 true none none).getD (noRoute 0)

/-- Concrete instance of C6: on the one-segment graph the uncapped
uniform-cost search returns cost `1` and the bidirectional search cost
`2` (the meeting segment's travel time is counted in both directions),
so the bidirectional cost is indeed not smaller. -/
theorem claim_C6_witness :
    NonnegGraph c6Graph ∧
    dijkstra_route 5 c6Graph 1 2 none true none = some c6ResD ∧
    bidirectional_astar_route (fun x y => 0) 5 c6Graph 1 2 30 true none none = some c6ResB ∧
    c6ResD.cost ≤ c6ResB.cost := by
  have h1 : dijkstra_route 5 c6Graph 1 2 none true none = some c6ResD := by
    with_unfolding_all rfl
  have h2 : bidirectional_astar_route (fun x y => 0) 5 c6Graph 1 2 30 true none none =
      some c6ResB := by
    with_unfolding_all rfl
  exact ⟨c6_nonneg, h1, h2, claim_C6 c6_nonneg h1 h2⟩

/-! ## Witness fixture for claim C4 -/

/-- Fixture for the C4 witness: a single open segment `1 → 2`. -/
def c4Seg : SegData :=
  { orig_u := some 1, orig_v := some 2, travel_time := some 2 }

def c4Graph : EdgeGraph := ⟨[((1, 2, 0), c4Seg)], []⟩

theorem c4_nonneg : NonnegGraph c4Graph := by
  refine nonnegGraph_of_entries ?_ ?_ <;> intro p hp
  · have hp2 : p = ((1, 2, 0), c4Seg) := by simpa [c4Graph] using hp
    rw [hp2]
    with_unfolding_all decide
  · simp [c4Graph] at hp

def c4Res : SearchResult :=
  (dijkstra_route 5 c4Graph 1 2 none true none).getD (noRoute 0)

/-- Concrete instance of C4: on the one-segment graph the returned route
has cost at most the cost of the (unique) valid seed-to-target path. -/
theorem claim_C4_witness :
    NonnegGraph c4Graph ∧
    dijkstra_route 5 c4Graph 1 2 none true none = some c4Res ∧
    c4Res.route_enodes = some [(1, 2, 0)] ∧
    ValidTargetPath c4Graph true (startSet c4Graph 1 none) (targetSet c4Graph 2 none)
      [(1, 2, 0)] ∧
    c4Res.cost ≤ ((pathCost c4Graph [(1, 2, 0)] : ℚ) : QInf) := by
  have h1 : dijkstra_route 5 c4Graph 1 2 none true none = some c4Res := by
    with_unfolding_all rfl
  have h2 : c4Res.route_enodes = some [(1, 2, 0)] := by
    with_unfolding_all rfl
  have h3 : ValidTargetPath c4Graph true (startSet c4Graph 1 none)
      (targetSet c4Graph 2 none) [(1, 2, 0)] := by
    with_unfolding_all decide
  exact ⟨c4_nonneg, h1, h2, h3, claim_C4 c4_nonneg h1 h2 h3⟩

/-! ## Claim C7 -/

/-- C7 amended: when the expansion cap triggers, `dijkstra_route`'s and
`astar_route`'s loops stop immediately and report "no target found" — so
the route result is the no-route dict carrying the partial expansion
count — whereas `bidirectional_astar_route`'s loop stops and returns its
current state unchanged, which finalizes to the best meeting route found
so far (an actual route, not the no-route dict, whenever a meeting was
already recorded; see the counterexample).  The caps also differ in kind:
the first two compare `expanded ≥ max_visits` whenever `max_visits` is
not `None`, the bidirectional one ignores a cap of `0` (Python
truthiness). -/
theorem claim_C7_amended :
    (∀ (G : EdgeGraph) (tg : List Enode) (ac : Bool) (mv : Option ℕ) (fuel : ℕ)
       (st : DState) (c : ℚ) (e : Enode) (rest : List (ℚ × Enode)),
       popMin st.pq = some ((c, e), rest) → capReached mv st.expanded = true →
       dLoop G tg ac mv (fuel + 1) st = some (none, { st with pq := rest })) ∧
    (∀ (G : EdgeGraph) (tg : List Enode) (ac : Bool) (mv : Option ℕ) (h : Enode → ℚ)
       (fuel : ℕ) (st : AState) (f g : ℚ) (e : Enode) (rest : List (ℚ × ℚ × Enode)),
       popMin3 st.open_heap = some ((f, g, e), rest) → capReached mv st.expanded = true →
       aLoop G tg ac mv h (fuel + 1) st = some (none, { st with open_heap := rest })) ∧
    (∀ (G : EdgeGraph) (ac : Bool) (mv : Option ℕ) (hf hb : Enode → ℚ) (fuel : ℕ)
       (st : BState), ¬(st.open_fwd = [] ∨ st.open_bwd = []) →
       bCapReached mv st.expanded = true →
       bLoop G ac mv hf hb (fuel + 1) st = some st) := by
  refine ⟨?_, ?_, ?_⟩
  · intro G tg ac mv fuel st c e rest hpop hcap
    rw [dLoop, hpop]
    exact if_pos hcap
  · intro G tg ac mv h fuel st f g e rest hpop hcap
    rw [aLoop, hpop]
    exact if_pos hcap
  · intro G ac mv hf hb fuel st hne hcap
    rw [bLoop, if_neg hne, if_pos hcap]

/-- Concrete instance of the amended C7: with cap `3` already exceeded
(`expanded = 5`), one loop step of each of the three searches stops; the
first two drop the popped entry and report no target, the bidirectional
one returns its state as is. -/
theorem claim_C7_witness :
    dLoop ⟨[], []⟩ [] true (some 3) 3 ⟨[(1, (1, 2, 0))], [], [], [], 5⟩ =
      some (none, ⟨[], [], [], [], 5⟩) ∧
    aLoop ⟨[], []⟩ [] true (some 3) (fun _ => 0) 3 ⟨[(1, 1, (1, 2, 0))], [], [], [], 5⟩ =
      some (none, ⟨[], [], [], [], 5⟩) ∧
    bLoop ⟨[], []⟩ true (some 3) (fun _ => 0) (fun _ => 0) 3
      ⟨[(1, 1, (1, 2, 0))], [(1, 1, (3, 4, 0))], [], [], [], [], ⊤, none, 5⟩ =
      some ⟨[(1, 1, (1, 2, 0))], [(1, 1, (3, 4, 0))], [], [], [], [], ⊤, none, 5⟩ :=
  ⟨claim_C7_amended.1 ⟨[], []⟩ [] true (some 3) 2 ⟨[(1, (1, 2, 0))], [], [], [], 5⟩
     1 (1, 2, 0) [] (by with_unfolding_all rfl) (by with_unfolding_all decide),
   claim_C7_amended.2.1 ⟨[], []⟩ [] true (some 3) (fun _ => 0) 2
     ⟨[(1, 1, (1, 2, 0))], [], [], [], 5⟩ 1 1 (1, 2, 0) []
     (by with_unfolding_all rfl) (by with_unfolding_all decide),
   claim_C7_amended.2.2 ⟨[], []⟩ true (some 3) (fun _ => 0) (fun _ => 0) 2
     ⟨[(1, 1, (1, 2, 0))], [(1, 1, (3, 4, 0))], [], [], [], [], ⊤, none, 5⟩
     (by with_unfolding_all decide) (by with_unfolding_all decide)⟩

/-- Fixture for the C7 counterexample: segments `A = (1,2,0)` and
`B = (2,3,0)` linked by a zero-cost turn. -/
def c7Graph : EdgeGraph :=
  ⟨[((1, 2, 0), { orig_u := some 1, orig_v := some 2, travel_time := some 1 }),
    ((2, 3, 0), { orig_u := some 2, orig_v := some 3, travel_time := some 1 })],
   [(((1, 2, 0), (2, 3, 0)), 0)]⟩

def c7Res : SearchResult :=
  (bidirectional_astar_route (fun x y => 0) 5 c7Graph 1 3 30 true none (some 2)).getD
    (noRoute 0)

/-- C7 counterexample: on the two-segment chain with cap `2`, the
bidirectional search reaches the cap (both queues still non-empty) and
returns the best meeting route recorded so far — an actual route
`[A, B]` with finite cost `3` — not the no-route dict the claim
prescribes, while carrying the partial expansion count `2`. -/
theorem claim_C7_counterexample :
    bidirectional_astar_route (fun x y => 0) 5 c7Graph 1 3 30 true none (some 2) =
      some c7Res ∧
    c7Res.route_enodes = some [(1, 2, 0), (2, 3, 0)] ∧
    c7Res.cost = ((3 : ℚ) : QInf) ∧
    c7Res.expanded = 2 := by
  refine ⟨by with_unfolding_all rfl, by with_unfolding_all rfl, ?_, by with_unfolding_all rfl⟩
  with_unfolding_all decide

/-! ## Claim C5: fixtures -/

/-- C5 counterexample fixture: two parallel segments `X = (0,1,0)` (fast,
but with an expensive `10` turn onto `M`) and `Y = (0,1,1)` (slower, with
a free turn), then `M = (1,2,0)` and the target segment `T = (2,3,0)`.
`X` and `Y` end at the point `(0, 330)`, all other endpoints at the
origin, so the straight-line heuristic (over `vmax = 30`) is `11` on `X`
and `Y` and `0` elsewhere — admissible, since the cheapest remaining cost
from `Y` is exactly `11`. -/
def c5SegX : SegData :=
  { orig_u := some 0, orig_v := some 1, travel_time := some 1, v_x := 0, v_y := 330 }

def c5SegY : SegData :=
  { orig_u := some 0, orig_v := some 1, travel_time := some 2, v_x := 0, v_y := 330 }

def c5SegM : SegData := { orig_u := some 1, orig_v := some 2, travel_time := some 1 }

def c5SegT : SegData := { orig_u := some 2, orig_v := some 3, travel_time := some 10 }

def c5Graph : EdgeGraph :=
  ⟨[((0, 1, 0), c5SegX), ((0, 1, 1), c5SegY), ((1, 2, 0), c5SegM), ((2, 3, 0), c5SegT)],
   [(((0, 1, 0), (1, 2, 0)), 10), (((0, 1, 1), (1, 2, 0)), 0),
    (((1, 2, 0), (2, 3, 0)), 0)]⟩

theorem c5_nonneg : NonnegGraph c5Graph := by
  refine nonnegGraph_of_entries ?_ ?_ <;> intro p hp <;>
    simp only [c5Graph, List.mem_cons, List.not_mem_nil, or_false] at hp
  · rcases hp with hp | hp | hp | hp <;> rw [hp] <;> with_unfolding_all decide
  · rcases hp with hp | hp | hp <;> rw [hp] <;> with_unfolding_all decide

theorem c5_targetSet : targetSet c5Graph 3 none = [(2, 3, 0)] := by
  with_unfolding_all rfl

/-- The heuristic vanishes on segments absent from the fixture graph. -/
theorem c5_h_away {e : Enode} (he : alookup c5Graph.nodes e = none) :
    astarHeuristic axisHypot c5Graph 3 none 30 e = 0 := by
  unfold astarHeuristic vHeuristic nodeData
  rw [he]
  with_unfolding_all decide

/-- The transitions of the fixture graph. -/
theorem c5_edge_cases {a r : Enode} (h : hasEdge c5Graph a r = true) :
    (a = (0, 1, 0) ∧ r = (1, 2, 0)) ∨ (a = (0, 1, 1) ∧ r = (1, 2, 0)) ∨
    (a = (1, 2, 0) ∧ r = (2, 3, 0)) := by
  unfold hasEdge at h
  rw [alookup_isSome] at h
  obtain ⟨p, hp, hk⟩ := h
  simp only [c5Graph, List.mem_cons, List.not_mem_nil, or_false] at hp
  rcases hp with hp | hp | hp <;> rw [hp] at hk <;> simp at hk
  · exact Or.inl ⟨hk.1.symm, hk.2.symm⟩
  · exact Or.inr (Or.inl ⟨hk.1.symm, hk.2.symm⟩)
  · exact Or.inr (Or.inr ⟨hk.1.symm, hk.2.symm⟩)

/-- The straight-line heuristic of the fixture never overestimates the
remaining cost to the target set. -/
theorem c5_adm : Admissible c5Graph true (targetSet c5Graph 3 none)
    (astarHeuristic axisHypot c5Graph 3 none 30) := by
  intro e rest tl hok hlast htl
  have htl2 : tl = (2, 3, 0) := by
    rw [c5_targetSet] at htl
    simpa using htl
  subst htl2
  by_cases he : alookup c5Graph.nodes e = none
  · rw [c5_h_away he]
    exact restCost_nonneg c5_nonneg e rest
  · have he4 : e = (0, 1, 0) ∨ e = (0, 1, 1) ∨ e = (1, 2, 0) ∨ e = (2, 3, 0) := by
      by_contra hno
      push_neg at hno
      obtain ⟨h1, h2, h3, h4⟩ := hno
      apply he
      unfold alookup
      rw [Option.map_eq_none']
      rw [List.find?_eq_none]
      intro p hp
      simp only [c5Graph, List.mem_cons, List.not_mem_nil, or_false] at hp
      rcases hp with hp | hp | hp | hp <;> rw [hp] <;>
        simp only [decide_eq_true_eq]
      · exact fun hq => h1 hq.symm
      · exact fun hq => h2 hq.symm
      · exact fun hq => h3 hq.symm
      · exact fun hq => h4 hq.symm
    rcases he4 with he4 | he4 | he4 | he4
    · subst he4
      cases rest with
      | nil => exact absurd hlast (by with_unfolding_all decide)
      | cons r1 rest1 =>
        simp only [pathOK, Bool.and_eq_true] at hok
        obtain ⟨⟨hskip, hedge⟩, hok1⟩ := hok
        have hr1 : r1 = (1, 2, 0) := by
          rcases c5_edge_cases hedge with ⟨ha, hr⟩ | ⟨ha, hr⟩ | ⟨ha, hr⟩
          · exact hr
          · exact absurd ha (by decide)
          · exact absurd ha (by decide)
        subst hr1
        cases rest1 with
        | nil => exact absurd hlast (by with_unfolding_all decide)
        | cons r2 rest2 =>
          simp only [pathOK, Bool.and_eq_true] at hok1
          obtain ⟨⟨hskip2, hedge2⟩, hok2⟩ := hok1
          have hr2 : r2 = (2, 3, 0) := by
            rcases c5_edge_cases hedge2 with ⟨ha, hr⟩ | ⟨ha, hr⟩ | ⟨ha, hr⟩
            · exact absurd ha (by decide)
            · exact absurd ha (by decide)
            · exact hr
          subst hr2
          cases rest2 with
          | nil => with_unfolding_all decide
          | cons r3 rest3 =>
            exfalso
            simp only [pathOK, Bool.and_eq_true] at hok2
            obtain ⟨⟨hskip3, hedge3⟩, _⟩ := hok2
            rcases c5_edge_cases hedge3 with ⟨ha, _⟩ | ⟨ha, _⟩ | ⟨ha, _⟩ <;>
              exact absurd ha (by decide)
    · subst he4
      cases rest with
      | nil => exact absurd hlast (by with_unfolding_all decide)
      | cons r1 rest1 =>
        simp only [pathOK, Bool.and_eq_true] at hok
        obtain ⟨⟨hskip, hedge⟩, hok1⟩ := hok
        have hr1 : r1 = (1, 2, 0) := by
          rcases c5_edge_cases hedge with ⟨ha, hr⟩ | ⟨ha, hr⟩ | ⟨ha, hr⟩
          · exact absurd ha (by decide)
          · exact hr
          · exact absurd ha (by decide)
        subst hr1
        cases rest1 with
        | nil => exact absurd hlast (by with_unfolding_all decide)
        | cons r2 rest2 =>
          simp only [pathOK, Bool.and_eq_true] at hok1
          obtain ⟨⟨hskip2, hedge2⟩, hok2⟩ := hok1
          have hr2 : r2 = (2, 3, 0) := by
            rcases c5_edge_cases hedge2 with ⟨ha, hr⟩ | ⟨ha, hr⟩ | ⟨ha, hr⟩
            · exact absurd ha (by decide)
            · exact absurd ha (by decide)
            · exact hr
          subst hr2
          cases rest2 with
          | nil => with_unfolding_all decide
          | cons r3 rest3 =>
            exfalso
            simp only [pathOK, Bool.and_eq_true] at hok2
            obtain ⟨⟨hskip3, hedge3⟩, _⟩ := hok2
            rcases c5_edge_cases hedge3 with ⟨ha, _⟩ | ⟨ha, _⟩ | ⟨ha, _⟩ <;>
              exact absurd ha (by decide)
    · subst he4
      have h0 : astarHeuristic axisHypot c5Graph 3 none 30 (1, 2, 0) = 0 := by
        with_unfolding_all decide
      rw [h0]
      exact restCost_nonneg c5_nonneg _ rest
    · subst he4
      have h0 : astarHeuristic axisHypot c5Graph 3 none 30 (2, 3, 0) = 0 := by
        with_unfolding_all decide
      rw [h0]
      exact restCost_nonneg c5_nonneg _ rest

def c5ResD : SearchResult :=
  (dijkstra_route 9 c5Graph 0 3 none true none).getD (noRoute 0)

def c5ResA : SearchResult :=
  (astar_route axisHypot 9 c5Graph 0 3 none 30 true none).getD (noRoute 0)

/-- C5 counterexample: on the fixture graph — costs non-negative,
straight-line heuristic admissible — uniform-cost search returns the
optimal cost `13` (via `Y`), but the A* implementation returns `22`: it
expands `M` with the suboptimal g-score `12` reached through `X` first
(the heuristic steers it there) and, never reopening visited segments,
ignores the later improvement to `3` through `Y`.  The two returned costs
differ, refuting the claimed equality. -/
theorem claim_C5_counterexample :
    NonnegGraph c5Graph ∧
    Admissible c5Graph true (targetSet c5Graph 3 none)
      (astarHeuristic axisHypot c5Graph 3 none 30) ∧
    dijkstra_route 9 c5Graph 0 3 none true none = some c5ResD ∧
    astar_route axisHypot 9 c5Graph 0 3 none 30 true none = some c5ResA ∧
    c5ResD.cost = ((13 : ℚ) : QInf) ∧
    c5ResA.cost = ((22 : ℚ) : QInf) ∧
    c5ResD.cost ≠ c5ResA.cost := by
  refine ⟨c5_nonneg, c5_adm, by with_unfolding_all rfl, by with_unfolding_all rfl,
    by with_unfolding_all decide, by with_unfolding_all decide,
    by with_unfolding_all decide⟩

/-! ## Claim C5 amended: witness fixture -/

/-- Fixture for the amended-C5 witness: a single open segment with all
coordinates at the origin, searched with the zero `hypot`, so the
heuristic is identically zero and trivially admissible. -/
def c5wSeg : SegData :=
  { orig_u := some 1, orig_v := some 2, travel_time := some 1 }

def c5wGraph : EdgeGraph := ⟨[((1, 2, 0), c5wSeg)], []⟩

theorem c5w_nonneg : NonnegGraph c5wGraph := by
  refine nonnegGraph_of_entries ?_ ?_ <;> intro p hp
  · have hp2 : p = ((1, 2, 0), c5wSeg) := by simpa [c5wGraph] using hp
    rw [hp2]
    with_unfolding_all decide
  · simp [c5wGraph] at hp

theorem c5w_adm : Admissible c5wGraph true (targetSet c5wGraph 2 none)
    (astarHeuristic (fun x y => 0) c5wGraph 2 none 30) := by
  intro e rest tl hok hlast htl
  have h0 : astarHeuristic (fun x y => (0 : ℚ)) c5wGraph 2 none 30 e = 0 := by
    unfold astarHeuristic vHeuristic
    norm_num
  rw [h0]
  exact restCost_nonneg c5w_nonneg e rest

def c5wResD : SearchResult :=
  (dijkstra_route 5 c5wGraph 1 2 none true none).getD (noRoute 0)

def c5wResA : SearchResult :=
  (astar_route (fun x y => 0) 5 c5wGraph 1 2 none 30 true none).getD (noRoute 0)

/-- Concrete instance of the amended C5: with the identically-zero
heuristic on the one-segment graph, the A* cost is not smaller than the
uniform-cost one. -/
theorem claim_C5_amended_witness :
    NonnegGraph c5wGraph ∧
    Admissible c5wGraph true (targetSet c5wGraph 2 none)
      (astarHeuristic (fun x y => 0) c5wGraph 2 none 30) ∧
    dijkstra_route 5 c5wGraph 1 2 none true none = some c5wResD ∧
    astar_route (fun x y => 0) 5 c5wGraph 1 2 none 30 true none = some c5wResA ∧
    c5wResD.cost ≤ c5wResA.cost := by
  have h1 : dijkstra_route 5 c5wGraph 1 2 none true none = some c5wResD := by
    with_unfolding_all rfl
  have h2 : astar_route (fun x y => 0) 5 c5wGraph 1 2 none 30 true none = some c5wResA := by
    with_unfolding_all rfl
  exact ⟨c5w_nonneg, c5w_adm, h1, h2,
    claim_C5_amended (fun x y => 0) c5w_nonneg c5w_adm h1 h2⟩

/-! ## Closed-segment freedom of the three searches

When `allow_closed` is false every enode recorded by a search state —
heap entries, `prev` keys and parents, found targets, meeting points —
passes the hard closed filter, so reconstructed routes never contain a
closed segment. -/

/-- All enodes a prev-map records pass the hard closed filter. -/
def PrevOK (G : EdgeGraph) (ac : Bool) (prev : List (Enode × Option Enode)) : Prop :=
  ∀ x p, (x, p) ∈ prev →
    closedSkip G ac x = false ∧ ∀ q, p = some q → closedSkip G ac q = false

/-- A path reconstructed from a filter-respecting prev-map rooted at a
filter-passing enode only contains filter-passing enodes. -/
theorem buildPath_all {G : EdgeGraph} {ac : Bool} {prev : List (Enode × Option Enode)}
    (hprev : PrevOK G ac prev) :
    ∀ (fuel : ℕ) (e : Enode), closedSkip G ac e = false →
      ∀ x ∈ buildPath prev fuel e, closedSkip G ac x = false := by
  intro fuel
  induction fuel with
  | zero =>
    intro e he x hx
    simp only [buildPath, List.mem_singleton] at hx
    rw [hx]
    exact he
  | succ fuel ih =>
    intro e he x hx
    unfold buildPath at hx
    cases hp : alookup prev e with
    | none =>
      rw [hp] at hx
      simp only [List.mem_singleton] at hx
      rw [hx]
      exact he
    | some po =>
      cases po with
      | none =>
        rw [hp] at hx
        simp only [List.mem_singleton] at hx
        rw [hx]
        exact he
      | some q =>
        rw [hp] at hx
        simp only [List.mem_cons] at hx
        rcases hx with hx | hx
        · rw [hx]
          exact he
        · exact ih q ((hprev e (some q) (alookup_mem hp)).2 q rfl) x hx

/-- Closed-freedom invariant of the Dijkstra state. -/
structure DClosed (G : EdgeGraph) (ac : Bool) (st : DState) : Prop where
  pq_ok : ∀ c x, (c, x) ∈ st.pq → closedSkip G ac x = false
  prev_ok : PrevOK G ac st.prev

theorem dInit_closed (G : EdgeGraph) (ac : Bool) (seeds : List Enode) :
    DClosed G ac (dInit G ac seeds) := by
  rw [dInit_eq]
  constructor
  · intro c x hx
    simp only [List.mem_map, List.mem_reverse, List.mem_filter, Bool.not_eq_true',
      Prod.mk.injEq] at hx
    obtain ⟨s, ⟨hs1, hs2⟩, hc, hxe⟩ := hx
    rw [← hxe]
    exact hs2
  · intro x p hx
    simp only [List.mem_map, List.mem_reverse, List.mem_filter, Bool.not_eq_true',
      Prod.mk.injEq] at hx
    obtain ⟨s, ⟨hs1, hs2⟩, hxe, hpe⟩ := hx
    refine ⟨hxe ▸ hs2, ?_⟩
    intro q hq
    rw [← hpe] at hq
    simp at hq

theorem dRelax_closed {G : EdgeGraph} {ac : Bool} {e : Enode} {c : ℚ} {st : DState}
    (he : closedSkip G ac e = false) (h : DClosed G ac st) :
    DClosed G ac (dRelax G ac e c st) := by
  rw [dRelax_eq]
  generalize successors G e = l
  induction l generalizing st with
  | nil => simpa using h
  | cons nb rest ih =>
    simp only [List.foldl_cons]
    by_cases hnb : closedSkip G ac nb
    · rw [if_pos hnb]
      exact ih h
    · rw [if_neg hnb]
      by_cases himp : ((c + turnCost G e nb + enodeTravelTime G nb : ℚ) : QInf) <
          lookupQ st.dist nb
      · rw [if_pos himp]
        refine ih ⟨?_, ?_⟩
        · intro c' x hx
          simp only [List.mem_cons, Prod.mk.injEq] at hx
          rcases hx with ⟨h1, h2⟩ | hx
          · rw [h2]
            simpa using hnb
          · exact h.pq_ok c' x hx
        · intro x p hx
          simp only [List.mem_cons, Prod.mk.injEq] at hx
          rcases hx with ⟨h1, h2⟩ | hx
          · subst h1
            refine ⟨by simpa using hnb, ?_⟩
            intro q hq
            rw [h2] at hq
            have : q = e := by simpa using hq.symm
            rw [this]
            exact he
          · exact h.prev_ok x p hx
      · rw [if_neg himp]
        exact ih h

theorem dLoop_closed {G : EdgeGraph} {tg : List Enode} {ac : Bool} {mv : Option ℕ} :
    ∀ (fuel : ℕ) (st : DState) (r : Option (Enode × ℚ)) (stf : DState),
      DClosed G ac st → dLoop G tg ac mv fuel st = some (r, stf) →
      DClosed G ac stf ∧ ∀ e c, r = some (e, c) → closedSkip G ac e = false := by
  intro fuel
  induction fuel with
  | zero =>
    intro st r stf h heq
    simp [dLoop] at heq
  | succ fuel ih =>
    intro st r stf h heq
    rw [dLoop] at heq
    split at heq
    · next hp =>
      simp only [Option.some.injEq, Prod.mk.injEq] at heq
      obtain ⟨hr, hst⟩ := heq
      rw [← hr, ← hst]
      exact ⟨h, by simp⟩
    · next c e rest hp =>
      obtain ⟨hmem, hmin, hrest⟩ := popMin_spec hp
      have hsub : DClosed G ac { st with pq := rest } := by
        refine ⟨?_, h.prev_ok⟩
        intro c' x hx
        exact h.pq_ok c' x (mem_of_mem_erase (hrest ▸ hx))
      by_cases hcap : capReached mv st.expanded = true
      · rw [if_pos hcap] at heq
        simp only [Option.some.injEq, Prod.mk.injEq] at heq
        obtain ⟨hr, hst⟩ := heq
        rw [← hr, ← hst]
        exact ⟨hsub, by simp⟩
      · rw [if_neg hcap] at heq
        by_cases hstale : lookupQ st.dist e < ((c : ℚ) : QInf)
        · rw [if_pos hstale] at heq
          exact ih _ r stf hsub heq
        · rw [if_neg hstale] at heq
          simp only [] at heq
          have he : closedSkip G ac e = false := h.pq_ok c e hmem
          by_cases htgt : e ∈ tg
          · rw [if_pos htgt] at heq
            simp only [Option.some.injEq, Prod.mk.injEq] at heq
            obtain ⟨hr, hst⟩ := heq
            rw [← hr, ← hst]
            refine ⟨⟨fun c' x hx => hsub.pq_ok c' x hx, hsub.prev_ok⟩, ?_⟩
            intro e' c' heq2
            have h4 : e = e' := ((Prod.mk.injEq _ _ _ _).mp (Option.some.inj heq2)).1
            rw [← h4]
            exact he
          · rw [if_neg htgt] at heq
            refine ih _ r stf ?_ heq
            exact dRelax_closed he ⟨hsub.pq_ok, hsub.prev_ok⟩

/-- A route returned by `dijkstra_route` only contains segments passing
the hard closed filter. -/
theorem dijkstra_route_closed {fuel : ℕ} {G : EdgeGraph} {s t : ℕ}
    {oc : Option Constraints} {ac : Bool} {mv : Option ℕ} {res : SearchResult}
    {l : List Enode}
    (hroute : dijkstra_route fuel G s t oc ac mv = some res)
    (hl : res.route_enodes = some l) :
    ∀ x ∈ l, closedSkip G ac x = false := by
  by_cases hempty : enodesFromStart G s = [] ∨ targetNodes G t = []
  · have : dijkstra_route fuel G s t oc ac mv = some (noRoute 0) := by
      simp only [dijkstra_route]
      rw [if_pos hempty]
    rw [this] at hroute
    have hres : res = noRoute 0 := by simpa using hroute.symm
    rw [hres] at hl
    simp [noRoute] at hl
  · rw [dijkstra_route_eq fuel G s t oc ac mv hempty] at hroute
    cases hd : dLoop G (targetSet G t oc) ac mv fuel (dInit G ac (startSet G s oc)) with
    | none => rw [hd] at hroute; simp at hroute
    | some p =>
      obtain ⟨r, st⟩ := p
      cases r with
      | none =>
        rw [hd] at hroute
        have hres : res = noRoute st.expanded := by simpa using hroute.symm
        rw [hres] at hl
        simp [noRoute] at hl
      | some ec =>
        obtain ⟨e, c⟩ := ec
        rw [hd] at hroute
        have hres : res = ⟨some (buildRouteNodes ((buildPath st.prev
            (st.prev.length + 1) e).reverse)),
            some ((buildPath st.prev (st.prev.length + 1) e).reverse),
            ((c : ℚ) : QInf), st.expanded⟩ := by
          simpa using hroute.symm
        rw [hres] at hl
        have hleq : l = (buildPath st.prev (st.prev.length + 1) e).reverse := by
          simpa using hl.symm
        obtain ⟨hcl, hfound⟩ := dLoop_closed fuel (dInit G ac (startSet G s oc))
          (some (e, c)) st (dInit_closed G ac (startSet G s oc)) hd
        intro x hx
        rw [hleq] at hx
        exact buildPath_all hcl.prev_ok (st.prev.length + 1) e (hfound e c rfl) x
          (List.mem_reverse.mp hx)

/-- Closed-freedom invariant of the A* state. -/
structure AClosed (G : EdgeGraph) (ac : Bool) (st : AState) : Prop where
  heap_ok : ∀ f g x, (f, g, x) ∈ st.open_heap → closedSkip G ac x = false
  prev_ok : PrevOK G ac st.prev

theorem aInit_closed (G : EdgeGraph) (ac : Bool) (h : Enode → ℚ) (seeds : List Enode) :
    AClosed G ac (aInit G ac h seeds) := by
  rw [aInit_eq]
  constructor
  · intro f g x hx
    simp only [List.mem_map, List.mem_reverse, List.mem_filter, Bool.not_eq_true',
      Prod.mk.injEq] at hx
    obtain ⟨s, ⟨hs1, hs2⟩, hf, hg, hxe⟩ := hx
    rw [← hxe]
    exact hs2
  · intro x p hx
    simp only [List.mem_map, List.mem_reverse, List.mem_filter, Bool.not_eq_true',
      Prod.mk.injEq] at hx
    obtain ⟨s, ⟨hs1, hs2⟩, hxe, hpe⟩ := hx
    refine ⟨hxe ▸ hs2, ?_⟩
    intro q hq
    rw [← hpe] at hq
    simp at hq

theorem aRelax_closed {G : EdgeGraph} {ac : Bool} {h : Enode → ℚ} {e : Enode} {g : ℚ}
    {st : AState}
    (he : closedSkip G ac e = false) (hc : AClosed G ac st) :
    AClosed G ac (aRelax G ac h e g st) := by
  rw [aRelax_eq]
  generalize successors G e = l
  induction l generalizing st with
  | nil => simpa using hc
  | cons nb rest ih =>
    simp only [List.foldl_cons]
    by_cases hnb : closedSkip G ac nb
    · rw [if_pos hnb]
      exact ih hc
    · rw [if_neg hnb]
      by_cases himp : ((g + turnCost G e nb + enodeTravelTime G nb : ℚ) : QInf) <
          lookupQ st.gscore nb
      · rw [if_pos himp]
        refine ih ⟨?_, ?_⟩
        · intro f' g' x hx
          simp only [List.mem_cons, Prod.mk.injEq] at hx
          rcases hx with ⟨h1, h2, h3⟩ | hx
          · rw [h3]
            simpa using hnb
          · exact hc.heap_ok f' g' x hx
        · intro x p hx
          simp only [List.mem_cons, Prod.mk.injEq] at hx
          rcases hx with ⟨h1, h2⟩ | hx
          · subst h1
            refine ⟨by simpa using hnb, ?_⟩
            intro q hq
            rw [h2] at hq
            have : q = e := by simpa using hq.symm
            rw [this]
            exact he
          · exact hc.prev_ok x p hx
      · rw [if_neg himp]
        exact ih hc

theorem aLoop_closed {G : EdgeGraph} {tg : List Enode} {ac : Bool} {mv : Option ℕ}
    {h : Enode → ℚ} :
    ∀ (fuel : ℕ) (st : AState) (r : Option (Enode × ℚ)) (stf : AState),
      AClosed G ac st → aLoop G tg ac mv h fuel st = some (r, stf) →
      AClosed G ac stf ∧ ∀ e g, r = some (e, g) → closedSkip G ac e = false := by
  intro fuel
  induction fuel with
  | zero =>
    intro st r stf hc heq
    simp [aLoop] at heq
  | succ fuel ih =>
    intro st r stf hc heq
    rw [aLoop] at heq
    split at heq
    · next hp =>
      simp only [Option.some.injEq, Prod.mk.injEq] at heq
      obtain ⟨hr, hst⟩ := heq
      rw [← hr, ← hst]
      exact ⟨hc, by simp⟩
    · next f g e rest hp =>
      obtain ⟨hmem, hrest⟩ := popMin3_spec hp
      have hsub : AClosed G ac { st with open_heap := rest } := by
        refine ⟨?_, hc.prev_ok⟩
        intro f' g' x hx
        exact hc.heap_ok f' g' x (mem_of_mem_erase3 (hrest ▸ hx))
      by_cases hcap : capReached mv st.expanded = true
      · rw [if_pos hcap] at heq
        simp only [Option.some.injEq, Prod.mk.injEq] at heq
        obtain ⟨hr, hst⟩ := heq
        rw [← hr, ← hst]
        exact ⟨hsub, by simp⟩
      · rw [if_neg hcap] at heq
        by_cases hvis : e ∈ st.visited
        · rw [if_pos hvis] at heq
          exact ih _ r stf hsub heq
        · rw [if_neg hvis] at heq
          simp only [] at heq
          have he : closedSkip G ac e = false := hc.heap_ok f g e hmem
          have hsub2 : AClosed G ac
              { st with open_heap := rest, visited := e :: st.visited } :=
            ⟨fun f' g' x hx => hsub.heap_ok f' g' x hx, hsub.prev_ok⟩
          by_cases hstale : lookupQ st.gscore e < ((g : ℚ) : QInf)
          · rw [if_pos hstale] at heq
            exact ih _ r stf hsub2 heq
          · rw [if_neg hstale] at heq
            by_cases htgt : e ∈ tg
            · rw [if_pos htgt] at heq
              simp only [Option.some.injEq, Prod.mk.injEq] at heq
              obtain ⟨hr, hst⟩ := heq
              rw [← hr, ← hst]
              refine ⟨⟨fun f' g' x hx => hsub2.heap_ok f' g' x hx, hsub2.prev_ok⟩, ?_⟩
              intro e' g' heq2
              have h4 : e = e' := ((Prod.mk.injEq _ _ _ _).mp (Option.some.inj heq2)).1
              rw [← h4]
              exact he
            · rw [if_neg htgt] at heq
              refine ih _ r stf ?_ heq
              exact aRelax_closed he ⟨hsub2.heap_ok, hsub2.prev_ok⟩

/-- A route returned by `astar_route` only contains segments passing the
hard closed filter. -/
theorem astar_route_closed {hypot : ℚ → ℚ → ℚ} {fuel : ℕ} {G : EdgeGraph} {s t : ℕ}
    {oc : Option Constraints} {vmax : ℚ} {ac : Bool} {mv : Option ℕ}
    {res : SearchResult} {l : List Enode}
    (hroute : astar_route hypot fuel G s t oc vmax ac mv = some res)
    (hl : res.route_enodes = some l) :
    ∀ x ∈ l, closedSkip G ac x = false := by
  by_cases hempty : enodesFromStart G s = [] ∨ targetNodes G t = []
  · have : astar_route hypot fuel G s t oc vmax ac mv = some (noRoute 0) := by
      simp only [astar_route]
      rw [if_pos hempty]
    rw [this] at hroute
    have hres : res = noRoute 0 := by simpa using hroute.symm
    rw [hres] at hl
    simp [noRoute] at hl
  · rw [astar_route_eq hypot fuel G s t oc vmax ac mv hempty] at hroute
    cases hd : aLoop G (targetSet G t oc) ac mv (astarHeuristic hypot G t oc vmax) fuel
        (aInit G ac (astarHeuristic hypot G t oc vmax) (startSet G s oc)) with
    | none => rw [hd] at hroute; simp at hroute
    | some p =>
      obtain ⟨r, st⟩ := p
      cases r with
      | none =>
        rw [hd] at hroute
        have hres : res = noRoute st.expanded := by simpa using hroute.symm
        rw [hres] at hl
        simp [noRoute] at hl
      | some eg =>
        obtain ⟨e, g⟩ := eg
        rw [hd] at hroute
        have hres : res = ⟨some (buildRouteNodes ((buildPath st.prev
            (st.prev.length + 1) e).reverse)),
            some ((buildPath st.prev (st.prev.length + 1) e).reverse),
            ((g : ℚ) : QInf), st.expanded⟩ := by
          simpa using hroute.symm
        rw [hres] at hl
        have hleq : l = (buildPath st.prev (st.prev.length + 1) e).reverse := by
          simpa using hl.symm
        obtain ⟨hcl, hfound⟩ := aLoop_closed fuel
          (aInit G ac (astarHeuristic hypot G t oc vmax) (startSet G s oc))
          (some (e, g)) st
          (aInit_closed G ac (astarHeuristic hypot G t oc vmax) (startSet G s oc)) hd
        intro x hx
        rw [hleq] at hx
        exact buildPath_all hcl.prev_ok (st.prev.length + 1) e (hfound e g rfl) x
          (List.mem_reverse.mp hx)

/-- Closed-freedom invariant of the bidirectional state. -/
structure BClosed (G : EdgeGraph) (ac : Bool) (st : BState) : Prop where
  fwd_ok : ∀ f g x, (f, g, x) ∈ st.open_fwd → closedSkip G ac x = false
  bwd_ok : ∀ f g x, (f, g, x) ∈ st.open_bwd → closedSkip G ac x = false
  pf_ok : PrevOK G ac st.prev_fwd
  pb_ok : PrevOK G ac st.prev_bwd
  meet_ok : ∀ m, st.meeting = some m → closedSkip G ac m = false

theorem bInit_closed (G : EdgeGraph) (ac : Bool) (hf hb : Enode → ℚ)
    (seeds targets : List Enode) :
    BClosed G ac (bInitBwd G ac hb targets (bInitFwd G ac hf seeds
      ⟨[], [], [], [], [], [], ⊤, none, 0⟩)) := by
  rw [bInitFwd_eq, bInitBwd_eq]
  simp only [List.append_nil]
  refine ⟨?_, ?_, ?_, ?_, ?_⟩
  · intro f g x hx
    simp only [List.mem_map, List.mem_reverse, List.mem_filter, Bool.not_eq_true',
      Prod.mk.injEq] at hx
    obtain ⟨s, ⟨hs1, hs2⟩, hf2, hg2, hxe⟩ := hx
    rw [← hxe]
    exact hs2
  · intro f g x hx
    simp only [List.mem_map, List.mem_reverse, List.mem_filter, Bool.not_eq_true',
      Prod.mk.injEq] at hx
    obtain ⟨s, ⟨hs1, hs2⟩, hf2, hg2, hxe⟩ := hx
    rw [← hxe]
    exact hs2
  · intro x p hx
    simp only [List.mem_map, List.mem_reverse, List.mem_filter, Bool.not_eq_true',
      Prod.mk.injEq] at hx
    obtain ⟨s, ⟨hs1, hs2⟩, hxe, hpe⟩ := hx
    refine ⟨hxe ▸ hs2, ?_⟩
    intro q hq
    rw [← hpe] at hq
    simp at hq
  · intro x p hx
    simp only [List.mem_map, List.mem_reverse, List.mem_filter, Bool.not_eq_true',
      Prod.mk.injEq] at hx
    obtain ⟨s, ⟨hs1, hs2⟩, hxe, hpe⟩ := hx
    refine ⟨hxe ▸ hs2, ?_⟩
    intro q hq
    rw [← hpe] at hq
    simp at hq
  · intro m hm
    exact absurd hm (by simp)

theorem bMeetF_closed {G : EdgeGraph} {ac : Bool} {e : Enode} {g : ℚ} {st : BState}
    (he : closedSkip G ac e = false) (h : BClosed G ac st) :
    BClosed G ac (bMeetF e g st) := by
  unfold bMeetF
  split
  · split
    · refine ⟨h.fwd_ok, h.bwd_ok, h.pf_ok, h.pb_ok, ?_⟩
      intro m hm
      have : e = m := by simpa using hm
      rw [← this]
      exact he
    · exact h
  · exact h

theorem bMeetB_closed {G : EdgeGraph} {ac : Bool} {e : Enode} {g : ℚ} {st : BState}
    (he : closedSkip G ac e = false) (h : BClosed G ac st) :
    BClosed G ac (bMeetB e g st) := by
  unfold bMeetB
  split
  · split
    · refine ⟨h.fwd_ok, h.bwd_ok, h.pf_ok, h.pb_ok, ?_⟩
      intro m hm
      have : e = m := by simpa using hm
      rw [← this]
      exact he
    · exact h
  · exact h

theorem bRelaxF_closed {G : EdgeGraph} {ac : Bool} {hf : Enode → ℚ} {e : Enode} {g : ℚ}
    {st : BState}
    (he : closedSkip G ac e = false) (h : BClosed G ac st) :
    BClosed G ac (bRelaxF G ac hf e g st) := by
  rw [bRelaxF_eq]
  generalize successors G e = l
  induction l generalizing st with
  | nil => simpa using h
  | cons nb rest ih =>
    simp only [List.foldl_cons]
    by_cases hnb : closedSkip G ac nb
    · rw [if_pos hnb]
      exact ih h
    · rw [if_neg hnb]
      by_cases himp : ((g + turnCost G e nb + enodeTravelTime G nb : ℚ) : QInf) <
          lookupQ st.g_fwd nb
      · rw [if_pos himp]
        refine ih ⟨?_, h.bwd_ok, ?_, h.pb_ok, h.meet_ok⟩
        · intro f' g' x hx
          simp only [List.mem_cons, Prod.mk.injEq] at hx
          rcases hx with ⟨h1, h2, h3⟩ | hx
          · rw [h3]
            simpa using hnb
          · exact h.fwd_ok f' g' x hx
        · intro x p hx
          simp only [List.mem_cons, Prod.mk.injEq] at hx
          rcases hx with ⟨h1, h2⟩ | hx
          · subst h1
            refine ⟨by simpa using hnb, ?_⟩
            intro q hq
            rw [h2] at hq
            have : q = e := by simpa using hq.symm
            rw [this]
            exact he
          · exact h.pf_ok x p hx
      · rw [if_neg himp]
        exact ih h

theorem bRelaxB_closed {G : EdgeGraph} {ac : Bool} {hb : Enode → ℚ} {e : Enode} {g : ℚ}
    {st : BState}
    (he : closedSkip G ac e = false) (h : BClosed G ac st) :
    BClosed G ac (bRelaxB G ac hb e g st) := by
  rw [bRelaxB_eq]
  generalize predecessors G e = l
  induction l generalizing st with
  | nil => simpa using h
  | cons nb rest ih =>
    simp only [List.foldl_cons]
    by_cases hnb : closedSkip G ac nb
    · rw [if_pos hnb]
      exact ih h
    · rw [if_neg hnb]
      by_cases himp : ((g + turnCost G nb e + enodeTravelTime G nb : ℚ) : QInf) <
          lookupQ st.g_bwd nb
      · rw [if_pos himp]
        refine ih ⟨h.fwd_ok, ?_, h.pf_ok, ?_, h.meet_ok⟩
        · intro f' g' x hx
          simp only [List.mem_cons, Prod.mk.injEq] at hx
          rcases hx with ⟨h1, h2, h3⟩ | hx
          · rw [h3]
            simpa using hnb
          · exact h.bwd_ok f' g' x hx
        · intro x p hx
          simp only [List.mem_cons, Prod.mk.injEq] at hx
          rcases hx with ⟨h1, h2⟩ | hx
          · subst h1
            refine ⟨by simpa using hnb, ?_⟩
            intro q hq
            rw [h2] at hq
            have : q = e := by simpa using hq.symm
            rw [this]
            exact he
          · exact h.pb_ok x p hx
      · rw [if_neg himp]
        exact ih h

theorem bLoop_closed {G : EdgeGraph} {ac : Bool} {mv : Option ℕ} {hf hb : Enode → ℚ} :
    ∀ (fuel : ℕ) (st stf : BState),
      BClosed G ac st → bLoop G ac mv hf hb fuel st = some stf →
      BClosed G ac stf := by
  intro fuel
  induction fuel with
  | zero =>
    intro st stf _ heq
    simp [bLoop] at heq
  | succ fuel ih =>
    intro st stf h heq
    rw [bLoop] at heq
    by_cases hempty : st.open_fwd = [] ∨ st.open_bwd = []
    · rw [if_pos hempty] at heq
      have : stf = st := by simpa using heq.symm
      rw [this]
      exact h
    · rw [if_neg hempty] at heq
      by_cases hcap : bCapReached mv st.expanded = true
      · rw [if_pos hcap] at heq
        have : stf = st := by simpa using heq.symm
        rw [this]
        exact h
      · rw [if_neg hcap] at heq
        split at heq
        · next hp =>
          have : stf = st := by simpa using heq.symm
          rw [this]
          exact h
        · next f g e rest hp =>
          obtain ⟨hmem, hrest⟩ := popMin3_spec hp
          obtain ⟨st1, hst1⟩ : ∃ st1 : BState, st1 =
              { st with open_fwd := rest, expanded := st.expanded + 1 } := ⟨_, rfl⟩
          rw [← hst1] at heq
          have he : closedSkip G ac e = false := h.fwd_ok f g e hmem
          have h1 : BClosed G ac st1 := by
            rw [hst1]
            exact ⟨fun f' g' x hx => h.fwd_ok f' g' x (mem_of_mem_erase3 (hrest ▸ hx)),
              h.bwd_ok, h.pf_ok, h.pb_ok, h.meet_ok⟩
          by_cases hst : lookupQ st1.g_fwd e < ((g : ℚ) : QInf)
          · rw [if_pos hst] at heq
            exact ih st1 stf h1 heq
          · rw [if_neg hst] at heq
            have h2 : BClosed G ac (bRelaxF G ac hf e g (bMeetF e g st1)) :=
              bRelaxF_closed he (bMeetF_closed he h1)
            simp only [] at heq
            split at heq
            · next hp2 =>
              exact ih _ stf h2 heq
            · next f2 g2 e2 rest2 hp2 =>
              obtain ⟨hmem2, hrest2⟩ := popMin3_spec hp2
              have he2 : closedSkip G ac e2 = false := h2.bwd_ok f2 g2 e2 hmem2
              have h3 : BClosed G ac
                  { bRelaxF G ac hf e g (bMeetF e g st1) with
                    open_bwd := rest2,
                    expanded := (bRelaxF G ac hf e g (bMeetF e g st1)).expanded + 1 } :=
                ⟨h2.fwd_ok,
                 fun f' g' x hx => h2.bwd_ok f' g' x (mem_of_mem_erase3 (hrest2 ▸ hx)),
                 h2.pf_ok, h2.pb_ok, h2.meet_ok⟩
              by_cases hst2 : lookupQ (bRelaxF G ac hf e g (bMeetF e g st1)).g_bwd e2 <
                  ((g2 : ℚ) : QInf)
              · rw [if_pos hst2] at heq
                exact ih _ stf h3 heq
              · rw [if_neg hst2] at heq
                exact ih _ stf (bRelaxB_closed he2 (bMeetB_closed he2 h3)) heq

/-- A route returned by `bidirectional_astar_route` only contains
segments passing the hard closed filter. -/
theorem bidirectional_route_closed {hypot : ℚ → ℚ → ℚ} {fuel : ℕ} {G : EdgeGraph}
    {s t : ℕ} {vmax : ℚ} {ac : Bool} {oc : Option Constraints} {mv : Option ℕ}
    {res : SearchResult} {l : List Enode}
    (hroute : bidirectional_astar_route hypot fuel G s t vmax ac oc mv = some res)
    (hl : res.route_enodes = some l) :
    ∀ x ∈ l, closedSkip G ac x = false := by
  by_cases hempty : enodesFromStart G s = [] ∨ targetNodes G t = []
  · have : bidirectional_astar_route hypot fuel G s t vmax ac oc mv = some (noRoute 0) := by
      simp only [bidirectional_astar_route]
      rw [if_pos hempty]
    rw [this] at hroute
    have hres : res = noRoute 0 := by simpa using hroute.symm
    rw [hres] at hl
    simp [noRoute] at hl
  · simp only [bidirectional_astar_route] at hroute
    rw [if_neg hempty] at hroute
    split at hroute
    · simp at hroute
    · next st hb2 =>
      have hres : res = bFinalize st := by simpa using hroute.symm
      have hcl : BClosed G ac st := bLoop_closed fuel _ st (bInit_closed G ac _ _ _ _) hb2
      rw [hres] at hl
      unfold bFinalize at hl
      cases hm : st.meeting with
      | none =>
        rw [hm] at hl
        simp [noRoute] at hl
      | some m =>
        rw [hm] at hl
        simp only [] at hl
        have hmok := hcl.meet_ok m hm
        cases hpb : alookup st.prev_bwd m with
        | none =>
          rw [hpb] at hl
          have hleq : l = (buildPath st.prev_fwd (st.prev_fwd.length + 1) m).reverse := by
            simpa using hl.symm
          intro x hx
          rw [hleq] at hx
          exact buildPath_all hcl.pf_ok _ m hmok x (List.mem_reverse.mp hx)
        | some po =>
          cases po with
          | none =>
            rw [hpb] at hl
            have hleq : l = (buildPath st.prev_fwd (st.prev_fwd.length + 1) m).reverse := by
              simpa using hl.symm
            intro x hx
            rw [hleq] at hx
            exact buildPath_all hcl.pf_ok _ m hmok x (List.mem_reverse.mp hx)
          | some p =>
            rw [hpb] at hl
            have hleq : l = (buildPath st.prev_fwd (st.prev_fwd.length + 1) m).reverse ++
                buildPath st.prev_bwd (st.prev_bwd.length + 1) p := by
              simpa using hl.symm
            intro x hx
            rw [hleq] at hx
            rcases List.mem_append.mp hx with hx | hx
            · exact buildPath_all hcl.pf_ok _ m hmok x (List.mem_reverse.mp hx)
            · exact buildPath_all hcl.pb_ok _ p
                ((hcl.pb_ok m (some p) (alookup_mem hpb)).2 p rfl) x hx

/-- Fold characterisation of `_run_search`'s best-route selection: a
selected result was among the candidates. -/
theorem pickBest_fold (G : EdgeGraph) (r : SearchResult) :
    ∀ (cands : List SearchResult) (acc : Option SearchResult × QInf),
    (cands.foldl (fun acc x =>
      if compute_route_tt G x.route_enodes < acc.2 then
        (some x, compute_route_tt G x.route_enodes) else acc) acc).1 = some r →
    acc.1 = some r ∨ r ∈ cands := by
  intro cands
  induction cands with
  | nil =>
    intro acc h
    exact Or.inl h
  | cons x rest ih =>
    intro acc h
    simp only [List.foldl_cons] at h
    rcases ih _ h with h2 | h2
    · by_cases hc : compute_route_tt G x.route_enodes < acc.2
      · rw [if_pos hc] at h2
        have hx : x = r := by simpa using h2
        exact Or.inr (hx ▸ List.mem_cons_self x rest)
      · rw [if_neg hc] at h2
        exact Or.inl h2
    · exact Or.inr (List.mem_cons_of_mem x h2)

theorem pickBest_mem {G : EdgeGraph} {cands : List SearchResult} {r : SearchResult}
    (h : pickBest G cands = some r) : r ∈ cands := by
  have h2 : (cands.foldl (fun acc x =>
      if compute_route_tt G x.route_enodes < acc.2 then
        (some x, compute_route_tt G x.route_enodes) else acc)
      ((none : Option SearchResult), (⊤ : QInf))).1 = some r := h
  rcases pickBest_fold G r cands _ h2 with h3 | h3
  · simp at h3
  · exact h3

/-- A route selected by `_run_search` only contains segments passing the
hard closed filter. -/
theorem runSearch_closed {hypot : ℚ → ℚ → ℚ} {fuel : ℕ} {G : EdgeGraph} {s t : ℕ}
    {ac : Bool} {res : SearchResult} {l : List Enode}
    (h : runSearch hypot fuel G s t ac = some (some res))
    (hl : res.route_enodes = some l) :
    ∀ x ∈ l, closedSkip G ac x = false := by
  unfold runSearch at h
  simp only [bind, Option.bind_eq_some, pure, Option.some.injEq] at h
  obtain ⟨rd, hrd, ra, hra, rb, hrb, hpick⟩ := h
  have hmem := pickBest_mem hpick
  simp only [List.mem_cons, List.not_mem_nil, or_false] at hmem
  rcases hmem with hmem | hmem | hmem
  · exact dijkstra_route_closed (hmem ▸ hrd) hl
  · exact astar_route_closed (hmem ▸ hra) hl
  · exact bidirectional_route_closed (hmem ▸ hrb) hl

/-- An `ok` route from the per-level loop only contains segments passing
the hard closed filter for the frozen `allow_closed` flag. -/
theorem planLevels_closed {hypot : ℚ → ℚ → ℚ} {fuel : ℕ} {G : EdgeGraph} {s t : ℕ}
    {vt : String} {profile : Constraints} {cf : Bool} {pr : PlanResult} {l : List Enode} :
    ∀ {levels : List ℕ},
    planLevels hypot fuel G s t vt profile cf levels = some (.ok pr) →
    pr.route_enodes = some l →
    ∀ x ∈ l, closedSkip G cf x = false := by
  intro levels
  induction levels with
  | nil =>
    intro h hl
    have hpr : pr = infeasibleSentinel s t vt := by
      simpa [planLevels] using h.symm
    rw [hpr] at hl
    simp [infeasibleSentinel] at hl
  | cons lvl rest ih =>
    intro h hl
    rw [planLevels] at h
    simp only [bind, Option.bind_eq_some] at h
    obtain ⟨res?, hrs, h⟩ := h
    cases res? with
    | none => simp at h
    | some res =>
      simp only [] at h
      by_cases hv : (validate_route G res.route_enodes
          (relax_constraints profile lvl)).1 = true
      · rw [if_pos hv] at h
        have hre : res.route_enodes = some l := by
          have h2 := h
          simp only [Option.some.injEq, Except.ok.injEq] at h2
          rw [← h2] at hl
          exact hl
        exact runSearch_closed hrs hre
      · rw [if_neg hv] at h
        exact ih h hl

/-- Reduced form of `planRoute` for a known vehicle profile. -/
theorem planRoute_eq (hypot : ℚ → ℚ → ℚ) (fuel : ℕ) (G : EdgeGraph) (s t : ℕ)
    (vt : String) (maxlvl : ℕ) (profile : Constraints) (cf : Bool)
    (hprof : alookup VEHICLE_PROFILES vt = some profile)
    (hac : profile.avoid_closed = some cf) :
    planRoute hypot fuel G s t vt maxlvl =
      planLevels hypot fuel G s t vt profile cf (List.range (maxlvl + 1)) := by
  unfold planRoute
  rw [hprof]
  simp only []
  rw [hac]

/-! ## Claim C3 -/

/-- C3 amended: the planner freezes the search `allow_closed` flag to the
profile's `avoid_closed` value.  For `police_units` that value is
`false`, so closed segments really are hard-excluded from seeding and
expansion at every relaxation level and a returned route never contains
one.  For `ambulance` and `fire_engine` the value is `true`, the searches
are run with `allow_closed = True`, and a returned route can contain a
closed segment (see the counterexample). -/
theorem claim_C3_amended {hypot : ℚ → ℚ → ℚ} {fuel : ℕ} {G : EdgeGraph} {s t : ℕ}
    {maxlvl : ℕ} {pr : PlanResult} {l : List Enode}
    (h : planRoute hypot fuel G s t "police_units" maxlvl = some (.ok pr))
    (hl : pr.route_enodes = some l) :
    ∀ x ∈ l, isEnodeClosed G x = false := by
  obtain ⟨profile, hprof, hac⟩ : ∃ p, alookup VEHICLE_PROFILES "police_units" = some p ∧
      p.avoid_closed = some false :=
    ⟨_, by with_unfolding_all rfl, by with_unfolding_all rfl⟩
  rw [planRoute_eq hypot fuel G s t "police_units" maxlvl profile false hprof hac] at h
  intro x hx
  have h2 := planLevels_closed h hl x hx
  simpa [closedSkip] using h2

/-- Fixture for the C3 counterexample: a single segment `1 → 2` that is
marked closed but passes every hard constraint check of the ambulance
profile. -/
def c3Seg : SegData :=
  { orig_u := some 1, orig_v := some 2, travel_time := some 1,
    closed := some true, highway := some "primary", lanes := some 2 }

def c3Graph : EdgeGraph := ⟨[((1, 2, 0), c3Seg)], []⟩

def c3Pr : PlanResult :=
  match planRoute (fun x y => 0) 6 c3Graph 1 2 "ambulance" 3 with
  | some (.ok pr) => pr
  | _ => infeasibleSentinel 0 0 ""

/-- C3 counterexample: for the `ambulance` profile (`avoid_closed =
True`) the planner passes `allow_closed = True` to every search, so the
closed segment is seeded and expanded, and `planRoute` returns (already
at relaxation level `0`) a valid route that contains the segment marked
closed — it was not hard-excluded. -/
theorem claim_C3_counterexample :
    planRoute (fun x y => 0) 6 c3Graph 1 2 "ambulance" 3 = some (.ok c3Pr) ∧
    c3Pr.route_enodes = some [(1, 2, 0)] ∧
    c3Pr.valid = true ∧
    isEnodeClosed c3Graph (1, 2, 0) = true := by
  refine ⟨by with_unfolding_all rfl, by with_unfolding_all rfl,
    by with_unfolding_all rfl, by with_unfolding_all rfl⟩

/-- Fixture for the C3-amended witness: the same segment, open. -/
def c3wSeg : SegData :=
  { orig_u := some 1, orig_v := some 2, travel_time := some 1,
    highway := some "primary", lanes := some 2 }

def c3wGraph : EdgeGraph := ⟨[((1, 2, 0), c3wSeg)], []⟩

def c3wPr : PlanResult :=
  match planRoute (fun x y => 0) 6 c3wGraph 1 2 "police_units" 3 with
  | some (.ok pr) => pr
  | _ => infeasibleSentinel 0 0 ""

/-- Concrete instance of the amended C3: a `police_units` route exists on
the one-segment fixture and contains no closed segment. -/
theorem claim_C3_amended_witness :
    planRoute (fun x y => 0) 6 c3wGraph 1 2 "police_units" 3 = some (.ok c3wPr) ∧
    c3wPr.route_enodes = some [(1, 2, 0)] ∧
    ∀ x ∈ [((1, 2, 0) : Enode)], isEnodeClosed c3wGraph x = false := by
  have h1 : planRoute (fun x y => 0) 6 c3wGraph 1 2 "police_units" 3 =
      some (.ok c3wPr) := by
    with_unfolding_all rfl
  have h2 : c3wPr.route_enodes = some [(1, 2, 0)] := by
    with_unfolding_all rfl
  exact ⟨h1, h2, claim_C3_amended h1 h2⟩

/-! ## Claim C1 -/

/-- Fixture for C1: the graph's only segment runs `5 → 6`, so a plan
request from junction `1` has an empty seed set. -/
def c1Graph : EdgeGraph :=
  ⟨[((5, 6, 0), { orig_u := some 5, orig_v := some 6, travel_time := some 1 })], []⟩

/-- C1: when no connecting path exists (here: the start junction has no
outgoing segments, so every search immediately reports "no route" with
infinite travel time), `_run_search` returns `None` — and `_plan_route`
then evaluates `res.get("route_enodes")` on `None`, raising
`AttributeError` instead of returning the infeasible sentinel.  The
planner does crash, for every heuristic. -/
theorem claim_C1 (hypot : ℚ → ℚ → ℚ) :
    planRoute hypot 5 c1Graph 1 6 "ambulance" 3 =
      some (.error "AttributeError: NoneType object has no attribute get") := by
  with_unfolding_all rfl

end CAEmergency
